import Mathlib

/-!
# Huffman coder (`src/main.cpp`): shallow embedding and verified properties

The C++ program keeps three fields in `HuffmanCoder`: the code table
`huffmanCode`, the frequency map `freqMap` and the tree `root`.  The embedding
below follows the source function by function.

Modelling conventions.

* `char` is modelled by `Char`, `std::string` by `List Char`.
* `int` is modelled by `Int` with the 32-bit two's complement range made explicit:
  the two places where the source computes with `int` (`freqMap[ch]++` and
  `left->freq + right->freq`) store `wrap32` of the exact result.  Inside the
  range `-2^31 .. 2^31 - 1` this is the exact result; outside it, it is the value
  the compiled program keeps (the language itself leaves signed overflow
  undefined).  The comparison of `compare` is the order of `Int`.
* `Node *` is modelled by the inductive type `Node`: the null pointer or a heap
  cell with the four fields of `struct Node`.
* `std::unordered_map` is modelled by an association list with unique keys.
  `operator[]` is `subscript` (it inserts a value-initialised entry for an absent
  key), assignment through `operator[]` is `assign`.
* `std::priority_queue<Node*, vector<Node*>, compare>` is modelled by the list of
  its elements.  `top()` returns an element of minimum `freq`; which one, among
  several of the same minimum weight, is left open by the library and by the
  iteration order of the `unordered_map` that feeds it.  The embedding takes a
  tie-break oracle `tie : Nat → Nat`: the `k`-th call of `top()` returns the
  `(tie k mod c)`-th of the `c` minimum-weight elements.  Every sequence of
  choices, on every arrangement of the queue, is realised by some oracle
  (`Merges.realised`), and every oracle makes such a sequence
  (`mergeLoop_merges`), so a theorem quantified over `tie` holds for every
  tie-breaking order and every iteration order of the map.
* Executions that leave defined behaviour (`top()` on an empty queue, a null
  pointer dereference) end in `Outcome.fault`.
-/

namespace Huffman

/-! ## Outcomes -/

/-- Error kinds of the specification's error taxonomy.  The source has no statement
that reports any of them; the type exists so that claims about reported errors can
be stated. -/
inductive ErrorKind where
  | EmptyInput
  | UnknownSymbol
  | InvalidBit
  | TruncatedCode
  deriving DecidableEq

/-- Ways in which an execution of the source leaves defined behaviour. -/
inductive Fault where
  /-- The call `pq.top()` on an empty `std::priority_queue`. -/
  | topOfEmptyQueue
  /-- A member access through a null `Node *`. -/
  | nullDereference
  /-- The merge loop did not finish within the iteration bound of the model. -/
  | fuelExhausted
  deriving DecidableEq

/-- Result of running a piece of the program. -/
inductive Outcome (α : Type) where
  /-- Normal return with a value. -/
  | ok (value : α)
  /-- An error reported to the caller. -/
  | error (kind : ErrorKind)
  /-- The execution left defined behaviour. -/
  | fault (f : Fault)
  deriving DecidableEq

/-! ## Data model -/

/-- The value an `int` holds after a computation whose exact result is `x`: the
representative of `x` modulo `2^32` in the range `-2^31 .. 2^31 - 1`. -/
def wrap32 (x : Int) : Int := (x + 2147483648) % 4294967296 - 2147483648

/-- A value of type `Node *`: the null pointer, or a cell `Node{ch, freq, left, right}`. -/
inductive Node where
  | null : Node
  | mk (ch : Char) (freq : Int) (left right : Node) : Node
  deriving DecidableEq

/-- The field `freq` read through a pointer.  The queue only ever holds cells made
by `new Node(..)`, so the value chosen for `null` is never used by the program. -/
def Node.freq : Node → Int
  | .null => 0
  | .mk _ f _ _ => f

/-- The test `!p`. -/
def Node.isNull : Node → Bool
  | .null => true
  | .mk _ _ _ _ => false

/-- The constructor `Node(char c, int f)`: both children null. -/
def Node.leaf (c : Char) (f : Int) : Node := .mk c f .null .null

/-! ## `std::unordered_map` -/

/-- Lookup without insertion (`find`). -/
def find {β : Type} : List (Char × β) → Char → Option β
  | [], _ => none
  | (k, v) :: m, c => if k = c then some v else find m c

/-- The assignment `m[c] = v`. -/
def assign {β : Type} : List (Char × β) → Char → β → List (Char × β)
  | [], c, v => [(c, v)]
  | (k, w) :: m, c, v => if k = c then (k, v) :: m else (k, w) :: assign m c v

/-- The read `m[c]`: an absent key is inserted with the value-initialised `dflt`. -/
def subscript {β : Type} (dflt : β) (m : List (Char × β)) (c : Char) : List (Char × β) × β :=
  match find m c with
  | some v => (m, v)
  | none => (m ++ [(c, dflt)], dflt)

/-! ## `buildFrequencyMap` -/

/-- The statement `freqMap[ch]++`. -/
def incr (freqMap : List (Char × Int)) (ch : Char) : List (Char × Int) :=
  let r := subscript 0 freqMap ch
  assign r.1 ch (wrap32 (r.2 + 1))

/-- The function `buildFrequencyMap(str)`, started from the map `freqMap`. -/
def buildFrequencyMap (str : List Char) (freqMap : List (Char × Int)) : List (Char × Int) :=
  str.foldl incr freqMap

/-! ## `std::priority_queue` with `compare` -/

/-- Least `freq` among the elements of the queue (`0` for the empty queue). -/
def minFreq : List Node → Int
  | [] => 0
  | x :: xs =>
    match xs with
    | [] => x.freq
    | _ :: _ => min x.freq (minFreq xs)

/-- Position in `q` of the `j`-th element whose `freq` is `m`. -/
def nthOfWeight (m : Int) : Nat → List Node → Nat
  | _, [] => 0
  | j, x :: xs =>
    if x.freq = m then
      match j with
      | 0 => 0
      | j + 1 => nthOfWeight m j xs + 1
    else nthOfWeight m j xs + 1

/-- Position of the element that `top()` returns under tie-break choice `t`. -/
def topIdx (t : Nat) (q : List Node) : Nat :=
  nthOfWeight (minFreq q) (t % q.countP (fun x => x.freq = minFreq q)) q

/-- The call `pq.top()`; `none` on an empty queue. -/
def top (t : Nat) (q : List Node) : Option Node := q.get? (topIdx t q)

/-- The call `pq.pop()`: removes the element `top()` returns. -/
def pop (t : Nat) (q : List Node) : List Node := q.eraseIdx (topIdx t q)

/-- The call `pq.push(n)`. -/
def push (q : List Node) (n : Node) : List Node := q ++ [n]

/-! ## `buildHuffmanTree` -/

/-- The loop `while (pq.size() != 1) { .. }` followed by `root = pq.top()`.
`k` counts the calls of `top()` made so far. -/
def mergeLoop (tie : Nat → Nat) : Nat → Nat → List Node → Outcome Node
  | fuel, k, pq =>
    if pq.length = 1 then
      match top (tie k) pq with
      | none => .fault .topOfEmptyQueue
      | some r => .ok r
    else
      match top (tie k) pq with
      | none => .fault .topOfEmptyQueue
      | some left =>
        let pq1 := pop (tie k) pq
        match top (tie (k + 1)) pq1 with
        | none => .fault .topOfEmptyQueue
        | some right =>
          let pq2 := pop (tie (k + 1)) pq1
          let sum := wrap32 (left.freq + right.freq)
          let newNode := Node.mk '\x00' sum left right
          match fuel with
          | 0 => .fault .fuelExhausted
          | fuel + 1 => mergeLoop tie fuel (k + 2) (push pq2 newNode)

/-- The first loop of `buildHuffmanTree`: one leaf per entry of `freqMap`. -/
def seedQueue (freqMap : List (Char × Int)) : List Node :=
  freqMap.foldl (fun pq pair => push pq (Node.leaf pair.1 pair.2)) []

/-- The function `buildHuffmanTree()`: the value stored in `root`. -/
def buildHuffmanTree (tie : Nat → Nat) (freqMap : List (Char × Int)) : Outcome Node :=
  let pq := seedQueue freqMap
  mergeLoop tie pq.length 0 pq

/-! ## `generateHuffmanCodes` -/

/-- The function `generateHuffmanCodes(node, str)` acting on the table `huffmanCode`. -/
def generateHuffmanCodes :
    Node → List Char → List (Char × List Char) → List (Char × List Char)
  | .null, _, huffmanCode => huffmanCode
  | .mk ch _ left right, str, huffmanCode =>
    let h1 := if left.isNull && right.isNull then assign huffmanCode ch str else huffmanCode
    let h2 := generateHuffmanCodes left (str ++ ['0']) h1
    generateHuffmanCodes right (str ++ ['1']) h2

/-! ## The class `HuffmanCoder` -/

/-- The data members of `HuffmanCoder`. -/
structure HuffmanCoder where
  huffmanCode : List (Char × List Char)
  freqMap : List (Char × Int)
  root : Node
  deriving DecidableEq

/-- The constructor `HuffmanCoder(str)`. -/
def HuffmanCoder.new (tie : Nat → Nat) (str : List Char) : Outcome HuffmanCoder :=
  let freqMap := buildFrequencyMap str []
  match buildHuffmanTree tie freqMap with
  | .ok root =>
    .ok { huffmanCode := generateHuffmanCodes root [] [], freqMap := freqMap, root := root }
  | .error e => .error e
  | .fault f => .fault f

/-- One iteration of the loop of `encode`: `encodedStr += huffmanCode[ch]`. -/
def encodeStep (st : List (Char × List Char) × List Char) (ch : Char) :
    List (Char × List Char) × List Char :=
  let r := subscript [] st.1 ch
  (r.1, st.2 ++ r.2)

/-- The member function `encode(str)`: the coder after the call and the returned string. -/
def HuffmanCoder.encode (hc : HuffmanCoder) (str : List Char) :
    Outcome (HuffmanCoder × List Char) :=
  let r := str.foldl encodeStep (hc.huffmanCode, [])
  .ok ({ hc with huffmanCode := r.1 }, r.2)

/-- The loop of `decode`, from cursor `curr` with `decodedStr` accumulated so far. -/
def decodeLoop (root : Node) : Node → List Char → List Char → Outcome (List Char)
  | _, [], decodedStr => .ok decodedStr
  | curr, bit :: rest, decodedStr =>
    match curr with
    | .null => .fault .nullDereference
    | .mk _ _ left right =>
      let next := if bit = '0' then left else right
      match next with
      | .null => .fault .nullDereference
      | .mk ch _ l r =>
        if l.isNull && r.isNull then decodeLoop root root rest (decodedStr ++ [ch])
        else decodeLoop root next rest decodedStr

/-- The member function `decode(encodedStr)`. -/
def HuffmanCoder.decode (hc : HuffmanCoder) (encodedStr : List Char) : Outcome (List Char) :=
  decodeLoop hc.root hc.root encodedStr []

/-- The tie-break oracle that always takes the first minimum-weight element. -/
def firstMin : Nat → Nat := fun _ => 0

/-! ## Notions used to state and prove the properties -/

/-- One run of the merge loop with the tie-breaking abstracted away: `Merges q r`
holds when the loop started on queue contents `q` can end with root `r`. -/
inductive Merges : List Node → Node → Prop
  | done (r : Node) : Merges [r] r
  | step {q q1 q2 : List Node} {a b r : Node} :
      q.Perm (a :: q1) → (∀ y ∈ q, a.freq ≤ y.freq) →
      q1.Perm (b :: q2) → (∀ y ∈ q1, b.freq ≤ y.freq) →
      Merges (push q2 (Node.mk '\x00' (wrap32 (a.freq + b.freq)) a b)) r → Merges q r

/-- The leaves of a tree in the order `generateHuffmanCodes` visits them: symbol,
weight and the path from the root (`'0'` for left, `'1'` for right). -/
def leafPaths : Node → List (Char × Int × List Char)
  | .null => []
  | .mk ch f left right =>
    (if left.isNull && right.isNull then [(ch, f, [])] else [])
      ++ (leafPaths left).map (fun e => (e.1, e.2.1, '0' :: e.2.2))
      ++ (leafPaths right).map (fun e => (e.1, e.2.1, '1' :: e.2.2))

/-- The symbols at the leaves of a tree. -/
def leafChars (t : Node) : List Char := (leafPaths t).map (fun e => e.1)

/-- Weight and depth of every cell of a tree. -/
def weightDepths : Node → List (Int × Nat)
  | .null => []
  | .mk _ f left right =>
    (f, 0) :: ((weightDepths left ++ weightDepths right).map (fun p => (p.1, p.2 + 1)))

/-- Shape invariant of the trees the builder makes: every cell is a leaf or has two
children, and the weight of a cell with children is the `int` sum of their weights. -/
def Good : Node → Prop
  | .null => False
  | .mk _ f left right =>
    (left = .null ∧ right = .null) ∨
      (Good left ∧ Good right ∧ f = wrap32 (left.freq + right.freq))

/-- No sum in the tree left the range of `int`: the weight of every cell with
children is the exact sum of their weights. -/
def Exact : Node → Prop
  | .null => True
  | .mk _ f left right =>
    (left = .null ∧ right = .null) ∨ (Exact left ∧ Exact right ∧ f = left.freq + right.freq)

/-- A lighter cell is never nearer to the root than a heavier one. -/
def Mono (t : Node) : Prop :=
  ∀ p ∈ weightDepths t, ∀ p' ∈ weightDepths t, p.1 < p'.1 → p'.2 ≤ p.2

/-- Replaces the leaf for symbol `c` of weight `P.freq` by the tree `P`. -/
def expand (c : Char) (P : Node) : Node → Node
  | .null => .null
  | .mk ch f left right =>
    if left.isNull && right.isNull then
      (if ch = c ∧ f = P.freq then P else .mk ch f left right)
    else .mk ch f (expand c P left) (expand c P right)

/-- The code the table `m` holds for `c` (the empty string when there is none). -/
def codeOf (m : List (Char × List Char)) (c : Char) : List Char := (find m c).getD []

/-- Symbol and weight of every leaf of a tree. -/
def leaves (t : Node) : List (Char × Int) := (leafPaths t).map (fun e => (e.1, e.2.1))

/-- Symbol and weight of every leaf of the trees in the queue. -/
def forestLeaves : List Node → List (Char × Int)
  | [] => []
  | x :: xs => leaves x ++ forestLeaves xs

/-- The exact sum of the weights of a list of leaves. -/
def weightSum (L : List (Char × Int)) : Int := (L.map (fun p => p.2)).sum

/-- A tree built without overflow over leaves of non-negative weight: it is well
shaped, the weight of every cell with children is the exact sum of its children's
weights, and the weight of the root is the exact sum of the weights of the leaves. -/
def Sound (t : Node) : Prop :=
  Good t ∧ Exact t ∧ t.freq = weightSum (leaves t) ∧ ∀ p ∈ leaves t, 0 ≤ p.2

/-- The keys of an `unordered_map`. -/
def keys {β : Type} (m : List (Char × β)) : List Char := m.map (fun p => p.1)

/-- Sequencing of two program steps: the second runs on the value the first returns. -/
def Outcome.bind {α β : Type} : Outcome α → (α → Outcome β) → Outcome β
  | .ok a, f => f a
  | .error e, _ => .error e
  | .fault x, _ => .fault x

/-- The concatenation, in order, of the codes the table `m` holds for the symbols of
a string; a symbol without an entry contributes nothing. -/
def codesOf (m : List (Char × List Char)) : List Char → List Char
  | [] => []
  | c :: T => codeOf m c ++ codesOf m T

/-- The run `HuffmanCoder hf(S); hf.encode(T)`: the string returned. -/
def encodeWith (tie : Nat → Nat) (S T : List Char) : Outcome (List Char) :=
  (HuffmanCoder.new tie S).bind fun hf => (hf.encode T).bind fun r => .ok r.2

/-- The run `HuffmanCoder hf(S); hf.decode(bits)`: the string returned. -/
def decodeWith (tie : Nat → Nat) (S bits : List Char) : Outcome (List Char) :=
  (HuffmanCoder.new tie S).bind fun hf => hf.decode bits

/-- The run of `main` on the string `S`:
`HuffmanCoder hf(S); cs = hf.encode(S); dc = hf.decode(cs)`; the value of `dc`. -/
def roundTrip (tie : Nat → Nat) (S : List Char) : Outcome (List Char) :=
  (HuffmanCoder.new tie S).bind fun hf => (hf.encode S).bind fun r => r.1.decode r.2

/-- A cell with two children, both of them well-shaped trees. -/
def Internal (t : Node) : Prop :=
  ∃ ch f l r, t = Node.mk ch f l r ∧ Good l ∧ Good r

/-- How the test `bit == '0'` of `decode` reads a character: `'0'` as itself, every
other character as `'1'`. -/
def normBit (bit : Char) : Char := if bit = '0' then '0' else '1'

/-- Every cell of the tree weighs at least `m`. -/
def MinWeight (m : Int) (t : Node) : Prop := ∀ p ∈ weightDepths t, m ≤ p.1

/-- The field `left` read through a pointer (`null` for the null pointer, where the
program would have no value). -/
def Node.left : Node → Node
  | .null => .null
  | .mk _ _ l _ => l

/-- The field `right` read through a pointer. -/
def Node.right : Node → Node
  | .null => .null
  | .mk _ _ _ r => r

/-- Every cell of a tree: the root and the cells of its two subtrees. -/
def cells : Node → List Node
  | .null => []
  | .mk ch f l r => Node.mk ch f l r :: (cells l ++ cells r)

/-- The loop of `decode` with the cursor kept: the value of `curr` when the loop ends,
together with `decodedStr`. -/
def decodeRun (root : Node) : Node → List Char → List Char → Outcome (Node × List Char)
  | curr, [], decodedStr => .ok (curr, decodedStr)
  | curr, bit :: rest, decodedStr =>
    match curr with
    | .null => .fault .nullDereference
    | .mk _ _ left right =>
      let next := if bit = '0' then left else right
      match next with
      | .null => .fault .nullDereference
      | .mk ch _ l r =>
        if l.isNull && r.isNull then decodeRun root root rest (decodedStr ++ [ch])
        else decodeRun root next rest decodedStr

/-- The loop `while (pq.size() != 1) { .. }` with a record kept: the value of
`pq.size()` at the start of every iteration that runs, in order, and the queue when the
loop ends. -/
def mergeLoopSizes (tie : Nat → Nat) : Nat → Nat → List Node → Outcome (List Nat × List Node)
  | fuel, k, pq =>
    if pq.length = 1 then .ok ([], pq)
    else
      match top (tie k) pq with
      | none => .fault .topOfEmptyQueue
      | some left =>
        let pq1 := pop (tie k) pq
        match top (tie (k + 1)) pq1 with
        | none => .fault .topOfEmptyQueue
        | some right =>
          let pq2 := pop (tie (k + 1)) pq1
          let sum := wrap32 (left.freq + right.freq)
          let newNode := Node.mk '\x00' sum left right
          match fuel with
          | 0 => .fault .fuelExhausted
          | fuel + 1 =>
            (mergeLoopSizes tie fuel (k + 2) (push pq2 newNode)).bind
              fun r => .ok (pq.length :: r.1, r.2)

/-- Symbol and depth of every leaf of a tree. -/
def symDepths (t : Node) : List (Char × Nat) :=
  (leafPaths t).map (fun e => (e.1, e.2.2.length))

/-- Weighted path length of a list of leaves, given as symbol and depth, under the
symbol weights `w`: the sum of weight times depth. -/
def pathCost (w : Char → Nat) (L : List (Char × Nat)) : Nat :=
  (L.map (fun p => w p.1 * p.2)).sum

/-- A binary tree in the mathematical sense: a symbol at every leaf, two subtrees at
every other node. -/
inductive HTree where
  | leaf (c : Char) : HTree
  | node (l r : HTree) : HTree

/-- Symbol and depth of every leaf of a binary tree. -/
def HTree.symDepths : HTree → List (Char × Nat)
  | .leaf c => [(c, 0)]
  | .node l r => (l.symDepths ++ r.symDepths).map (fun p => (p.1, p.2 + 1))

/-- The symbols at the leaves of a binary tree. -/
def HTree.syms (u : HTree) : List Char := u.symDepths.map (fun p => p.1)

/-- The height of a binary tree. -/
def HTree.height : HTree → Nat
  | .leaf _ => 0
  | .node l r => max l.height r.height + 1

/-- The binary tree with every leaf symbol `c` replaced by `σ c`. -/
def HTree.relabel (σ : Char → Char) : HTree → HTree
  | .leaf c => .leaf (σ c)
  | .node l r => .node (l.relabel σ) (r.relabel σ)

/-- The exchange of the two symbols `x` and `y`. -/
def swapSym (x y z : Char) : Char := if z = x then y else if z = y then x else z

/-- A list of leaves with every symbol `c` replaced by `σ c`. -/
def mapSym (σ : Char → Char) (L : List (Char × Nat)) : List (Char × Nat) :=
  L.map (fun p => (σ p.1, p.2))

/-- The weights `w` with the weight of `a` replaced by `v`. -/
def setWeight (w : Char → Nat) (a : Char) (v : Nat) : Char → Nat :=
  fun c => if c = a then v else w c

/-! # Lemmas

## The priority queue -/

theorem minFreq_cons_cons (x z : Node) (zs : List Node) :
    minFreq (x :: z :: zs) = min x.freq (minFreq (z :: zs)) := rfl

theorem minFreq_le (q : List Node) : ∀ y ∈ q, minFreq q ≤ y.freq := by
  induction q with
  | nil => simp
  | cons x xs ih =>
    intro y hy
    cases xs with
    | nil => simp at hy; subst hy; simp [minFreq]
    | cons z zs =>
      rw [minFreq_cons_cons]
      rcases List.mem_cons.1 hy with h | h
      · subst h; exact min_le_left _ _
      · exact le_trans (min_le_right _ _) (ih y h)

theorem minFreq_mem (q : List Node) (hq : q ≠ []) : ∃ y ∈ q, y.freq = minFreq q := by
  induction q with
  | nil => exact absurd rfl hq
  | cons x xs ih =>
    cases xs with
    | nil => exact ⟨x, by simp, by simp [minFreq]⟩
    | cons z zs =>
      obtain ⟨y, hy, hye⟩ := ih (by simp)
      rw [minFreq_cons_cons]
      rcases le_total x.freq (minFreq (z :: zs)) with h | h
      · exact ⟨x, by simp, by rw [min_eq_left h]⟩
      · exact ⟨y, List.mem_cons_of_mem _ hy, by rw [min_eq_right h]; exact hye⟩

theorem countP_minFreq_pos (q : List Node) (hq : q ≠ []) :
    0 < q.countP (fun x => decide (x.freq = minFreq q)) := by
  obtain ⟨y, hy, hye⟩ := minFreq_mem q hq
  exact List.countP_pos_iff.2 ⟨y, hy, by simpa using hye⟩

theorem nthOfWeight_spec (m : Int) : ∀ (q : List Node) (j : Nat),
    j < q.countP (fun x => decide (x.freq = m)) →
    ∃ x, q.get? (nthOfWeight m j q) = some x ∧ x.freq = m ∧
      q.Perm (x :: q.eraseIdx (nthOfWeight m j q)) := by
  intro q
  induction q with
  | nil => intro j hj; simp at hj
  | cons x xs ih =>
    intro j hj
    by_cases hx : x.freq = m
    · cases j with
      | zero => exact ⟨x, by simp [nthOfWeight, hx], hx, by simp [nthOfWeight, hx]⟩
      | succ j =>
        have hj' : j < xs.countP (fun x => decide (x.freq = m)) := by
          simp [List.countP_cons, hx] at hj; exact hj
        obtain ⟨y, h1, h2, h3⟩ := ih j hj'
        refine ⟨y, by simpa [nthOfWeight, hx] using h1, h2, ?_⟩
        simp only [nthOfWeight, hx, if_true, List.eraseIdx_cons_succ]
        exact (List.Perm.cons x h3).trans (List.Perm.swap y x _)
    · have hj' : j < xs.countP (fun x => decide (x.freq = m)) := by
        simp [List.countP_cons, hx] at hj; exact hj
      obtain ⟨y, h1, h2, h3⟩ := ih j hj'
      refine ⟨y, by simpa [nthOfWeight, hx] using h1, h2, ?_⟩
      simp only [nthOfWeight, hx, if_false, List.eraseIdx_cons_succ]
      exact (List.Perm.cons x h3).trans (List.Perm.swap y x _)

/-- What `top()` followed by `pop()` does on a non-empty queue. -/
theorem top_pop_spec (t : Nat) (q : List Node) (hq : q ≠ []) :
    ∃ x, top t q = some x ∧ (∀ y ∈ q, x.freq ≤ y.freq) ∧ q.Perm (x :: pop t q) := by
  have hpos := countP_minFreq_pos q hq
  obtain ⟨x, h1, h2, h3⟩ := nthOfWeight_spec (minFreq q) q _ (Nat.mod_lt t hpos)
  refine ⟨x, h1, ?_, h3⟩
  intro y hy
  rw [h2]; exact minFreq_le q y hy

theorem top_nil (t : Nat) : top t [] = none := by
  simp [top]

/-! ## The merge loop -/

theorem top_singleton (t : Nat) (x : Node) : top t [x] = some x := by
  obtain ⟨y, h1, _, h3⟩ := top_pop_spec t [x] (by simp)
  have hl := h3.length_eq
  have hm : y ∈ [x] := h3.symm.subset (List.mem_cons_self _ _)
  simp at hm
  rw [h1, hm]

/-- The merge loop returns a root on every non-empty queue, given fuel for
`pq.size() - 1` iterations, and the run is an admissible one. -/
theorem mergeLoop_merges (tie : Nat → Nat) : ∀ (fuel k : Nat) (q : List Node),
    q ≠ [] → q.length ≤ fuel + 1 → ∃ r, mergeLoop tie fuel k q = .ok r ∧ Merges q r := by
  intro fuel
  induction fuel with
  | zero =>
    intro k q hq hlen
    match q, hq, hlen with
    | [x], _, _ =>
      exact ⟨x, by simp [mergeLoop, top_singleton], Merges.done x⟩
    | _ :: _ :: _, _, hlen => simp at hlen
  | succ fuel ih =>
    intro k q hq hlen
    by_cases h1 : q.length = 1
    · match q, h1 with
      | [x], _ => exact ⟨x, by simp [mergeLoop, top_singleton], Merges.done x⟩
    · obtain ⟨a, ha1, ha2, ha3⟩ := top_pop_spec (tie k) q hq
      have hq1 : pop (tie k) q ≠ [] := by
        intro h0
        have := ha3.length_eq
        rw [h0] at this
        simp at this
        exact h1 this
      obtain ⟨b, hb1, hb2, hb3⟩ := top_pop_spec (tie (k + 1)) (pop (tie k) q) hq1
      have hlen2 : (push (pop (tie (k + 1)) (pop (tie k) q))
          (Node.mk '\x00' (wrap32 (a.freq + b.freq)) a b)).length ≤ fuel + 1 := by
        have e1 := ha3.length_eq
        have e2 := hb3.length_eq
        simp only [List.length_cons] at e1 e2
        simp only [push, List.length_append, List.length_singleton]
        omega
      obtain ⟨r, hr1, hr2⟩ := ih (k + 2) _ (by simp [push]) hlen2
      refine ⟨r, ?_, Merges.step ha3 ha2 hb3 hb2 hr2⟩
      rw [mergeLoop]
      simp only [h1, if_false, ha1, hb1]
      exact hr1

theorem Merges.ne_nil {q : List Node} {r : Node} (h : Merges q r) : q ≠ [] := by
  cases h with
  | done => simp
  | step h1 _ _ _ _ =>
    intro h0; rw [h0] at h1; simp at h1

/-- A property of cells that merging preserves holds of the root when it holds of
every queue element. -/
theorem Merges.invariant {P : Node → Prop}
    (hP : ∀ a b, P a → P b → P (Node.mk '\x00' (wrap32 (a.freq + b.freq)) a b))
    {q : List Node} {r : Node} (h : Merges q r) : (∀ x ∈ q, P x) → P r := by
  induction h with
  | done r => intro hq; exact hq r (by simp)
  | step h1 _ h3 _ _ ih =>
    intro hq
    apply ih
    intro x hx
    simp only [push, List.mem_append, List.mem_singleton] at hx
    have ha := hq _ (h1.symm.subset (List.mem_cons_self _ _))
    have hq1 : ∀ y ∈ _, P y := fun y hy => hq y (h1.symm.subset (List.mem_cons_of_mem _ hy))
    have hb := hq1 _ (h3.symm.subset (List.mem_cons_self _ _))
    rcases hx with hx | hx
    · exact hq1 x (h3.symm.subset (List.mem_cons_of_mem _ hx))
    · rw [hx]; exact hP _ _ ha hb

/-! ## `unordered_map` operations -/

theorem find_eq_none_iff {β : Type} (m : List (Char × β)) (c : Char) :
    find m c = none ↔ c ∉ keys m := by
  induction m with
  | nil => simp [find, keys]
  | cons p m ih =>
    obtain ⟨k, v⟩ := p
    by_cases h : k = c
    · simp [find, keys, h]
    · have h' : ¬ c = k := fun e => h e.symm
      simp only [find, h, if_false, ih]
      simp [keys, h']

theorem find_some_mem {β : Type} (m : List (Char × β)) (c : Char) (v : β) :
    find m c = some v → (c, v) ∈ m := by
  induction m with
  | nil => simp [find]
  | cons p m ih =>
    obtain ⟨k, w⟩ := p
    by_cases h : k = c
    · simp only [find, h, if_true]
      intro e; cases e; simp
    · simp only [find, h, if_false]
      intro e; exact List.mem_cons_of_mem _ (ih e)

theorem mem_find_of_nodup {β : Type} (m : List (Char × β)) (c : Char) (v : β)
    (hn : (keys m).Nodup) : (c, v) ∈ m → find m c = some v := by
  induction m with
  | nil => simp
  | cons p m ih =>
    obtain ⟨k, w⟩ := p
    simp only [keys, List.map_cons, List.nodup_cons] at hn
    intro hmem
    rcases List.mem_cons.1 hmem with e | hmem'
    · cases e; simp [find]
    · have hk : k ≠ c := by
        intro e; subst e
        exact hn.1 (List.mem_map.2 ⟨(k, v), hmem', rfl⟩)
      simp only [find, hk, if_false]
      exact ih hn.2 hmem'

theorem find_append {β : Type} (m m' : List (Char × β)) (c : Char) :
    find (m ++ m') c = (find m c).orElse (fun _ => find m' c) := by
  induction m with
  | nil => simp [find]
  | cons p m ih =>
    obtain ⟨k, w⟩ := p
    by_cases h : k = c
    · simp [find, h]
    · simp [find, h, ih]

theorem assign_of_not_mem {β : Type} (m : List (Char × β)) (c : Char) (v : β)
    (h : c ∉ keys m) : assign m c v = m ++ [(c, v)] := by
  induction m with
  | nil => simp [assign]
  | cons p m ih =>
    obtain ⟨k, w⟩ := p
    simp only [keys, List.map_cons, List.mem_cons, not_or] at h
    have hk : ¬ k = c := fun e => h.1 e.symm
    simp only [assign, hk, if_false, List.cons_append]
    rw [ih h.2]

theorem keys_assign_of_mem {β : Type} (m : List (Char × β)) (c : Char) (v : β)
    (h : c ∈ keys m) : keys (assign m c v) = keys m := by
  induction m with
  | nil => simp [keys] at h
  | cons p m ih =>
    obtain ⟨k, w⟩ := p
    by_cases hk : k = c
    · simp [assign, hk, keys]
    · simp only [keys, List.map_cons, List.mem_cons] at h
      have h' : c ∈ keys m := by
        rcases h with e | h
        · exact absurd e.symm hk
        · exact h
      simp only [assign, hk, if_false]
      simp only [keys, List.map_cons] at ih ⊢
      rw [ih h']

theorem find_assign {β : Type} (m : List (Char × β)) (c c' : Char) (v : β) :
    find (assign m c v) c' = if c = c' then some v else find m c' := by
  induction m with
  | nil => simp [assign, find]
  | cons p m ih =>
    obtain ⟨k, w⟩ := p
    by_cases hk : k = c
    · subst hk
      by_cases h' : k = c'
      · simp [assign, find, h']
      · simp [assign, find, h']
    · by_cases h' : k = c'
      · subst h'
        have : ¬ c = k := fun e => hk e.symm
        simp [assign, find, hk, this]
      · simp [assign, find, hk, h', ih]

/-! ## The arithmetic of `int` -/

theorem wrap32_of_range (x : Int) (h0 : -2147483648 ≤ x) (h1 : x < 2147483648) :
    wrap32 x = x := by
  unfold wrap32; omega

theorem wrap32_range (x : Int) : -2147483648 ≤ wrap32 x ∧ wrap32 x < 2147483648 := by
  unfold wrap32; omega

theorem wrap32_idem (x : Int) : wrap32 (wrap32 x) = wrap32 x := by
  unfold wrap32; omega

theorem wrap32_wrap32_add (x y : Int) : wrap32 (wrap32 x + y) = wrap32 (x + y) := by
  unfold wrap32; omega

theorem wrap32_zero : wrap32 0 = 0 := by decide

theorem wrap32_one : wrap32 (0 + 1) = 1 := by decide

/-! ## `buildFrequencyMap` -/

theorem incr_of_mem (m : List (Char × Int)) (c : Char) (h : c ∈ keys m) :
    incr m c = assign m c (wrap32 ((find m c).getD 0 + 1)) := by
  have hne : find m c ≠ none := fun e => (find_eq_none_iff m c).1 e h
  cases hf : find m c with
  | none => exact absurd hf hne
  | some v => simp [incr, subscript, hf]

theorem incr_of_not_mem (m : List (Char × Int)) (c : Char) (h : c ∉ keys m) :
    incr m c = m ++ [(c, 1)] := by
  have hf : find m c = none := (find_eq_none_iff m c).2 h
  have h2 : assign (m ++ [(c, 0)]) c 1 = m ++ [(c, 1)] := by
    clear hf
    induction m with
    | nil => simp [assign]
    | cons p m ih =>
      obtain ⟨k, w⟩ := p
      simp only [keys, List.map_cons, List.mem_cons, not_or] at h
      have hk : ¬ k = c := fun e => h.1 e.symm
      have e := ih h.2
      show assign ((k, w) :: (m ++ [(c, 0)])) c 1 = (k, w) :: (m ++ [(c, 1)])
      simp only [assign, hk, if_false, e]
  simp only [incr, subscript, hf, wrap32_one]
  exact h2

theorem keys_incr (m : List (Char × Int)) (c : Char) :
    keys (incr m c) = if c ∈ keys m then keys m else keys m ++ [c] := by
  by_cases h : c ∈ keys m
  · rw [incr_of_mem m c h, keys_assign_of_mem m c _ h, if_pos h]
  · rw [incr_of_not_mem m c h, if_neg h]; simp [keys]

/-- The entry of `c'` after `freqMap[c]++`: one more, as an `int`, when `c'` is `c`. -/
theorem find_incr (m : List (Char × Int)) (c c' : Char) :
    (find (incr m c) c').getD 0
      = if c = c' then wrap32 ((find m c').getD 0 + 1) else (find m c').getD 0 := by
  by_cases h : c ∈ keys m
  · rw [incr_of_mem m c h, find_assign]
    by_cases e : c = c'
    · subst e; simp
    · simp [e]
  · rw [incr_of_not_mem m c h, find_append]
    have hf : find m c = none := (find_eq_none_iff m c).2 h
    by_cases e : c = c'
    · subst e
      have h1 : wrap32 1 = 1 := by decide
      simp [hf, find, h1]
    · cases hf' : find m c' <;> simp [find, e]

theorem buildFrequencyMap_nodup (S : List Char) : ∀ m : List (Char × Int),
    (keys m).Nodup → (keys (buildFrequencyMap S m)).Nodup := by
  induction S with
  | nil => intro m h; exact h
  | cons c S ih =>
    intro m h
    simp only [buildFrequencyMap, List.foldl_cons]
    apply ih
    rw [keys_incr]
    by_cases hc : c ∈ keys m
    · rw [if_pos hc]; exact h
    · rw [if_neg hc]
      exact List.nodup_append.2 ⟨h, by simp, by simpa using hc⟩

theorem mem_keys_buildFrequencyMap (S : List Char) : ∀ (m : List (Char × Int)) (c : Char),
    c ∈ keys (buildFrequencyMap S m) ↔ c ∈ keys m ∨ c ∈ S := by
  induction S with
  | nil => intro m c; simp [buildFrequencyMap]
  | cons a S ih =>
    intro m c
    simp only [buildFrequencyMap, List.foldl_cons]
    have := ih (incr m a) c
    simp only [buildFrequencyMap] at this
    rw [this, keys_incr]
    by_cases ha : a ∈ keys m
    · rw [if_pos ha]
      constructor
      · rintro (h | h)
        · exact Or.inl h
        · exact Or.inr (List.mem_cons_of_mem _ h)
      · rintro (h | h)
        · exact Or.inl h
        · rcases List.mem_cons.1 h with e | h
          · subst e; exact Or.inl ha
          · exact Or.inr h
    · rw [if_neg ha]
      simp only [List.mem_append, List.mem_singleton, List.mem_cons]
      tauto

/-- The count `buildFrequencyMap` holds for `c`: the `int` reached by adding one for
every occurrence of `c` in the string. -/
theorem find_buildFrequencyMap (S : List Char) : ∀ (m : List (Char × Int)) (c : Char),
    (∀ c', wrap32 ((find m c').getD 0) = (find m c').getD 0) →
    (find (buildFrequencyMap S m) c).getD 0 = wrap32 ((find m c).getD 0 + S.count c) := by
  induction S with
  | nil => intro m c hm; simp [buildFrequencyMap, hm c]
  | cons a S ih =>
    intro m c hm
    simp only [buildFrequencyMap, List.foldl_cons]
    have hm' : ∀ c', wrap32 ((find (incr m a) c').getD 0) = (find (incr m a) c').getD 0 := by
      intro c'
      rw [find_incr]
      by_cases e : a = c'
      · simp only [e, if_true]; exact wrap32_idem _
      · simp only [e, if_false]; exact hm c'
    have := ih (incr m a) c hm'
    simp only [buildFrequencyMap] at this
    rw [this, find_incr, List.count_cons]
    by_cases e : a = c
    · subst e
      simp only [if_true, beq_self_eq_true, wrap32_wrap32_add]
      congr 1; push_cast; omega
    · have e' : (a == c) = false := by simpa using e
      simp [e, e']

/-- A sum over a string, grouped by distinct symbol. -/
theorem sum_map_eq_sum_dedup_count (g : Char → Nat) (S : List Char) :
    (S.map g).sum = (S.dedup.map (fun s => S.count s * g s)).sum := by
  have h := List.sum_toFinset (fun s => S.count s * g s) (List.nodup_dedup S)
  rw [Finset.sum_list_map_count, ← h]
  apply Finset.sum_congr
  · ext x; simp
  · intro x _; simp

/-! ## Leaves of trees and queues -/

@[simp] theorem isNull_null : Node.null.isNull = true := rfl

@[simp] theorem isNull_mk (c : Char) (f : Int) (l r : Node) : (Node.mk c f l r).isNull = false :=
  rfl

theorem isNull_eq_true_iff (t : Node) : t.isNull = true ↔ t = .null := by
  cases t <;> simp [Node.isNull]

theorem isNull_eq_false_iff (t : Node) : t.isNull = false ↔ t ≠ .null := by
  cases t <;> simp [Node.isNull]

theorem leafPaths_leaf (c : Char) (f : Int) : leafPaths (Node.leaf c f) = [(c, f, [])] := by
  simp [Node.leaf, leafPaths]

theorem leafPaths_node (c : Char) (s : Int) (a b : Node) (ha : a ≠ .null) :
    leafPaths (Node.mk c s a b)
      = (leafPaths a).map (fun e => (e.1, e.2.1, '0' :: e.2.2))
        ++ (leafPaths b).map (fun e => (e.1, e.2.1, '1' :: e.2.2)) := by
  have : a.isNull = false := (isNull_eq_false_iff a).2 ha
  simp [leafPaths, this]

theorem leaves_node (c : Char) (s : Int) (a b : Node) (ha : a ≠ .null) :
    leaves (Node.mk c s a b) = leaves a ++ leaves b := by
  simp [leaves, leafPaths_node c s a b ha, List.map_map, Function.comp_def]

theorem leafChars_node (c : Char) (s : Int) (a b : Node) (ha : a ≠ .null) :
    leafChars (Node.mk c s a b) = leafChars a ++ leafChars b := by
  simp [leafChars, leafPaths_node c s a b ha, List.map_map, Function.comp_def]

theorem leafChars_eq_keys_leaves (t : Node) : leafChars t = keys (leaves t) := by
  simp [leafChars, keys, leaves, List.map_map, Function.comp_def]

theorem forestLeaves_append (q q' : List Node) :
    forestLeaves (q ++ q') = forestLeaves q ++ forestLeaves q' := by
  induction q with
  | nil => simp [forestLeaves]
  | cons x xs ih => simp [forestLeaves, ih]

theorem forestLeaves_perm {q q' : List Node} (h : q.Perm q') :
    (forestLeaves q).Perm (forestLeaves q') := by
  induction h with
  | nil => exact List.Perm.refl _
  | cons x _ ih => exact List.Perm.append_left _ ih
  | swap x y l =>
    simp only [forestLeaves, ← List.append_assoc]
    exact List.Perm.append_right _ List.perm_append_comm
  | trans _ _ ih1 ih2 => exact ih1.trans ih2

theorem seedQueue_eq (fm : List (Char × Int)) :
    seedQueue fm = fm.map (fun p => Node.leaf p.1 p.2) := by
  have h : ∀ (acc : List Node),
      fm.foldl (fun pq pair => push pq (Node.leaf pair.1 pair.2)) acc
        = acc ++ fm.map (fun p => Node.leaf p.1 p.2) := by
    induction fm with
    | nil => intro acc; simp
    | cons p fm ih => intro acc; rw [List.foldl_cons, ih]; simp [push]
  simpa [seedQueue] using h []

theorem forestLeaves_seedQueue (fm : List (Char × Int)) : forestLeaves (seedQueue fm) = fm := by
  rw [seedQueue_eq]
  induction fm with
  | nil => simp [forestLeaves]
  | cons p fm ih => simp [forestLeaves, leaves, leafPaths_leaf, ih]

/-- The leaves of the root are the leaves of the initial queue. -/
theorem Merges.leaves_perm {q : List Node} {r : Node} (h : Merges q r) :
    (∀ x ∈ q, x ≠ Node.null) → (leaves r).Perm (forestLeaves q) := by
  induction h with
  | done r => intro _; simp [forestLeaves]
  | @step q q1 q2 a b r h1 _ h3 _ _ ih =>
    intro hq
    have ha : a ≠ Node.null := hq a (h1.symm.subset (List.mem_cons_self _ _))
    have hq1 : ∀ y ∈ q1, y ≠ Node.null :=
      fun y hy => hq y (h1.symm.subset (List.mem_cons_of_mem _ hy))
    have hq2 : ∀ y ∈ q2, y ≠ Node.null :=
      fun y hy => hq1 y (h3.symm.subset (List.mem_cons_of_mem _ hy))
    have hnew : ∀ x ∈ push q2 (Node.mk '\x00' (wrap32 (a.freq + b.freq)) a b), x ≠ Node.null := by
      intro x hx
      simp only [push, List.mem_append, List.mem_singleton] at hx
      rcases hx with hx | hx
      · exact hq2 x hx
      · rw [hx]; simp
    refine (ih hnew).trans ?_
    have e1 : forestLeaves (push q2 (Node.mk '\x00' (wrap32 (a.freq + b.freq)) a b))
        = forestLeaves q2 ++ (leaves a ++ leaves b) := by
      simp [push, forestLeaves_append, forestLeaves, leaves_node _ _ a b ha]
    have e2 : (forestLeaves q).Perm (leaves a ++ (leaves b ++ forestLeaves q2)) := by
      have p1 : q.Perm (a :: b :: q2) := h1.trans (List.Perm.cons a h3)
      simpa [forestLeaves] using forestLeaves_perm p1
    rw [e1]
    refine List.Perm.trans ?_ e2.symm
    have := @List.perm_append_comm _ (forestLeaves q2) (leaves a ++ leaves b)
    simpa [List.append_assoc] using this

/-! ## `generateHuffmanCodes` -/

theorem keys_append {β : Type} (m m' : List (Char × β)) : keys (m ++ m') = keys m ++ keys m' := by
  simp [keys]

/-- On a tree whose leaf symbols are distinct and not yet in the table, the
traversal appends one entry per leaf: the symbol with `str` followed by its path. -/
theorem generateHuffmanCodes_eq (t : Node) : ∀ (str : List Char) (m : List (Char × List Char)),
    (∀ c ∈ leafChars t, c ∉ keys m) → (leafChars t).Nodup →
    generateHuffmanCodes t str m = m ++ (leafPaths t).map (fun e => (e.1, str ++ e.2.2)) := by
  induction t with
  | null => intro str m _ _; simp [generateHuffmanCodes, leafPaths]
  | mk ch f l r ihl ihr =>
    intro str m hfresh hnd
    by_cases hl : l = .null
    · subst hl
      by_cases hr : r = .null
      · subst hr
        have hc : ch ∉ keys m := hfresh ch (by simp [leafChars, leafPaths])
        simp [generateHuffmanCodes, leafPaths, assign_of_not_mem m ch str hc]
      · have hrn : r.isNull = false := (isNull_eq_false_iff r).2 hr
        have hch : leafChars (Node.mk ch f .null r) = leafChars r := by
          simp [leafChars, leafPaths, hrn, List.map_map, Function.comp_def]
        rw [hch] at hfresh hnd
        simp only [generateHuffmanCodes, hrn, Bool.and_false, Bool.false_eq_true,
          if_false, leafPaths, List.nil_append, List.map_nil, List.map_map]
        rw [ihr _ _ hfresh hnd]
        simp [Function.comp_def]
    · have hln : l.isNull = false := (isNull_eq_false_iff l).2 hl
      rw [leafChars_node ch f l r hl] at hfresh hnd
      have hnd' := List.nodup_append.1 hnd
      have hfl : ∀ c ∈ leafChars l, c ∉ keys m :=
        fun c hc => hfresh c (List.mem_append_left _ hc)
      have e1 := ihl (str ++ ['0']) m hfl hnd'.1
      have hfr : ∀ c ∈ leafChars r, c ∉ keys (generateHuffmanCodes l (str ++ ['0']) m) := by
        intro c hc
        rw [e1, keys_append]
        intro hmem
        rcases List.mem_append.1 hmem with h | h
        · exact hfresh c (List.mem_append_right _ hc) h
        · have : c ∈ leafChars l := by
            simpa [keys, leafChars, List.map_map, Function.comp_def] using h
          exact hnd'.2.2 this hc
      have e2 := ihr (str ++ ['1']) _ hfr hnd'.2.1
      simp only [generateHuffmanCodes, hln, Bool.false_and, Bool.false_eq_true, if_false]
      rw [e2, e1, leafPaths_node ch f l r hl]
      simp [List.map_map, Function.comp_def]

/-! ## The constructor -/

theorem keys_buildFrequencyMap_nodup (S : List Char) : (keys (buildFrequencyMap S [])).Nodup :=
  buildFrequencyMap_nodup S [] (by simp [keys])

theorem mem_keys_freqMap (S : List Char) (c : Char) :
    c ∈ keys (buildFrequencyMap S []) ↔ c ∈ S := by
  rw [mem_keys_buildFrequencyMap]; simp [keys]

theorem find_freqMap (S : List Char) (c : Char) :
    (find (buildFrequencyMap S []) c).getD 0 = wrap32 (S.count c) := by
  rw [find_buildFrequencyMap S [] c (fun c' => by simp [find, wrap32_zero])]; simp [find]

theorem buildFrequencyMap_ne_nil (S : List Char) (hS : S ≠ []) : buildFrequencyMap S [] ≠ [] := by
  cases S with
  | nil => exact absurd rfl hS
  | cons c S =>
    intro h
    have := (mem_keys_freqMap (c :: S) c).2 (List.mem_cons_self _ _)
    rw [h] at this
    simp [keys] at this

theorem seedQueue_ne_null (fm : List (Char × Int)) : ∀ x ∈ seedQueue fm, x ≠ Node.null := by
  intro x hx
  rw [seedQueue_eq] at hx
  obtain ⟨p, _, rfl⟩ := List.mem_map.1 hx
  simp [Node.leaf]

/-- On a non-empty frequency map `buildHuffmanTree` returns a root, by an admissible
run of the merge loop, and the leaves of the root are the entries of the map. -/
theorem buildHuffmanTree_spec (tie : Nat → Nat) (fm : List (Char × Int)) (hfm : fm ≠ []) :
    ∃ root, buildHuffmanTree tie fm = .ok root ∧ Merges (seedQueue fm) root ∧
      (leaves root).Perm fm := by
  have hne : seedQueue fm ≠ [] := by
    rw [seedQueue_eq]; simpa using hfm
  obtain ⟨r, h1, h2⟩ := mergeLoop_merges tie (seedQueue fm).length 0 (seedQueue fm) hne
    (Nat.le_succ _)
  refine ⟨r, h1, h2, ?_⟩
  have := h2.leaves_perm (seedQueue_ne_null fm)
  rwa [forestLeaves_seedQueue] at this

theorem leafChars_nodup_of_perm {t : Node} {fm : List (Char × Int)}
    (h : (leaves t).Perm fm) (hn : (keys fm).Nodup) : (leafChars t).Nodup := by
  rw [leafChars_eq_keys_leaves]
  exact (List.Perm.nodup_iff (List.Perm.map _ h)).2 hn

/-- Construction from a non-empty string succeeds; the tree comes from an admissible
run of the merge loop on the frequency map and the table holds, for every leaf, its
symbol with its path. -/
theorem new_spec (tie : Nat → Nat) (S : List Char) (hS : S ≠ []) :
    ∃ root, HuffmanCoder.new tie S = .ok
        { huffmanCode := (leafPaths root).map (fun e => (e.1, e.2.2)),
          freqMap := buildFrequencyMap S [], root := root } ∧
      Merges (seedQueue (buildFrequencyMap S [])) root ∧
      (leaves root).Perm (buildFrequencyMap S []) ∧ (leafChars root).Nodup := by
  obtain ⟨root, h1, h2, h3⟩ :=
    buildHuffmanTree_spec tie (buildFrequencyMap S []) (buildFrequencyMap_ne_nil S hS)
  have hnd := leafChars_nodup_of_perm h3 (keys_buildFrequencyMap_nodup S)
  refine ⟨root, ?_, h2, h3, hnd⟩
  have hg := generateHuffmanCodes_eq root [] [] (by simp [keys]) hnd
  simp only [HuffmanCoder.new, h1, hg, List.nil_append]

/-! ## Paths are free of prefixes -/

theorem leafPaths_of_isNull (ch : Char) (f : Int) (l r : Node)
    (h : (l.isNull && r.isNull) = true) : leafPaths (Node.mk ch f l r) = [(ch, f, [])] := by
  simp only [Bool.and_eq_true, isNull_eq_true_iff] at h
  obtain ⟨rfl, rfl⟩ := h
  simp [leafPaths]

theorem leafPaths_of_not_isNull (ch : Char) (f : Int) (l r : Node)
    (h : (l.isNull && r.isNull) = false) :
    leafPaths (Node.mk ch f l r)
      = (leafPaths l).map (fun e => (e.1, e.2.1, '0' :: e.2.2))
        ++ (leafPaths r).map (fun e => (e.1, e.2.1, '1' :: e.2.2)) := by
  simp [leafPaths, h]

/-- Two leaves of a tree one of whose paths is a prefix of the other coincide. -/
theorem leafPaths_prefix_eq (t : Node) : ∀ e1 ∈ leafPaths t, ∀ e2 ∈ leafPaths t,
    e1.2.2 <+: e2.2.2 → e1 = e2 := by
  induction t with
  | null => intro e1 h1; simp [leafPaths] at h1
  | mk ch f l r ihl ihr =>
    intro e1 h1 e2 h2 hp
    cases hn : (l.isNull && r.isNull) with
    | true =>
      rw [leafPaths_of_isNull ch f l r hn] at h1 h2
      simp only [List.mem_singleton] at h1 h2
      rw [h1, h2]
    | false =>
      rw [leafPaths_of_not_isNull ch f l r hn] at h1 h2
      simp only [List.mem_append, List.mem_map] at h1 h2
      rcases h1 with ⟨a1, ha1, rfl⟩ | ⟨a1, ha1, rfl⟩ <;>
        rcases h2 with ⟨a2, ha2, rfl⟩ | ⟨a2, ha2, rfl⟩
      · have hp' : a1.2.2 <+: a2.2.2 := by
          simpa [List.cons_prefix_cons] using hp
        rw [ihl a1 ha1 a2 ha2 hp']
      · simp [List.cons_prefix_cons] at hp
      · simp [List.cons_prefix_cons] at hp
      · have hp' : a1.2.2 <+: a2.2.2 := by
          simpa [List.cons_prefix_cons] using hp
        rw [ihr a1 ha1 a2 ha2 hp']

/-! ## `encode` -/

theorem codeOf_subscript (m : List (Char × List Char)) (c c' : Char) :
    codeOf (subscript [] m c).1 c' = codeOf m c' := by
  cases hf : find m c with
  | some v => simp [subscript, hf]
  | none =>
    simp only [subscript, hf, codeOf, find_append]
    by_cases e : c = c'
    · subst e; simp [hf, find]
    · cases hf' : find m c' <;> simp [find, e]

theorem subscript_snd (m : List (Char × List Char)) (c : Char) :
    (subscript [] m c).2 = codeOf m c := by
  cases hf : find m c <;> simp [subscript, hf, codeOf]

theorem codesOf_congr (m m' : List (Char × List Char)) (h : ∀ c, codeOf m' c = codeOf m c)
    (T : List Char) : codesOf m' T = codesOf m T := by
  induction T with
  | nil => rfl
  | cons c T ih => simp [codesOf, h, ih]

/-- The loop of `encode` appends the codes of the symbols in order. -/
theorem foldl_encodeStep (T : List Char) : ∀ (m : List (Char × List Char)) (acc : List Char),
    (T.foldl encodeStep (m, acc)).2 = acc ++ codesOf m T := by
  induction T with
  | nil => intro m acc; simp [codesOf]
  | cons c T ih =>
    intro m acc
    simp only [List.foldl_cons, encodeStep]
    rw [ih, subscript_snd, codesOf_congr m _ (codeOf_subscript m c) T]
    simp [codesOf]

theorem encode_eq (hc : HuffmanCoder) (T : List Char) :
    ∃ hc', hc.encode T = .ok (hc', codesOf hc.huffmanCode T) := by
  refine ⟨{ hc with huffmanCode := (T.foldl encodeStep (hc.huffmanCode, [])).1 }, ?_⟩
  simp [HuffmanCoder.encode, foldl_encodeStep]

theorem length_codesOf (m : List (Char × List Char)) (T : List Char) :
    (codesOf m T).length = (T.map (fun c => (codeOf m c).length)).sum := by
  induction T with
  | nil => rfl
  | cons c T ih => simp [codesOf, ih]

/-! ## Claims about the code table -/

theorem keys_table (t : Node) : keys ((leafPaths t).map (fun e => (e.1, e.2.2))) = leafChars t := by
  simp [keys, leafChars, List.map_map, Function.comp_def]

/-- Keys of the two maps after construction: both are the set of symbols of the
input, without repetition. -/
theorem new_table_keys (tie : Nat → Nat) (S : List Char) (hS : S ≠ []) :
    ∃ hc, HuffmanCoder.new tie S = .ok hc ∧
      (keys hc.huffmanCode).Nodup ∧ (keys hc.freqMap).Nodup ∧
      (keys hc.huffmanCode).Perm (keys hc.freqMap) ∧
      (∀ c, c ∈ keys hc.huffmanCode ↔ c ∈ S) ∧ (∀ c, c ∈ keys hc.freqMap ↔ c ∈ S) ∧
      (∀ c ∈ S, ∃ code, find hc.huffmanCode c = some code) := by
  obtain ⟨root, h1, _, h3, h4⟩ := new_spec tie S hS
  have hperm : (leafChars root).Perm (keys (buildFrequencyMap S [])) := by
    rw [leafChars_eq_keys_leaves]; exact List.Perm.map _ h3
  have hmem : ∀ c, c ∈ leafChars root ↔ c ∈ S := fun c =>
    (hperm.mem_iff).trans (mem_keys_freqMap S c)
  have hfind : ∀ c ∈ S, ∃ code,
      find ((leafPaths root).map (fun e => (e.1, e.2.2))) c = some code := by
    intro c hc
    cases hf : find ((leafPaths root).map (fun e => (e.1, e.2.2))) c with
    | some code => exact ⟨code, rfl⟩
    | none =>
      have := (find_eq_none_iff _ _).1 hf
      rw [keys_table] at this
      exact absurd ((hmem c).2 hc) this
  refine ⟨_, h1, ?_, keys_buildFrequencyMap_nodup S, ?_, ?_, mem_keys_freqMap S, hfind⟩
  · simpa only [keys_table] using h4
  · simpa only [keys_table] using hperm
  · simpa only [keys_table] using hmem

/-- C2: for every non-empty input and every tie-breaking order, construction succeeds
and in the resulting code table the code of one symbol is never a prefix of the code of
a different symbol. -/
theorem C2_codes_free_of_prefixes (tie : Nat → Nat) (S : List Char) (hS : S ≠ []) :
    ∃ hc, HuffmanCoder.new tie S = .ok hc ∧
      ∀ s t cs ct, find hc.huffmanCode s = some cs → find hc.huffmanCode t = some ct →
        s ≠ t → ¬ cs <+: ct := by
  obtain ⟨root, h1, _, _, _⟩ := new_spec tie S hS
  refine ⟨_, h1, ?_⟩
  intro s t cs ct hs ht hne hp
  have ms := find_some_mem _ _ _ hs
  have mt := find_some_mem _ _ _ ht
  simp only [List.mem_map] at ms mt
  obtain ⟨e1, he1, heq1⟩ := ms
  obtain ⟨e2, he2, heq2⟩ := mt
  cases heq1
  cases heq2
  exact hne (by rw [leafPaths_prefix_eq root e1 he1 e2 he2 hp])

/-- C2 at the input "abbccda" with the first-minimum tie-break. -/
theorem C2_codes_free_of_prefixes_witness :
    "abbccda".toList ≠ [] ∧
    ∃ hc, HuffmanCoder.new firstMin "abbccda".toList = .ok hc ∧
      ∀ s t cs ct, find hc.huffmanCode s = some cs → find hc.huffmanCode t = some ct →
        s ≠ t → ¬ cs <+: ct :=
  ⟨by decide, C2_codes_free_of_prefixes firstMin "abbccda".toList (by decide)⟩

/-- C4: for every non-empty input and every tie-breaking order, construction succeeds
and the key set of the code table equals the key set of the frequency map, which is the
set of symbols of the input (the byte 0 included when it occurs); keys are not repeated,
so every symbol has exactly one code. -/
theorem C4_table_keys_are_input_symbols (tie : Nat → Nat) (S : List Char) (hS : S ≠ []) :
    ∃ hc, HuffmanCoder.new tie S = .ok hc ∧
      (keys hc.huffmanCode).Nodup ∧ (keys hc.freqMap).Nodup ∧
      (keys hc.huffmanCode).Perm (keys hc.freqMap) ∧
      (∀ c, c ∈ keys hc.huffmanCode ↔ c ∈ S) ∧ (∀ c, c ∈ keys hc.freqMap ↔ c ∈ S) ∧
      (∀ c ∈ S, ∃ code, find hc.huffmanCode c = some code) ∧
      ('\x00' ∈ S → ∃ code, find hc.huffmanCode '\x00' = some code) := by
  obtain ⟨hc, h1, h2, h3, h4, h5, h6, h7⟩ := new_table_keys tie S hS
  exact ⟨hc, h1, h2, h3, h4, h5, h6, h7, fun h0 => h7 _ h0⟩

/-- C4 at the three-byte input consisting of 'a', the byte 0 and 'a'. -/
theorem C4_table_keys_are_input_symbols_witness :
    ['a', '\x00', 'a'] ≠ [] ∧
    ∃ hc, HuffmanCoder.new firstMin ['a', '\x00', 'a'] = .ok hc ∧
      (keys hc.huffmanCode).Nodup ∧ (keys hc.freqMap).Nodup ∧
      (keys hc.huffmanCode).Perm (keys hc.freqMap) ∧
      (∀ c, c ∈ keys hc.huffmanCode ↔ c ∈ ['a', '\x00', 'a']) ∧
      (∀ c, c ∈ keys hc.freqMap ↔ c ∈ ['a', '\x00', 'a']) ∧
      (∀ c ∈ ['a', '\x00', 'a'], ∃ code, find hc.huffmanCode c = some code) ∧
      ('\x00' ∈ ['a', '\x00', 'a'] → ∃ code, find hc.huffmanCode '\x00' = some code) :=
  ⟨by decide, C4_table_keys_are_input_symbols firstMin ['a', '\x00', 'a'] (by decide)⟩

/-! ## Claims about `encode` -/

theorem freqMap_entry_wrap (S : List Char) (p : Char × Int)
    (hp : p ∈ buildFrequencyMap S []) : p.2 = wrap32 (S.count p.1) := by
  have h := mem_find_of_nodup _ p.1 p.2 (keys_buildFrequencyMap_nodup S) hp
  have h2 := find_freqMap S p.1
  rw [h] at h2
  simpa using h2

/-- On a string in which no symbol occurs more than `2^31 - 1` times no count leaves the
range of `int`: every entry of the frequency map holds the number of occurrences of its
key. -/
theorem freqMap_entry_count (S : List Char) (hcnt : ∀ c, S.count c < 2147483648)
    (p : Char × Int) (hp : p ∈ buildFrequencyMap S []) : p.2 = S.count p.1 := by
  rw [freqMap_entry_wrap S p hp]
  have := hcnt p.1
  apply wrap32_of_range <;> omega

theorem count_lt_of_length (S : List Char) (hlen : S.length < 2147483648) :
    ∀ c, S.count c < 2147483648 :=
  fun c => lt_of_le_of_lt (List.count_le_length c S) hlen

theorem keys_freqMap_perm_dedup (S : List Char) :
    (keys (buildFrequencyMap S [])).Perm S.dedup := by
  rw [List.perm_ext_iff_of_nodup (keys_buildFrequencyMap_nodup S) (List.nodup_dedup S)]
  intro c
  rw [mem_keys_freqMap, List.mem_dedup]

theorem sum_freqMap_eq_sum_dedup (g : Char → Nat) (S : List Char)
    (hcnt : ∀ c, S.count c < 2147483648) :
    ((buildFrequencyMap S []).map (fun p => p.2 * (g p.1 : Int))).sum
      = ((S.dedup.map (fun s => S.count s * g s)).sum : Nat) := by
  have e : (buildFrequencyMap S []).map (fun p => p.2 * (g p.1 : Int))
      = (keys (buildFrequencyMap S [])).map (fun s => ((S.count s * g s : Nat) : Int)) := by
    simp only [keys, List.map_map]
    apply List.map_congr_left
    intro p hp
    simp [freqMap_entry_count S hcnt p hp]
  rw [e, Nat.cast_list_sum, List.map_map]
  exact (List.Perm.map _ (keys_freqMap_perm_dedup S)).sum_eq

/-- The length of `encode(S)` on the coder built from `S`, by distinct symbol: the
number of occurrences times the length of the code. -/
theorem encode_length_by_symbol (tie : Nat → Nat) (S : List Char) (hS : S ≠ []) :
    ∃ hc hc' bits, HuffmanCoder.new tie S = .ok hc ∧ hc.encode S = .ok (hc', bits) ∧
      hc.freqMap = buildFrequencyMap S [] ∧
      bits.length = (S.dedup.map (fun s => S.count s * (codeOf hc.huffmanCode s).length)).sum := by
  obtain ⟨root, h1, _, _, _⟩ := new_spec tie S hS
  obtain ⟨hc', h2⟩ := encode_eq
    { huffmanCode := (leafPaths root).map (fun e => (e.1, e.2.2)),
      freqMap := buildFrequencyMap S [], root := root } S
  refine ⟨_, hc', _, h1, h2, rfl, ?_⟩
  rw [length_codesOf]
  exact sum_map_eq_sum_dedup_count _ S

theorem buildFrequencyMap_append (S T : List Char) (m : List (Char × Int)) :
    buildFrequencyMap (S ++ T) m = buildFrequencyMap T (buildFrequencyMap S m) := by
  simp [buildFrequencyMap, List.foldl_append]

theorem assign_append_of_not_mem {β : Type} (m m' : List (Char × β)) (c : Char) (v : β)
    (h : c ∉ keys m) : assign (m ++ m') c v = m ++ assign m' c v := by
  induction m with
  | nil => rfl
  | cons p m ih =>
    obtain ⟨k, w⟩ := p
    simp only [keys, List.map_cons, List.mem_cons, not_or] at h
    have hk : ¬ k = c := fun e => h.1 e.symm
    have e := ih h.2
    show assign ((k, w) :: (m ++ m')) c v = (k, w) :: (m ++ assign m' c v)
    simp only [assign, hk, if_false, e]

/-- The statement `freqMap[a]++` when the entry of `a` is the last of the map. -/
theorem incr_last (m : List (Char × Int)) (a : Char) (v : Int) (ha : a ∉ keys m) :
    incr (m ++ [(a, v)]) a = m ++ [(a, wrap32 (v + 1))] := by
  have hf : find (m ++ [(a, v)]) a = some v := by
    rw [find_append, (find_eq_none_iff m a).2 ha]; simp [find]
  simp only [incr, subscript, hf]
  rw [assign_append_of_not_mem m _ a _ ha]
  simp [assign]

theorem buildFrequencyMap_replicate (a : Char) (m : List (Char × Int)) (ha : a ∉ keys m)
    (n : Nat) : ∀ k : Int,
    buildFrequencyMap (List.replicate n a) (m ++ [(a, wrap32 k)])
      = m ++ [(a, wrap32 (k + n))] := by
  induction n with
  | zero => intro k; simp [buildFrequencyMap]
  | succ n ih =>
    intro k
    have h := ih (k + 1)
    simp only [buildFrequencyMap] at h
    simp only [buildFrequencyMap, List.replicate_succ, List.foldl_cons, incr_last m a _ ha,
      wrap32_wrap32_add, h]
    rw [show k + 1 + (n : Int) = k + ((n + 1 : Nat) : Int) by push_cast; omega]

/-- A run of `n` copies of a symbol that is not yet in the map adds one entry, holding
the `int` reached by `n` increments from zero. -/
theorem buildFrequencyMap_run (a : Char) (m : List (Char × Int)) (ha : a ∉ keys m)
    (n : Nat) (hn : 0 < n) :
    buildFrequencyMap (List.replicate n a) m = m ++ [(a, wrap32 n)] := by
  obtain ⟨n', rfl⟩ : ∃ n', n = n' + 1 := ⟨n - 1, by omega⟩
  have h := buildFrequencyMap_replicate a m ha n' 1
  have h1 : wrap32 1 = 1 := by decide
  rw [h1] at h
  have e : buildFrequencyMap (List.replicate (n' + 1) a) m
      = buildFrequencyMap (List.replicate n' a) (m ++ [(a, 1)]) := by
    simp only [buildFrequencyMap, List.replicate_succ, List.foldl_cons, incr_of_not_mem m a ha]
  rw [e, h, show (1 : Int) + (n' : Int) = ((n' + 1 : Nat) : Int) by push_cast; omega]

/-- The frequency map of `n + 1` copies of one symbol: one entry, holding the `int`
reached by `n + 1` increments from zero. -/
theorem buildFrequencyMap_single (a : Char) (n : Nat) :
    buildFrequencyMap (List.replicate (n + 1) a) [] = [(a, wrap32 (n + 1))] := by
  have h := buildFrequencyMap_run a [] (by simp [keys]) (n + 1) (by omega)
  simpa using h

/-- The frequency map of `2^31` copies of `'a'`: the count has left the range of `int`. -/
theorem buildFrequencyMap_overflow :
    buildFrequencyMap (List.replicate 2147483648 'a') [] = [('a', -2147483648)] := by
  have h := buildFrequencyMap_single 'a' 2147483647
  have e : wrap32 ((2147483647 : Nat) + 1) = -2147483648 := by decide
  rw [e] at h
  exact h

/-- The constructor, given the frequency map of its input. -/
theorem new_of_freqMap (tie : Nat → Nat) (S : List Char) (fm : List (Char × Int))
    (h : buildFrequencyMap S [] = fm) :
    HuffmanCoder.new tie S = (buildHuffmanTree tie fm).bind fun root =>
      .ok { huffmanCode := generateHuffmanCodes root [] [], freqMap := fm, root := root } := by
  subst h
  simp only [HuffmanCoder.new]
  cases buildHuffmanTree tie (buildFrequencyMap S []) <;> rfl

/-- C3 fails as stated at an input of more than `2^31 - 1` bytes: for `2^31` copies of
`'a'` followed by `'b'` the count kept for `'a'` is `-2^31`, both codes are one bit long,
the encoded string has `2^31 + 1` characters and the sum of count times code length over
the frequency map is `-2^31 + 1`. -/
theorem C3_counterexample :
    ∃ hc hc' bits, HuffmanCoder.new firstMin (List.replicate 2147483648 'a' ++ ['b']) = .ok hc ∧
      hc.encode (List.replicate 2147483648 'a' ++ ['b']) = .ok (hc', bits) ∧
      hc.freqMap = [('a', -2147483648), ('b', 1)] ∧
      hc.huffmanCode = [('a', ['0']), ('b', ['1'])] ∧
      bits.length = 2147483649 ∧
      (hc.freqMap.map (fun p => p.2 * ((codeOf hc.huffmanCode p.1).length : Int))).sum
        = -2147483647 ∧
      (bits.length : Int)
        ≠ (hc.freqMap.map (fun p => p.2 * ((codeOf hc.huffmanCode p.1).length : Int))).sum := by
  have hfm : buildFrequencyMap (List.replicate 2147483648 'a' ++ ['b']) []
      = [('a', -2147483648), ('b', 1)] := by
    rw [buildFrequencyMap_append, buildFrequencyMap_overflow]
    decide
  have hnew : HuffmanCoder.new firstMin (List.replicate 2147483648 'a' ++ ['b']) = .ok
      { huffmanCode := [('a', ['0']), ('b', ['1'])],
        freqMap := [('a', -2147483648), ('b', 1)],
        root := Node.mk '\x00' (-2147483647) (Node.leaf 'a' (-2147483648)) (Node.leaf 'b' 1) } := by
    rw [new_of_freqMap _ _ _ hfm]
    decide
  obtain ⟨hc', h2⟩ := encode_eq
    { huffmanCode := [('a', ['0']), ('b', ['1'])],
      freqMap := [('a', -2147483648), ('b', 1)],
      root := Node.mk '\x00' (-2147483647) (Node.leaf 'a' (-2147483648)) (Node.leaf 'b' 1) }
    (List.replicate 2147483648 'a' ++ ['b'])
  have hlen : (codesOf [('a', ['0']), ('b', ['1'])]
      (List.replicate 2147483648 'a' ++ ['b'])).length = 2147483649 := by
    have ea : (codeOf [('a', ['0']), ('b', ['1'])] 'a').length = 1 := by decide
    have eb : (codeOf [('a', ['0']), ('b', ['1'])] 'b').length = 1 := by decide
    rw [length_codesOf, List.map_append, List.sum_append, List.map_replicate,
      List.sum_replicate, ea]
    simp only [List.map_cons, List.map_nil, List.sum_cons, List.sum_nil, eb, smul_eq_mul]
    norm_num
  refine ⟨_, hc', _, hnew, h2, rfl, rfl, hlen, by decide, ?_⟩
  rw [hlen]
  decide

/-- C3 as amended: for every non-empty input `S` in which no symbol occurs more than
`2^31 - 1` times and every tie-breaking order, construction succeeds, `encode(S)` returns
a string, the keys of the frequency map are the distinct symbols of `S`, every count in
the map is the number of occurrences of its symbol, and the length of the encoded string
is the sum over the entries of the frequency map of count times code length; this is also
the sum over the distinct symbols `s` of `S` of the number of occurrences of `s` times
the length of its code. -/
theorem C3_encoded_length (tie : Nat → Nat) (S : List Char) (hS : S ≠ [])
    (hcnt : ∀ c, S.count c < 2147483648) :
    ∃ hc hc' bits, HuffmanCoder.new tie S = .ok hc ∧ hc.encode S = .ok (hc', bits) ∧
      (keys hc.freqMap).Perm S.dedup ∧
      (∀ p ∈ hc.freqMap, p.2 = S.count p.1) ∧
      (bits.length : Int)
        = (hc.freqMap.map (fun p => p.2 * ((codeOf hc.huffmanCode p.1).length : Int))).sum ∧
      bits.length = (S.dedup.map (fun s => S.count s * (codeOf hc.huffmanCode s).length)).sum := by
  obtain ⟨hc, hc', bits, h1, h2, h3, h4⟩ := encode_length_by_symbol tie S hS
  refine ⟨hc, hc', bits, h1, h2, ?_, ?_, ?_, h4⟩
  · rw [h3]; exact keys_freqMap_perm_dedup S
  · intro p hp
    rw [h3] at hp
    exact freqMap_entry_count S hcnt p hp
  · rw [h3, h4]
    exact (sum_freqMap_eq_sum_dedup (fun c => (codeOf hc.huffmanCode c).length) S hcnt).symm

/-- C3 as amended, at the input "abbccda" with the first-minimum tie-break. -/
theorem C3_encoded_length_witness :
    "abbccda".toList ≠ [] ∧ (∀ c, "abbccda".toList.count c < 2147483648) ∧
    ∃ hc hc' bits, HuffmanCoder.new firstMin "abbccda".toList = .ok hc ∧
      hc.encode "abbccda".toList = .ok (hc', bits) ∧
      (keys hc.freqMap).Perm "abbccda".toList.dedup ∧
      (∀ p ∈ hc.freqMap, p.2 = "abbccda".toList.count p.1) ∧
      (bits.length : Int)
        = (hc.freqMap.map (fun p => p.2 * ((codeOf hc.huffmanCode p.1).length : Int))).sum ∧
      bits.length = ("abbccda".toList.dedup.map
        (fun s => "abbccda".toList.count s * (codeOf hc.huffmanCode s).length)).sum :=
  ⟨by decide, fun c => lt_of_le_of_lt (List.count_le_length c _) (by decide),
    C3_encoded_length firstMin "abbccda".toList (by decide)
      (fun c => lt_of_le_of_lt (List.count_le_length c _) (by decide))⟩

theorem codeOf_of_not_mem (m : List (Char × List Char)) (c : Char) (h : c ∉ keys m) :
    codeOf m c = [] := by
  simp [codeOf, (find_eq_none_iff m c).2 h]

/-- C9 fails as stated: the coder built from "xyz" encodes "xyw", whose last symbol does
not occur in "xyz", to the string "1011" (the codes of 'x' and 'y'); no error is
reported. -/
theorem C9_counterexample :
    'w' ∉ "xyz".toList ∧
    encodeWith firstMin "xyz".toList "xyw".toList = .ok "1011".toList ∧
    encodeWith firstMin "xyz".toList "xyw".toList ≠ .error .UnknownSymbol := by
  decide

/-- C9 as amended: for every non-empty `S`, every tie-breaking order and every string
`T`, `encode(T)` on the coder built from `S` reports no error and returns the
concatenation, in order, of the codes of the symbols of `T`, in which a symbol that does
not occur in `S` contributes the empty string. -/
theorem C9_encode_skips_unknown_symbols (tie : Nat → Nat) (S T : List Char) (hS : S ≠ []) :
    ∃ hc hc', HuffmanCoder.new tie S = .ok hc ∧
      hc.encode T = .ok (hc', codesOf hc.huffmanCode T) ∧
      (∀ c, c ∉ S → codeOf hc.huffmanCode c = []) ∧
      encodeWith tie S T = .ok (codesOf hc.huffmanCode T) := by
  obtain ⟨hc, h1, _, _, _, h5, _⟩ := new_table_keys tie S hS
  obtain ⟨hc', h2⟩ := encode_eq hc T
  refine ⟨hc, hc', h1, h2, ?_, ?_⟩
  · intro c hc0
    exact codeOf_of_not_mem _ _ (fun h => hc0 ((h5 c).1 h))
  · simp [encodeWith, h1, h2, Outcome.bind]

/-- C9 as amended, at the coder built from "xyz" and the string "xyw". -/
theorem C9_encode_skips_unknown_symbols_witness :
    "xyz".toList ≠ [] ∧
    ∃ hc hc', HuffmanCoder.new firstMin "xyz".toList = .ok hc ∧
      hc.encode "xyw".toList = .ok (hc', codesOf hc.huffmanCode "xyw".toList) ∧
      (∀ c, c ∉ "xyz".toList → codeOf hc.huffmanCode c = []) ∧
      encodeWith firstMin "xyz".toList "xyw".toList
        = .ok (codesOf hc.huffmanCode "xyw".toList) :=
  ⟨by decide, C9_encode_skips_unknown_symbols firstMin "xyz".toList "xyw".toList (by decide)⟩

/-! ## Degenerate inputs -/

/-- C8 fails as stated: construction from the empty string reports no `EmptyInput`
error; the loop test `pq.size() != 1` holds for the empty queue and the loop body calls
`top()` on it. -/
theorem C8_counterexample :
    HuffmanCoder.new firstMin [] = .fault .topOfEmptyQueue ∧
    HuffmanCoder.new firstMin [] ≠ .error .EmptyInput := by
  decide

/-- C8 as amended: under every tie-breaking order, construction from the empty string
produces no coder and reports no error: it calls `top()` on the empty priority queue. -/
theorem C8_empty_input_calls_top_on_empty_queue (tie : Nat → Nat) :
    HuffmanCoder.new tie [] = .fault .topOfEmptyQueue := by
  simp [HuffmanCoder.new, buildFrequencyMap, buildHuffmanTree, seedQueue, mergeLoop, top_nil]

/-- Construction from a string of `n + 1` copies of one symbol. -/
theorem new_single (tie : Nat → Nat) (a : Char) (n : Nat) :
    HuffmanCoder.new tie (List.replicate (n + 1) a) = .ok
      { huffmanCode := [(a, [])], freqMap := [(a, wrap32 (n + 1))],
        root := Node.leaf a (wrap32 (n + 1)) } := by
  simp [HuffmanCoder.new, buildFrequencyMap_single, buildHuffmanTree, seedQueue, push,
    mergeLoop, top_singleton, generateHuffmanCodes, assign, Node.leaf]

theorem codesOf_single_empty (a : Char) (T : List Char) : codesOf [(a, [])] T = [] := by
  induction T with
  | nil => rfl
  | cons c T ih =>
    by_cases h : a = c
    · subst h; simp [codesOf, codeOf, find, ih]
    · simp [codesOf, codeOf, find, h, ih]

/-- C1 on an input with one distinct symbol: for `n + 1` copies of a symbol `a`, under
every tie-breaking order, `encode` returns the empty string and `decode` of it returns
the empty string, which is not the input. -/
theorem C1_round_trip_single_symbol (tie : Nat → Nat) (a : Char) (n : Nat) :
    roundTrip tie (List.replicate (n + 1) a) = .ok [] ∧
    roundTrip tie (List.replicate (n + 1) a) ≠ .ok (List.replicate (n + 1) a) := by
  have h : roundTrip tie (List.replicate (n + 1) a) = .ok [] := by
    obtain ⟨hc', h2⟩ := encode_eq
      { huffmanCode := [(a, [])], freqMap := [(a, wrap32 (n + 1))],
        root := Node.leaf a (wrap32 (n + 1)) }
      (List.replicate (n + 1) a)
    simp only [roundTrip, new_single, Outcome.bind, h2, codesOf_single_empty,
      HuffmanCoder.decode, decodeLoop]
  refine ⟨h, ?_⟩
  rw [h]
  simp [List.replicate_succ]

/-- C6 on the code: for `n + 1` copies of a symbol `a`, under every tie-breaking order,
the constructed table maps `a` to the empty string (not to "0"), and `encode` of the
input returns the empty string.  The count kept for `a` is the `int` reached by `n + 1`
increments. -/
theorem C6_single_symbol_code_is_empty (tie : Nat → Nat) (a : Char) (n : Nat) :
    HuffmanCoder.new tie (List.replicate (n + 1) a) = .ok
      { huffmanCode := [(a, [])], freqMap := [(a, wrap32 (n + 1))],
        root := Node.leaf a (wrap32 (n + 1)) } ∧
    encodeWith tie (List.replicate (n + 1) a) (List.replicate (n + 1) a) = .ok [] := by
  refine ⟨new_single tie a n, ?_⟩
  obtain ⟨hc', h2⟩ := encode_eq
    { huffmanCode := [(a, [])], freqMap := [(a, wrap32 (n + 1))], root := Node.leaf a (wrap32 (n + 1)) }
    (List.replicate (n + 1) a)
  simp only [encodeWith, new_single, Outcome.bind, h2, codesOf_single_empty]

/-! ## Two distinct symbols -/

theorem Merges.singleton {x r : Node} (h : Merges [x] r) : r = x := by
  cases h with
  | done => rfl
  | step h1 _ h3 _ _ =>
    have e1 := h1.length_eq
    have e3 := h3.length_eq
    simp only [List.length_cons, List.length_nil] at e1 e3
    omega

theorem Merges.pair {x y r : Node} (h : Merges [x, y] r) :
    r = Node.mk '\x00' (wrap32 (x.freq + y.freq)) x y ∨
      r = Node.mk '\x00' (wrap32 (y.freq + x.freq)) y x := by
  cases h with
  | @step _ q1 q2 a b _ h1 _ h3 _ h5 =>
    have e1 := h1.length_eq
    have e3 := h3.length_eq
    simp only [List.length_cons, List.length_nil] at e1 e3
    have hq2 : q2 = [] := List.length_eq_zero.1 (by omega)
    subst hq2
    have hr := Merges.singleton h5
    have hp : [x, y].Perm [a, b] := h1.trans (List.Perm.cons a h3)
    have hx : x = a ∨ x = b := by
      have := hp.subset (List.mem_cons_self _ _); simpa using this
    rcases hx with rfl | rfl
    · have hy : y = b := by
        have := (List.perm_cons x).1 hp
        have e := List.perm_singleton.1 this
        simpa using e
      subst hy
      exact Or.inl hr
    · have hp' : [x, y].Perm [x, a] := hp.trans (List.Perm.swap _ _ _)
      have hy : y = a := by
        have := (List.perm_cons x).1 hp'
        have e := List.perm_singleton.1 this
        simpa using e
      subst hy
      exact Or.inr hr

/-- C7: for every input with exactly two distinct symbols and every tie-breaking order,
construction succeeds and the code table has exactly two entries, which map one of the
two symbols to "0" and the other to "1". -/
theorem C7_two_symbols_get_0_and_1 (tie : Nat → Nat) (S : List Char)
    (hS : S.dedup.length = 2) :
    ∃ hc a b, HuffmanCoder.new tie S = .ok hc ∧ a ≠ b ∧ a ∈ S ∧ b ∈ S ∧
      (∀ c ∈ S, c = a ∨ c = b) ∧ hc.huffmanCode = [(a, ['0']), (b, ['1'])] := by
  have hne : S ≠ [] := by
    intro h; rw [h] at hS; simp at hS
  obtain ⟨root, h1, h2, _, _⟩ := new_spec tie S hne
  have hlen : (keys (buildFrequencyMap S [])).length = 2 := by
    rw [(keys_freqMap_perm_dedup S).length_eq, hS]
  have hnd := keys_buildFrequencyMap_nodup S
  have hmem := mem_keys_freqMap S
  match hfm : buildFrequencyMap S [], hlen, hnd, hmem, h1, h2 with
  | [(x, nx), (y, ny)], _, hnd, hmem, h1, h2 =>
    have hxy : x ≠ y := by
      simpa [keys] using hnd
    have hx : x ∈ S := (hmem x).1 (by simp [keys])
    have hy : y ∈ S := (hmem y).1 (by simp [keys])
    have hall : ∀ c ∈ S, c = x ∨ c = y := by
      intro c hc
      simpa [keys] using (hmem c).2 hc
    have hseed : seedQueue [(x, nx), (y, ny)] = [Node.leaf x nx, Node.leaf y ny] := by
      simp [seedQueue_eq]
    rw [hseed] at h2
    rcases Merges.pair h2 with hr | hr
    · refine ⟨_, x, y, h1, hxy, hx, hy, hall, ?_⟩
      rw [hr]; simp [leafPaths, Node.leaf]
    · refine ⟨_, y, x, h1, hxy.symm, hy, hx, fun c hc => (hall c hc).symm, ?_⟩
      rw [hr]; simp [leafPaths, Node.leaf]

/-- C7 at the input "ab" with the first-minimum tie-break. -/
theorem C7_two_symbols_get_0_and_1_witness :
    "ab".toList.dedup.length = 2 ∧
    ∃ hc a b, HuffmanCoder.new firstMin "ab".toList = .ok hc ∧ a ≠ b ∧
      a ∈ "ab".toList ∧ b ∈ "ab".toList ∧
      (∀ c ∈ "ab".toList, c = a ∨ c = b) ∧ hc.huffmanCode = [(a, ['0']), (b, ['1'])] :=
  ⟨by decide, C7_two_symbols_get_0_and_1 firstMin "ab".toList (by decide)⟩

/-! ## Shape of the tree and `decode` -/

theorem good_leaf (c : Char) (f : Int) : Good (Node.leaf c f) := by
  simp [Good, Node.leaf]

theorem good_merge (a b : Node) (ha : Good a) (hb : Good b) :
    Good (Node.mk '\x00' (wrap32 (a.freq + b.freq)) a b) := by
  simp [Good, ha, hb]

theorem Good.ne_null {t : Node} (h : Good t) : t ≠ Node.null := by
  intro e; rw [e] at h; exact h

theorem good_seedQueue (fm : List (Char × Int)) : ∀ x ∈ seedQueue fm, Good x := by
  intro x hx
  rw [seedQueue_eq] at hx
  obtain ⟨p, _, rfl⟩ := List.mem_map.1 hx
  exact good_leaf _ _

theorem Merges.good {q : List Node} {r : Node} (h : Merges q r) (hq : ∀ x ∈ q, Good x) :
    Good r :=
  Merges.invariant good_merge h hq

/-- A well-shaped tree with at least two leaves has two well-shaped children. -/
theorem internal_of_two_leaves {t : Node} (h : Good t) (h2 : 2 ≤ (leaves t).length) :
    Internal t := by
  cases t with
  | null => exact absurd h (by simp [Good])
  | mk ch f l r =>
    simp only [Good] at h
    rcases h with ⟨rfl, rfl⟩ | ⟨hl, hr, _⟩
    · simp [leaves, leafPaths] at h2
    · exact ⟨ch, f, l, r, rfl, hl, hr⟩

/-- From a cursor with two children in a tree whose root has two children, the loop
of `decode` follows no null pointer and returns a string. -/
theorem decodeLoop_total (root : Node) (hroot : Internal root) :
    ∀ (bits : List Char) (curr : Node) (acc : List Char), Internal curr →
      ∃ out, decodeLoop root curr bits acc = .ok out := by
  intro bits
  induction bits with
  | nil => intro curr acc _; exact ⟨acc, by simp [decodeLoop]⟩
  | cons bit rest ih =>
    intro curr acc hcurr
    obtain ⟨ch, f, l, r, rfl, hl, hr⟩ := hcurr
    have hnext : Good (if bit = '0' then l else r) := by
      by_cases hb : bit = '0' <;> simp [hb, hl, hr]
    cases hn : (if bit = '0' then l else r) with
    | null => rw [hn] at hnext; exact absurd hnext (by simp [Good])
    | mk ch' f' l' r' =>
      rw [hn] at hnext
      cases hleaf : (l'.isNull && r'.isNull) with
      | true =>
        obtain ⟨out, ho⟩ := ih root (acc ++ [ch']) hroot
        exact ⟨out, by simp only [decodeLoop, hn, hleaf, if_true]; exact ho⟩
      | false =>
        have hint : Internal (Node.mk ch' f' l' r') := by
          simp only [Good] at hnext
          rcases hnext with ⟨rfl, rfl⟩ | ⟨h1, h2, _⟩
          · simp at hleaf
          · exact ⟨ch', f', l', r', rfl, h1, h2⟩
        obtain ⟨out, ho⟩ := ih (Node.mk ch' f' l' r') acc hint
        exact ⟨out, by simp only [decodeLoop, hn, hleaf, Bool.false_eq_true, if_false]; exact ho⟩

theorem normBit_eq_zero_iff (bit : Char) : normBit bit = '0' ↔ bit = '0' := by
  by_cases h : bit = '0'
  · simp [normBit, h]
  · simp [normBit, h]

/-- The loop of `decode` cannot tell a character other than `'0'` from `'1'`. -/
theorem decodeLoop_normBit (root : Node) : ∀ (bits : List Char) (curr : Node) (acc : List Char),
    decodeLoop root curr (bits.map normBit) acc = decodeLoop root curr bits acc := by
  intro bits
  induction bits with
  | nil => intro curr acc; simp [decodeLoop]
  | cons bit rest ih =>
    intro curr acc
    cases curr with
    | null => simp [decodeLoop]
    | mk ch f l r =>
      simp only [List.map_cons, decodeLoop, normBit_eq_zero_iff]
      cases hn : (if bit = '0' then l else r) with
      | null => rfl
      | mk ch' f' l' r' =>
        simp only [ih]

/-- Construction from an input with at least two distinct symbols: the root has two
well-shaped children. -/
theorem new_internal (tie : Nat → Nat) (S : List Char) (hS : 2 ≤ S.dedup.length) :
    ∃ hc, HuffmanCoder.new tie S = .ok hc ∧ Internal hc.root := by
  have hne : S ≠ [] := by
    intro h; rw [h] at hS; simp at hS
  obtain ⟨root, h1, h2, h3, _⟩ := new_spec tie S hne
  refine ⟨_, h1, ?_⟩
  apply internal_of_two_leaves (h2.good (good_seedQueue _))
  have e : (leaves root).length = S.dedup.length := by
    rw [h3.length_eq, ← (keys_freqMap_perm_dedup S).length_eq]
    simp [keys]
  show 2 ≤ (leaves root).length
  omega

/-- C10 fails as stated: the coder built from "ab" decodes the string "2", whose only
character is neither '0' nor '1', to "b"; no error is reported. -/
theorem C10_counterexample :
    '2' ≠ '0' ∧ '2' ≠ '1' ∧
    decodeWith firstMin "ab".toList "2".toList = .ok "b".toList ∧
    decodeWith firstMin "ab".toList "2".toList ≠ .error .InvalidBit := by
  decide

/-- C10 as amended: for every input `S` with at least two distinct symbols, every
tie-breaking order and every string `bits`, `decode(bits)` on the coder built from `S`
reports no error and returns a symbol sequence, the same one that it returns for `bits`
with every character other than '0' replaced by '1'. -/
theorem C10_decode_reads_other_chars_as_1 (tie : Nat → Nat) (S bits : List Char)
    (hS : 2 ≤ S.dedup.length) :
    ∃ out, decodeWith tie S bits = .ok out ∧ decodeWith tie S (bits.map normBit) = .ok out := by
  obtain ⟨hc, h1, h2⟩ := new_internal tie S hS
  obtain ⟨out, ho⟩ := decodeLoop_total hc.root h2 bits hc.root [] h2
  refine ⟨out, ?_, ?_⟩
  · simp only [decodeWith, h1, Outcome.bind, HuffmanCoder.decode, ho]
  · simp only [decodeWith, h1, Outcome.bind, HuffmanCoder.decode, decodeLoop_normBit, ho]

/-- C10 as amended, at the coder built from "abbccda" and the string "0x1y10". -/
theorem C10_decode_reads_other_chars_as_1_witness :
    2 ≤ "abbccda".toList.dedup.length ∧
    ∃ out, decodeWith firstMin "abbccda".toList "0x1y10".toList = .ok out ∧
      decodeWith firstMin "abbccda".toList ("0x1y10".toList.map normBit) = .ok out :=
  ⟨by decide, C10_decode_reads_other_chars_as_1 firstMin "abbccda".toList "0x1y10".toList
    (by decide)⟩

/-! ## The merge loop commutes with replacing a leaf by a tree of the same weight -/

theorem freq_expand (c : Char) (P t : Node) : (expand c P t).freq = t.freq := by
  cases t with
  | null => rfl
  | mk ch f l r =>
    simp only [expand]
    split
    · split
      · next h => exact h.2.symm
      · rfl
    · rfl

theorem expand_node (c : Char) (P : Node) (ch : Char) (f : Int) (l r : Node) (hl : l ≠ .null) :
    expand c P (Node.mk ch f l r) = Node.mk ch f (expand c P l) (expand c P r) := by
  have : l.isNull = false := (isNull_eq_false_iff l).2 hl
  simp [expand, this]

theorem minFreq_map (g : Node → Node) (hg : ∀ x, (g x).freq = x.freq) (q : List Node) :
    minFreq (q.map g) = minFreq q := by
  induction q with
  | nil => rfl
  | cons x xs ih =>
    cases xs with
    | nil => simp [minFreq, hg]
    | cons z zs =>
      rw [List.map_cons, List.map_cons, minFreq_cons_cons, minFreq_cons_cons, hg]
      rw [List.map_cons] at ih
      rw [ih]

theorem nthOfWeight_map (g : Node → Node) (hg : ∀ x, (g x).freq = x.freq) (m : Int)
    (q : List Node) : ∀ j, nthOfWeight m j (q.map g) = nthOfWeight m j q := by
  induction q with
  | nil => intro j; rfl
  | cons x xs ih =>
    intro j
    simp only [List.map_cons, nthOfWeight, hg, ih]

theorem topIdx_map (g : Node → Node) (hg : ∀ x, (g x).freq = x.freq) (t : Nat)
    (q : List Node) : topIdx t (q.map g) = topIdx t q := by
  have hc : ∀ m, (q.map g).countP (fun x => decide (x.freq = m))
      = q.countP (fun x => decide (x.freq = m)) := by
    intro m
    rw [List.countP_map]
    congr 1
    funext x
    simp [hg]
  simp only [topIdx, minFreq_map g hg, nthOfWeight_map g hg, hc]

theorem top_map (g : Node → Node) (hg : ∀ x, (g x).freq = x.freq) (t : Nat) (q : List Node) :
    top t (q.map g) = (top t q).map g := by
  simp only [top, topIdx_map g hg, List.get?_eq_getElem?, List.getElem?_map]

theorem eraseIdx_map_node (g : Node → Node) (q : List Node) :
    ∀ i, (q.map g).eraseIdx i = (q.eraseIdx i).map g := by
  induction q with
  | nil => intro i; rfl
  | cons x xs ih =>
    intro i
    cases i with
    | zero => rfl
    | succ i => simp only [List.map_cons, List.eraseIdx_cons_succ, ih]

theorem pop_map (g : Node → Node) (hg : ∀ x, (g x).freq = x.freq) (t : Nat) (q : List Node) :
    pop t (q.map g) = (pop t q).map g := by
  simp only [pop, topIdx_map g hg]
  exact eraseIdx_map_node g q _

theorem mem_of_mem_pop (t : Nat) (q : List Node) (y : Node) (hy : y ∈ pop t q) : y ∈ q := by
  by_cases hq : q = []
  · subst hq; simp [pop] at hy
  · obtain ⟨x, _, _, h3⟩ := top_pop_spec t q hq
    exact h3.symm.subset (List.mem_cons_of_mem _ hy)

theorem mem_of_top (t : Nat) (q : List Node) (x : Node) (hx : top t q = some x) : x ∈ q := by
  by_cases hq : q = []
  · subst hq; simp [top] at hx
  · obtain ⟨x', h1, _, h3⟩ := top_pop_spec t q hq
    rw [hx] at h1
    cases h1
    exact h3.symm.subset (List.mem_cons_self _ _)

/-- Running the merge loop on a queue in which leaves were replaced by trees of the
same weight gives the root of the original run with the same replacement. -/
theorem mergeLoop_expand (tie : Nat → Nat) (c : Char) (P : Node) :
    ∀ (fuel k : Nat) (q : List Node) (r : Node), (∀ x ∈ q, x ≠ Node.null) →
      mergeLoop tie fuel k q = .ok r →
      mergeLoop tie fuel k (q.map (expand c P)) = .ok (expand c P r) := by
  have hg := freq_expand c P
  intro fuel
  induction fuel with
  | zero =>
    intro k q r hq h
    rw [mergeLoop] at h ⊢
    simp only [List.length_map, top_map _ hg, pop_map _ hg] at h ⊢
    by_cases h1 : q.length = 1
    · simp only [h1, if_true] at h ⊢
      cases ht : top (tie k) q with
      | none => simp [ht] at h
      | some x => simp only [ht, Outcome.ok.injEq] at h; simp [h]
    · simp only [h1, if_false] at h ⊢
      cases ht : top (tie k) q with
      | none => simp [ht] at h
      | some x =>
        cases ht2 : top (tie (k + 1)) (pop (tie k) q) with
        | none => simp [ht, ht2] at h
        | some y => simp [ht, ht2] at h
  | succ fuel ih =>
    intro k q r hq h
    rw [mergeLoop] at h ⊢
    simp only [List.length_map, top_map _ hg, pop_map _ hg] at h ⊢
    by_cases h1 : q.length = 1
    · simp only [h1, if_true] at h ⊢
      cases ht : top (tie k) q with
      | none => simp [ht] at h
      | some x => simp only [ht, Outcome.ok.injEq] at h; simp [h]
    · simp only [h1, if_false] at h ⊢
      cases ht : top (tie k) q with
      | none => simp [ht] at h
      | some x =>
        cases ht2 : top (tie (k + 1)) (pop (tie k) q) with
        | none => simp [ht, ht2] at h
        | some y =>
          simp only [ht, ht2] at h
          have hx : x ≠ Node.null := hq x (mem_of_top _ _ _ ht)
          have hq' : ∀ z ∈ push (pop (tie (k + 1)) (pop (tie k) q))
              (Node.mk '\x00' (wrap32 (x.freq + y.freq)) x y), z ≠ Node.null := by
            intro z hz
            simp only [push, List.mem_append, List.mem_singleton] at hz
            rcases hz with hz | hz
            · exact hq z (mem_of_mem_pop _ _ _ (mem_of_mem_pop _ _ _ hz))
            · rw [hz]; simp
          have := ih (k + 2) _ r hq' h
          simp only [push, List.map_append, List.map_cons, List.map_nil,
            expand_node c P _ _ x y hx] at this
          simp only [Option.map_some', hg, push]
          exact this

/-! ## Weights and depths of the cells of a tree -/

theorem mem_weightDepths_node (ch : Char) (f : Int) (l r : Node) (p : Int × Nat) :
    p ∈ weightDepths (Node.mk ch f l r) ↔
      p = (f, 0) ∨ (∃ p' ∈ weightDepths l, p = (p'.1, p'.2 + 1)) ∨
        (∃ p' ∈ weightDepths r, p = (p'.1, p'.2 + 1)) := by
  simp only [weightDepths, List.mem_cons, List.mem_map, List.mem_append]
  constructor
  · rintro (h | ⟨p', hp' | hp', rfl⟩)
    · exact Or.inl h
    · exact Or.inr (Or.inl ⟨p', hp', rfl⟩)
    · exact Or.inr (Or.inr ⟨p', hp', rfl⟩)
  · rintro (h | ⟨p', hp', rfl⟩ | ⟨p', hp', rfl⟩)
    · exact Or.inl h
    · exact Or.inr ⟨p', Or.inl hp', rfl⟩
    · exact Or.inr ⟨p', Or.inr hp', rfl⟩

theorem root_mem_weightDepths (t : Node) (ht : t ≠ .null) : (t.freq, 0) ∈ weightDepths t := by
  cases t with
  | null => exact absurd rfl ht
  | mk ch f l r => simp [weightDepths, Node.freq]

theorem weightDepths_depth_zero (t : Node) (w : Int) (h : (w, 0) ∈ weightDepths t) :
    w = t.freq := by
  cases t with
  | null => simp [weightDepths] at h
  | mk ch f l r =>
    rw [mem_weightDepths_node] at h
    rcases h with h | ⟨p', _, h⟩ | ⟨p', _, h⟩
    · cases h; rfl
    · cases h
    · cases h

theorem Exact.subtrees {ch : Char} {f : Int} {l r : Node} (he : Exact (Node.mk ch f l r))
    (hl : l ≠ .null) : Exact l ∧ Exact r ∧ f = l.freq + r.freq := by
  simp only [Exact] at he
  rcases he with ⟨e, _⟩ | h
  · exact absurd e hl
  · exact h

/-- In a well-shaped tree without overflow every cell below the root has a parent one
level up whose weight is the sum of the weights of the cell and of a sibling on the
cell's level. -/
theorem weightDepths_parent (t : Node) (ht : Good t) (he : Exact t) :
    ∀ (w : Int) (d : Nat), (w, d) ∈ weightDepths t →
    d = 0 ∨ ∃ d' ws, d = d' + 1 ∧ (w + ws, d') ∈ weightDepths t ∧ (ws, d' + 1) ∈ weightDepths t := by
  induction t with
  | null => exact absurd ht (by simp [Good])
  | mk ch f l r ihl ihr =>
    intro w d h
    simp only [Good] at ht
    rcases ht with ⟨rfl, rfl⟩ | ⟨hl, hr, _⟩
    · simp [weightDepths] at h
      exact Or.inl h.2
    · obtain ⟨el, er, hf⟩ := he.subtrees hl.ne_null
      rw [mem_weightDepths_node] at h
      rcases h with h | ⟨p', hp', h⟩ | ⟨p', hp', h⟩
      · cases h; exact Or.inl rfl
      · cases h
        right
        rcases ihl hl el p'.1 p'.2 hp' with h0 | ⟨d', ws, hd, h1, h2⟩
        · have hw : p'.1 = l.freq := weightDepths_depth_zero l p'.1 (by rw [← h0]; exact hp')
          refine ⟨0, r.freq, by omega, ?_, ?_⟩
          · rw [mem_weightDepths_node]; left; rw [hw, hf]
          · rw [mem_weightDepths_node]; right; right
            exact ⟨(r.freq, 0), root_mem_weightDepths r hr.ne_null, rfl⟩
        · refine ⟨d' + 1, ws, by omega, ?_, ?_⟩
          · rw [mem_weightDepths_node]; right; left
            exact ⟨(p'.1 + ws, d'), h1, rfl⟩
          · rw [mem_weightDepths_node]; right; left
            exact ⟨(ws, d' + 1), h2, rfl⟩
      · cases h
        right
        rcases ihr hr er p'.1 p'.2 hp' with h0 | ⟨d', ws, hd, h1, h2⟩
        · have hw : p'.1 = r.freq := weightDepths_depth_zero r p'.1 (by rw [← h0]; exact hp')
          refine ⟨0, l.freq, by omega, ?_, ?_⟩
          · rw [mem_weightDepths_node]; left; rw [hw, hf, Int.add_comm]
          · rw [mem_weightDepths_node]; right; left
            exact ⟨(l.freq, 0), root_mem_weightDepths l hl.ne_null, rfl⟩
        · refine ⟨d' + 1, ws, by omega, ?_, ?_⟩
          · rw [mem_weightDepths_node]; right; right
            exact ⟨(p'.1 + ws, d'), h1, rfl⟩
          · rw [mem_weightDepths_node]; right; right
            exact ⟨(ws, d' + 1), h2, rfl⟩

/-- Each leaf of a tree appears among its cells with its weight, at the depth that is
the length of its path. -/
theorem leafPaths_mem_weightDepths (t : Node) : ∀ e ∈ leafPaths t,
    (e.2.1, e.2.2.length) ∈ weightDepths t := by
  induction t with
  | null => intro e h; simp [leafPaths] at h
  | mk ch f l r ihl ihr =>
    intro e h
    rw [mem_weightDepths_node]
    cases hn : (l.isNull && r.isNull) with
    | true =>
      rw [leafPaths_of_isNull ch f l r hn] at h
      simp only [List.mem_singleton] at h
      left; rw [h]; rfl
    | false =>
      rw [leafPaths_of_not_isNull ch f l r hn] at h
      simp only [List.mem_append, List.mem_map] at h
      rcases h with ⟨a, ha, rfl⟩ | ⟨a, ha, rfl⟩
      · right; left; exact ⟨_, ihl a ha, rfl⟩
      · right; right; exact ⟨_, ihr a ha, rfl⟩

/-! ## Replacing a leaf by a two-leaf tree -/

theorem expand_of_not_mem (c : Char) (P : Node) (t : Node) (ht : Good t)
    (hc : c ∉ leafChars t) : expand c P t = t := by
  induction t with
  | null => rfl
  | mk ch f l r ihl ihr =>
    simp only [Good] at ht
    rcases ht with ⟨rfl, rfl⟩ | ⟨hl, hr, _⟩
    · have hne : ¬ ch = c := by
        intro e; apply hc; simp [leafChars, leafPaths, e]
      simp [expand, hne]
    · rw [leafChars_node ch f l r hl.ne_null, List.mem_append, not_or] at hc
      rw [expand_node c P ch f l r hl.ne_null, ihl hl hc.1, ihr hr hc.2]

theorem mem_leaves_leafChars {t : Node} {c : Char} {w : Int} (h : (c, w) ∈ leaves t) :
    c ∈ leafChars t := by
  rw [leafChars_eq_keys_leaves]
  exact List.mem_map.2 ⟨(c, w), h, rfl⟩

/-- Replacing the leaf for `ca` of weight `wa + wb` by a cell with two leaves of weights
`wa` and `wb` adds two cells one level below the place of that leaf and changes no
other weight or depth. -/
theorem weightDepths_expand (ca cb : Char) (wa wb : Int) (t : Node) (ht : Good t)
    (hnd : (leafChars t).Nodup) (hmem : (ca, wa + wb) ∈ leaves t) :
    ∃ d, (wa + wb, d) ∈ weightDepths t ∧
      ∀ p, p ∈ weightDepths
          (expand ca (Node.mk '\x00' (wa + wb) (Node.leaf ca wa) (Node.leaf cb wb)) t) ↔
        p ∈ weightDepths t ∨ p = (wa, d + 1) ∨ p = (wb, d + 1) := by
  induction t with
  | null => exact absurd ht (by simp [Good])
  | mk ch f l r ihl ihr =>
    simp only [Good] at ht
    rcases ht with ⟨rfl, rfl⟩ | ⟨hl, hr, _⟩
    · simp only [leaves, leafPaths, isNull_null, Bool.and_self, if_true, List.map_nil,
        List.append_nil, List.map_cons, List.mem_singleton, Prod.mk.injEq] at hmem
      obtain ⟨e1, e2⟩ := hmem
      subst e1 e2
      refine ⟨0, by simp [weightDepths], ?_⟩
      intro p
      simp [expand, Node.freq, weightDepths, Node.leaf]
    · rw [leafChars_node ch f l r hl.ne_null] at hnd
      have hnd' := List.nodup_append.1 hnd
      rw [leaves_node ch f l r hl.ne_null, List.mem_append] at hmem
      rw [expand_node _ _ ch f l r hl.ne_null]
      rcases hmem with hm | hm
      · have hcr : ca ∉ leafChars r := fun h => hnd'.2.2 (mem_leaves_leafChars hm) h
        obtain ⟨d, hd1, hd2⟩ := ihl hl hnd'.1 hm
        rw [expand_of_not_mem _ _ r hr hcr]
        refine ⟨d + 1, ?_, ?_⟩
        · rw [mem_weightDepths_node]; right; left; exact ⟨_, hd1, rfl⟩
        · intro p
          rw [mem_weightDepths_node, mem_weightDepths_node]
          constructor
          · rintro (h | ⟨p', hp', h⟩ | ⟨p', hp', h⟩)
            · exact Or.inl (Or.inl h)
            · rcases (hd2 p').1 hp' with h' | h' | h'
              · exact Or.inl (Or.inr (Or.inl ⟨p', h', h⟩))
              · right; left; rw [h, h']
              · right; right; rw [h, h']
            · exact Or.inl (Or.inr (Or.inr ⟨p', hp', h⟩))
          · rintro ((h | ⟨p', hp', h⟩ | ⟨p', hp', h⟩) | h | h)
            · exact Or.inl h
            · exact Or.inr (Or.inl ⟨p', (hd2 p').2 (Or.inl hp'), h⟩)
            · exact Or.inr (Or.inr ⟨p', hp', h⟩)
            · exact Or.inr (Or.inl ⟨(wa, d + 1), (hd2 _).2 (Or.inr (Or.inl rfl)), h⟩)
            · exact Or.inr (Or.inl ⟨(wb, d + 1), (hd2 _).2 (Or.inr (Or.inr rfl)), h⟩)
      · have hcl : ca ∉ leafChars l := fun h => hnd'.2.2 h (mem_leaves_leafChars hm)
        obtain ⟨d, hd1, hd2⟩ := ihr hr hnd'.2.1 hm
        rw [expand_of_not_mem _ _ l hl hcl]
        refine ⟨d + 1, ?_, ?_⟩
        · rw [mem_weightDepths_node]; right; right; exact ⟨_, hd1, rfl⟩
        · intro p
          rw [mem_weightDepths_node, mem_weightDepths_node]
          constructor
          · rintro (h | ⟨p', hp', h⟩ | ⟨p', hp', h⟩)
            · exact Or.inl (Or.inl h)
            · exact Or.inl (Or.inr (Or.inl ⟨p', hp', h⟩))
            · rcases (hd2 p').1 hp' with h' | h' | h'
              · exact Or.inl (Or.inr (Or.inr ⟨p', h', h⟩))
              · right; left; rw [h, h']
              · right; right; rw [h, h']
          · rintro ((h | ⟨p', hp', h⟩ | ⟨p', hp', h⟩) | h | h)
            · exact Or.inl h
            · exact Or.inr (Or.inl ⟨p', hp', h⟩)
            · exact Or.inr (Or.inr ⟨p', (hd2 p').2 (Or.inl hp'), h⟩)
            · exact Or.inr (Or.inr ⟨(wa, d + 1), (hd2 _).2 (Or.inr (Or.inl rfl)), h⟩)
            · exact Or.inr (Or.inr ⟨(wb, d + 1), (hd2 _).2 (Or.inr (Or.inr rfl)), h⟩)

/-! ## Trees built without overflow -/

theorem weightSum_nil : weightSum [] = 0 := rfl

theorem weightSum_cons (p : Char × Int) (L : List (Char × Int)) :
    weightSum (p :: L) = p.2 + weightSum L := by
  simp [weightSum]

theorem weightSum_append (L L' : List (Char × Int)) :
    weightSum (L ++ L') = weightSum L + weightSum L' := by
  simp [weightSum]

theorem weightSum_perm {L L' : List (Char × Int)} (h : L.Perm L') :
    weightSum L = weightSum L' :=
  (List.Perm.map _ h).sum_eq

theorem weightSum_nonneg (L : List (Char × Int)) (h : ∀ p ∈ L, 0 ≤ p.2) : 0 ≤ weightSum L := by
  induction L with
  | nil => simp [weightSum]
  | cons p L ih =>
    rw [weightSum_cons]
    have h1 := h p (List.mem_cons_self _ _)
    have h2 := ih (fun q hq => h q (List.mem_cons_of_mem _ hq))
    omega

theorem sound_leaf (c : Char) (f : Int) (h : 0 ≤ f) : Sound (Node.leaf c f) := by
  refine ⟨good_leaf c f, by simp [Exact, Node.leaf], ?_, ?_⟩
  · rw [leaves, leafPaths_leaf]
    simp [weightSum, Node.leaf, Node.freq]
  · intro p hp
    simp only [leaves, leafPaths_leaf, List.map_cons, List.map_nil, List.mem_singleton] at hp
    rw [hp]; exact h

theorem forestLeaves_mem_of_leaf {q : List Node} {c : Char} {f : Int}
    (h : Node.leaf c f ∈ q) : (c, f) ∈ forestLeaves q := by
  induction q with
  | nil => simp at h
  | cons x xs ih =>
    simp only [forestLeaves, List.mem_append]
    rcases List.mem_cons.1 h with e | h'
    · left; rw [← e]; simp [leaves, leafPaths_leaf]
    · right; exact ih h'

theorem mem_forestLeaves {q : List Node} {p : Char × Int} (h : p ∈ forestLeaves q) :
    ∃ y ∈ q, p ∈ leaves y := by
  induction q with
  | nil => simp [forestLeaves] at h
  | cons x xs ih =>
    simp only [forestLeaves, List.mem_append] at h
    rcases h with h | h
    · exact ⟨x, List.mem_cons_self _ _, h⟩
    · obtain ⟨y, hy, hp⟩ := ih h
      exact ⟨y, List.mem_cons_of_mem _ hy, hp⟩

/-- A run of the merge loop on trees built without overflow, the sum of whose leaf
weights is in the range of `int`, ends with a tree built without overflow. -/
theorem Merges.sound {q : List Node} {r : Node} (h : Merges q r) :
    (∀ x ∈ q, Sound x) → weightSum (forestLeaves q) < 2147483648 → Sound r := by
  induction h with
  | done r => intro hq _; exact hq r (by simp)
  | @step q q1 q2 a b r h1 _ h3 _ _ ih =>
    intro hq hsum
    have ha : Sound a := hq a (h1.symm.subset (List.mem_cons_self _ _))
    have hq1 : ∀ y ∈ q1, Sound y :=
      fun y hy => hq y (h1.symm.subset (List.mem_cons_of_mem _ hy))
    have hb : Sound b := hq1 b (h3.symm.subset (List.mem_cons_self _ _))
    have hq2 : ∀ y ∈ q2, Sound y :=
      fun y hy => hq1 y (h3.symm.subset (List.mem_cons_of_mem _ hy))
    have hq2nn : 0 ≤ weightSum (forestLeaves q2) := by
      apply weightSum_nonneg
      intro p hp
      obtain ⟨y, hy, hpy⟩ := mem_forestLeaves hp
      exact (hq2 y hy).2.2.2 p hpy
    have htot : weightSum (forestLeaves q)
        = weightSum (leaves a) + (weightSum (leaves b) + weightSum (forestLeaves q2)) := by
      have p1 : q.Perm (a :: b :: q2) := h1.trans (List.Perm.cons a h3)
      rw [weightSum_perm (forestLeaves_perm p1)]
      simp only [forestLeaves, weightSum_append]
    have hann := weightSum_nonneg _ ha.2.2.2
    have hbnn := weightSum_nonneg _ hb.2.2.2
    have hw : wrap32 (a.freq + b.freq) = a.freq + b.freq := by
      rw [ha.2.2.1, hb.2.2.1]
      apply wrap32_of_range <;> omega
    have hnew : Sound (Node.mk '\x00' (wrap32 (a.freq + b.freq)) a b) := by
      refine ⟨good_merge a b ha.1 hb.1, ?_, ?_, ?_⟩
      · simp only [Exact]
        exact Or.inr ⟨ha.2.1, hb.2.1, hw⟩
      · rw [leaves_node _ _ a b ha.1.ne_null, weightSum_append, hw, ha.2.2.1, hb.2.2.1]
        rfl
      · intro p hp
        rw [leaves_node _ _ a b ha.1.ne_null, List.mem_append] at hp
        rcases hp with hp | hp
        · exact ha.2.2.2 p hp
        · exact hb.2.2.2 p hp
    apply ih
    · intro x hx
      simp only [push, List.mem_append, List.mem_singleton] at hx
      rcases hx with hx | hx
      · exact hq2 x hx
      · rw [hx]; exact hnew
    · have e1 : forestLeaves (push q2 (Node.mk '\x00' (wrap32 (a.freq + b.freq)) a b))
          = forestLeaves q2 ++ (leaves a ++ leaves b) := by
        simp [push, forestLeaves_append, forestLeaves, leaves_node _ _ a b ha.1.ne_null]
      rw [e1, weightSum_append, weightSum_append]
      omega

/-- In a tree built without overflow whose leaves weigh at least `m`, for `m` not
negative, every cell weighs at least `m`. -/
theorem minWeight_of_exact (t : Node) (ht : Good t) (he : Exact t) (m : Int) (hm : 0 ≤ m)
    (hl : ∀ p ∈ leaves t, m ≤ p.2) : m ≤ t.freq ∧ MinWeight m t := by
  induction t with
  | null => exact absurd ht (by simp [Good])
  | mk ch f l r ihl ihr =>
    simp only [Good] at ht
    rcases ht with ⟨rfl, rfl⟩ | ⟨gl, gr, _⟩
    · have hf : m ≤ f := hl (ch, f) (by simp [leaves, leafPaths])
      refine ⟨hf, ?_⟩
      intro p hp
      simp only [weightDepths, List.append_nil, List.map_nil, List.mem_singleton] at hp
      rw [hp]; exact hf
    · obtain ⟨el, er, hf⟩ := he.subtrees gl.ne_null
      rw [leaves_node ch f l r gl.ne_null] at hl
      obtain ⟨h1, h2⟩ := ihl gl el (fun p hp => hl p (List.mem_append_left _ hp))
      obtain ⟨h3, h4⟩ := ihr gr er (fun p hp => hl p (List.mem_append_right _ hp))
      have hf' : m ≤ f := by rw [hf]; omega
      refine ⟨hf', ?_⟩
      intro p hp
      rw [mem_weightDepths_node] at hp
      rcases hp with h | ⟨p', hp', h⟩ | ⟨p', hp', h⟩
      · rw [h]; exact hf'
      · rw [h]; exact h2 p' hp'
      · rw [h]; exact h4 p' hp'

/-! ## One step of the merge loop on a queue of leaves -/

/-- The first iteration of the merge loop on a queue of at least two leaves with
distinct symbols and non-negative weights whose sum is in the range of `int`: it takes
the two lightest leaves `ca`, `cb`; the root the loop ends with is the root of the run
on the queue with the two collapsed into one leaf `ca` of the summed weight, with that
leaf replaced by the cell over the two. -/
theorem mergeLoop_leaves_step (tie : Nat → Nat) (n fuel k : Nat) (L : List Node) (R : Node)
    (hlen : L.length = n + 2) (hfuel : L.length ≤ fuel + 1)
    (hleaf : ∀ x ∈ L, ∃ c f, x = Node.leaf c f) (hnd : (keys (forestLeaves L)).Nodup)
    (hnn : ∀ p ∈ forestLeaves L, 0 ≤ p.2) (hsum : weightSum (forestLeaves L) < 2147483648)
    (h : mergeLoop tie fuel k L = .ok R) :
    ∃ (fuel' : Nat) (q2 : List Node) (ca cb : Char) (wa wb : Int) (R' : Node),
      L.Perm (Node.leaf ca wa :: Node.leaf cb wb :: q2) ∧ wa ≤ wb ∧ 0 ≤ wa ∧
      (∀ y ∈ q2, ∃ c f, y = Node.leaf c f ∧ wb ≤ f) ∧
      (push q2 (Node.leaf ca (wa + wb))).length = n + 1 ∧
      (push q2 (Node.leaf ca (wa + wb))).length ≤ fuel' + 1 ∧
      (keys (forestLeaves (push q2 (Node.leaf ca (wa + wb))))).Nodup ∧
      (∀ p ∈ forestLeaves (push q2 (Node.leaf ca (wa + wb))), wb ≤ p.2) ∧
      weightSum (forestLeaves (push q2 (Node.leaf ca (wa + wb)))) < 2147483648 ∧
      mergeLoop tie fuel' (k + 2) (push q2 (Node.leaf ca (wa + wb))) = .ok R' ∧
      Merges (push q2 (Node.leaf ca (wa + wb))) R' ∧
      R = expand ca (Node.mk '\x00' (wa + wb) (Node.leaf ca wa) (Node.leaf cb wb)) R' := by
  have hne : L ≠ [] := by intro e; rw [e] at hlen; simp at hlen
  have h1 : ¬ L.length = 1 := by omega
  obtain ⟨a, ha1, ha2, ha3⟩ := top_pop_spec (tie k) L hne
  have hlen1 : (pop (tie k) L).length = n + 1 := by
    have := ha3.length_eq; simp only [List.length_cons] at this; omega
  have hne1 : pop (tie k) L ≠ [] := by intro e; rw [e] at hlen1; simp at hlen1
  obtain ⟨b, hb1, hb2, hb3⟩ := top_pop_spec (tie (k + 1)) (pop (tie k) L) hne1
  have hlen2 : (pop (tie (k + 1)) (pop (tie k) L)).length = n := by
    have := hb3.length_eq; simp only [List.length_cons] at this; omega
  obtain ⟨fuel', rfl⟩ : ∃ fuel', fuel = fuel' + 1 := ⟨fuel - 1, by omega⟩
  rw [mergeLoop] at h
  simp only [h1, if_false, ha1, hb1] at h
  generalize hq2 : pop (tie (k + 1)) (pop (tie k) L) = q2 at h hb3 hlen2
  generalize pop (tie k) L = q1 at ha3 hb2 hb3
  have haL : a ∈ L := ha3.symm.subset (List.mem_cons_self _ _)
  have hbq1 : b ∈ q1 := hb3.symm.subset (List.mem_cons_self _ _)
  have hq1L : ∀ y ∈ q1, y ∈ L := fun y hy => ha3.symm.subset (List.mem_cons_of_mem _ hy)
  have hq2q1 : ∀ y ∈ q2, y ∈ q1 := fun y hy => hb3.symm.subset (List.mem_cons_of_mem _ hy)
  obtain ⟨ca, wa, rfl⟩ := hleaf a haL
  obtain ⟨cb, wb, rfl⟩ := hleaf b (hq1L _ hbq1)
  have hab : wa ≤ wb := by
    have := ha2 _ (hq1L _ hbq1); simpa [Node.leaf, Node.freq] using this
  have hperm : L.Perm (Node.leaf ca wa :: Node.leaf cb wb :: q2) :=
    ha3.trans (List.Perm.cons _ hb3)
  have hkeys : (ca :: cb :: keys (forestLeaves q2)).Nodup := by
    have := (List.Perm.map (fun p : Char × Int => p.1) (forestLeaves_perm hperm)).nodup_iff.1 hnd
    simpa [forestLeaves, leaves, leafPaths_leaf, keys] using this
  have hfl : (forestLeaves L).Perm ((ca, wa) :: (cb, wb) :: forestLeaves q2) := by
    have := forestLeaves_perm hperm
    simpa [forestLeaves, leaves, leafPaths_leaf] using this
  have hwa : 0 ≤ wa := hnn (ca, wa) (hfl.symm.subset (List.mem_cons_self _ _))
  have hq2nn : 0 ≤ weightSum (forestLeaves q2) :=
    weightSum_nonneg _ (fun p hp =>
      hnn p (hfl.symm.subset (List.mem_cons_of_mem _ (List.mem_cons_of_mem _ hp))))
  have htot : weightSum (forestLeaves L) = wa + (wb + weightSum (forestLeaves q2)) := by
    rw [weightSum_perm hfl, weightSum_cons, weightSum_cons]
  have hca : ca ∉ keys (forestLeaves q2) := by
    have := (List.nodup_cons.1 hkeys).1
    exact fun h => this (List.mem_cons_of_mem _ h)
  have hnd2 : (keys (forestLeaves q2)).Nodup := (List.nodup_cons.1 (List.nodup_cons.1 hkeys).2).2
  have hq2leaf : ∀ y ∈ q2, ∃ c f, y = Node.leaf c f ∧ wb ≤ f := by
    intro y hy
    obtain ⟨cy, fy, rfl⟩ := hleaf y (hq1L _ (hq2q1 _ hy))
    have := hb2 _ (hq2q1 _ hy)
    exact ⟨cy, fy, rfl, by simpa [Node.leaf, Node.freq] using this⟩
  have hL'leaf : ∀ x ∈ push q2 (Node.leaf ca (wa + wb)), ∃ c f, x = Node.leaf c f := by
    intro x hx
    simp only [push, List.mem_append, List.mem_singleton] at hx
    rcases hx with hx | hx
    · exact hleaf x (hq1L _ (hq2q1 _ hx))
    · exact ⟨ca, wa + wb, hx⟩
  have hL'nd : (keys (forestLeaves (push q2 (Node.leaf ca (wa + wb))))).Nodup := by
    have e : keys (forestLeaves (push q2 (Node.leaf ca (wa + wb))))
        = keys (forestLeaves q2) ++ [ca] := by
      simp [push, forestLeaves_append, keys_append, forestLeaves, leaves, leafPaths_leaf, keys]
    rw [e]
    refine List.nodup_append.2 ⟨hnd2, List.nodup_singleton _, ?_⟩
    intro x hx hx'
    rw [List.mem_singleton] at hx'
    subst hx'
    exact hca hx
  have hL'len : (push q2 (Node.leaf ca (wa + wb))).length = n + 1 := by
    simp [push, hlen2]
  have hfl' : forestLeaves (push q2 (Node.leaf ca (wa + wb)))
      = forestLeaves q2 ++ [(ca, wa + wb)] := by
    simp [push, forestLeaves_append, forestLeaves, leaves, leafPaths_leaf]
  have hL'min : ∀ p ∈ forestLeaves (push q2 (Node.leaf ca (wa + wb))), wb ≤ p.2 := by
    intro p hp
    rw [hfl', List.mem_append, List.mem_singleton] at hp
    rcases hp with hp | hp
    · obtain ⟨y, hy, hpy⟩ := mem_forestLeaves hp
      obtain ⟨cy, fy, rfl, hfy⟩ := hq2leaf y hy
      simp only [leaves, leafPaths_leaf, List.map_cons, List.map_nil,
        List.mem_singleton] at hpy
      rw [hpy]; exact hfy
    · rw [hp]; simp only; omega
  have hL'sum : weightSum (forestLeaves (push q2 (Node.leaf ca (wa + wb)))) < 2147483648 := by
    rw [hfl', weightSum_append, weightSum_cons, weightSum_nil]
    simp only
    omega
  have hmap : (push q2 (Node.leaf ca (wa + wb))).map
      (expand ca (Node.mk '\x00' (wa + wb) (Node.leaf ca wa) (Node.leaf cb wb)))
      = push q2 (Node.mk '\x00' (wa + wb) (Node.leaf ca wa) (Node.leaf cb wb)) := by
    have hid : q2.map (expand ca (Node.mk '\x00' (wa + wb) (Node.leaf ca wa) (Node.leaf cb wb)))
        = q2 := by
      rw [List.map_congr_left (g := id)]
      · simp
      · intro y hy
        obtain ⟨cy, fy, rfl⟩ := hleaf y (hq1L _ (hq2q1 _ hy))
        have hcy : ca ∉ leafChars (Node.leaf cy fy) := by
          intro hmem
          simp only [leafChars, leafPaths_leaf, List.map_cons, List.map_nil,
            List.mem_singleton] at hmem
          apply hca
          rw [hmem]
          exact List.mem_map.2 ⟨(cy, fy), forestLeaves_mem_of_leaf hy, rfl⟩
        exact expand_of_not_mem _ _ _ (good_leaf cy fy) hcy
    simp only [push, List.map_append, hid, List.map_cons, List.map_nil]
    simp [expand, Node.leaf, Node.freq]
  obtain ⟨R', hR'1, hR'2⟩ := mergeLoop_merges tie fuel' (k + 2)
    (push q2 (Node.leaf ca (wa + wb))) (by simp [push]) (by omega)
  have hcomm := mergeLoop_expand tie ca
    (Node.mk '\x00' (wa + wb) (Node.leaf ca wa) (Node.leaf cb wb)) fuel' (k + 2) _ R'
    (fun x hx => by obtain ⟨c, f, rfl⟩ := hL'leaf x hx; simp [Node.leaf]) hR'1
  rw [hmap] at hcomm
  have hfreq : wrap32 ((Node.leaf ca wa).freq + (Node.leaf cb wb).freq) = wa + wb := by
    simp only [Node.leaf, Node.freq]
    apply wrap32_of_range <;> omega
  rw [hfreq, hcomm] at h
  simp only [Outcome.ok.injEq] at h
  exact ⟨fuel', q2, ca, cb, wa, wb, R', hperm, hab, hwa, hq2leaf, hL'len, by omega, hL'nd,
    hL'min, hL'sum, hR'1, hR'2, h.symm⟩

/-! ## Lighter symbols are never nearer to the root -/

theorem mono_expand_step (R R' : Node) (wa wb : Int) (d : Nat)
    (hgood : Good R') (hexact : Exact R') (hmono : Mono R') (hmin : MinWeight wb R')
    (hd : (wa + wb, d) ∈ weightDepths R')
    (hiff : ∀ p, p ∈ weightDepths R ↔ p ∈ weightDepths R' ∨ p = (wa, d + 1) ∨ p = (wb, d + 1))
    (hab : wa ≤ wb) : Mono R := by
  intro p hp p' hp' hlt
  rw [hiff] at hp hp'
  have hnew : ∀ x : Int × Nat, x = (wa, d + 1) ∨ x = (wb, d + 1) →
      x.1 ≤ wb ∧ wa ≤ x.1 ∧ x.2 = d + 1 := by
    rintro x (rfl | rfl)
    · exact ⟨hab, le_refl _, rfl⟩
    · exact ⟨le_refl _, hab, rfl⟩
  rcases hp with hp | hp <;> rcases hp' with hp' | hp'
  · exact hmono p hp p' hp' hlt
  · have h1 := hmin p hp
    have h2 := hnew p' hp'
    omega
  · have h2 := hnew p hp
    rcases weightDepths_parent R' hgood hexact p'.1 p'.2 hp' with h0 | ⟨d', ws, hd', hpar, hsib⟩
    · omega
    · have h3 := hmin _ hsib
      have h4 := hmono _ hd _ hpar (by simp only; omega)
      simp only at h3 h4
      omega
  · have h1 := hnew p hp
    have h2 := hnew p' hp'
    omega

theorem mono_leaf (c : Char) (f : Int) : Mono (Node.leaf c f) := by
  intro p hp p' hp' hlt
  simp only [Node.leaf, weightDepths, List.append_nil, List.map_nil, List.mem_singleton] at hp hp'
  rw [hp, hp'] at hlt
  exact absurd hlt (lt_irrefl _)

/-- The merge loop started on a queue of leaves with distinct symbols and non-negative
weights whose sum is in the range of `int` ends with a tree in which a lighter cell is
never nearer to the root than a heavier one. -/
theorem mergeLoop_mono (tie : Nat → Nat) : ∀ (n fuel k : Nat) (L : List Node) (R : Node),
    L.length = n + 1 → L.length ≤ fuel + 1 →
    (∀ x ∈ L, ∃ c f, x = Node.leaf c f) → (keys (forestLeaves L)).Nodup →
    (∀ p ∈ forestLeaves L, 0 ≤ p.2) → weightSum (forestLeaves L) < 2147483648 →
    mergeLoop tie fuel k L = .ok R → Mono R := by
  intro n
  induction n with
  | zero =>
    intro fuel k L R hlen _ hleaf _ _ _ h
    match L, hlen with
    | [x], _ =>
      obtain ⟨c, f, rfl⟩ := hleaf x (by simp)
      rw [mergeLoop] at h
      simp only [List.length_singleton, if_true, top_singleton, Outcome.ok.injEq] at h
      rw [← h]; exact mono_leaf c f
  | succ n ih =>
    intro fuel k L R hlen hfuel hleaf hnd hnn hsum h
    obtain ⟨fuel', q2, ca, cb, wa, wb, R', hperm, hab, hwa, hq2, hL'len, hL'fuel, hL'nd, hL'min,
      hL'sum, hR'1, hR'2, rfl⟩ :=
      mergeLoop_leaves_step tie n fuel k L R hlen hfuel hleaf hnd hnn hsum h
    have hwb : 0 ≤ wb := le_trans hwa hab
    have hL'nn : ∀ p ∈ forestLeaves (push q2 (Node.leaf ca (wa + wb))), 0 ≤ p.2 :=
      fun p hp => le_trans hwb (hL'min p hp)
    have hL'leaf : ∀ x ∈ push q2 (Node.leaf ca (wa + wb)), ∃ c f, x = Node.leaf c f := by
      intro x hx
      simp only [push, List.mem_append, List.mem_singleton] at hx
      rcases hx with hx | hx
      · obtain ⟨c, f, e, _⟩ := hq2 x hx; exact ⟨c, f, e⟩
      · exact ⟨ca, wa + wb, hx⟩
    have hmonoR' : Mono R' :=
      ih fuel' (k + 2) _ R' hL'len hL'fuel hL'leaf hL'nd hL'nn hL'sum hR'1
    have hsound : Sound R' := by
      apply hR'2.sound _ hL'sum
      intro x hx
      obtain ⟨c, f, rfl⟩ := hL'leaf x hx
      exact sound_leaf c f (hL'nn (c, f) (forestLeaves_mem_of_leaf hx))
    have hlv := hR'2.leaves_perm
      (fun x hx => by obtain ⟨c, f, rfl⟩ := hL'leaf x hx; simp [Node.leaf])
    have hmin : MinWeight wb R' :=
      (minWeight_of_exact R' hsound.1 hsound.2.1 wb hwb
        (fun p hp => hL'min p (hlv.subset hp))).2
    have hmemR' : (ca, wa + wb) ∈ leaves R' :=
      hlv.symm.subset (forestLeaves_mem_of_leaf (by simp [push]))
    have hndR' : (leafChars R').Nodup := leafChars_nodup_of_perm hlv hL'nd
    obtain ⟨d, hd1, hd2⟩ := weightDepths_expand ca cb wa wb R' hsound.1 hndR' hmemR'
    exact mono_expand_step _ R' wa wb d hsound.1 hsound.2.1 hmonoR' hmin hd1 hd2 hab

/-- The counts of a string in which no symbol occurs more than `2^31 - 1` times sum to
its length. -/
theorem weightSum_freqMap (S : List Char) (hcnt : ∀ c, S.count c < 2147483648) :
    weightSum (buildFrequencyMap S []) = S.length := by
  have h := sum_freqMap_eq_sum_dedup (fun _ => 1) S hcnt
  have h2 := sum_map_eq_sum_dedup_count (fun _ => 1) S
  simp only [Nat.cast_one, mul_one] at h h2
  rw [weightSum, h, ← h2]
  simp

theorem freqMap_nonneg (S : List Char) (hcnt : ∀ c, S.count c < 2147483648) :
    ∀ p ∈ buildFrequencyMap S [], 0 ≤ p.2 := by
  intro p hp
  rw [freqMap_entry_count S hcnt p hp]
  exact Int.ofNat_nonneg _

/-- Construction from a non-empty string of at most `2^31 - 1` characters: the tree read
by the table has the entries of the frequency map at its leaves, and in it a lighter cell
is never nearer to the root than a heavier one. -/
theorem new_spec_mono (tie : Nat → Nat) (S : List Char) (hS : S ≠ [])
    (hlen : S.length < 2147483648) :
    ∃ root, HuffmanCoder.new tie S = .ok
        { huffmanCode := (leafPaths root).map (fun e => (e.1, e.2.2)),
          freqMap := buildFrequencyMap S [], root := root } ∧
      (leaves root).Perm (buildFrequencyMap S []) ∧ (leafChars root).Nodup ∧ Mono root := by
  obtain ⟨root, h1, _, h3⟩ :=
    buildHuffmanTree_spec tie (buildFrequencyMap S []) (buildFrequencyMap_ne_nil S hS)
  have hnd := leafChars_nodup_of_perm h3 (keys_buildFrequencyMap_nodup S)
  have hg := generateHuffmanCodes_eq root [] [] (by simp [keys]) hnd
  refine ⟨root, by simp only [HuffmanCoder.new, h1, hg, List.nil_append], h3, hnd, ?_⟩
  have hne : seedQueue (buildFrequencyMap S []) ≠ [] := by
    rw [seedQueue_eq]; simpa using buildFrequencyMap_ne_nil S hS
  have hlen' : (seedQueue (buildFrequencyMap S [])).length
      = ((seedQueue (buildFrequencyMap S [])).length - 1) + 1 := by
    have := List.length_pos.2 hne
    omega
  refine mergeLoop_mono tie _ _ 0 (seedQueue (buildFrequencyMap S [])) root hlen'
    (Nat.le_succ _) ?_ ?_ ?_ ?_ h1
  · intro x hx
    rw [seedQueue_eq] at hx
    obtain ⟨p, _, rfl⟩ := List.mem_map.1 hx
    exact ⟨p.1, p.2, rfl⟩
  · rw [forestLeaves_seedQueue]; exact keys_buildFrequencyMap_nodup S
  · rw [forestLeaves_seedQueue]; exact freqMap_nonneg S (count_lt_of_length S hlen)
  · rw [forestLeaves_seedQueue, weightSum_freqMap S (count_lt_of_length S hlen)]
    exact_mod_cast hlen

/-- The frequency map of `2^31` copies of `'a'` followed by "bcc". -/
theorem buildFrequencyMap_overflow_bcc :
    buildFrequencyMap (List.replicate 2147483648 'a' ++ ['b', 'c', 'c']) []
      = [('a', -2147483648), ('b', 1), ('c', 2)] := by
  rw [buildFrequencyMap_append, buildFrequencyMap_overflow]
  decide

/-- The coder built from `2^31` copies of `'a'` followed by "bcc": the count kept for
`'a'` is the least weight in the queue, so the leaf of `'a'` is merged first. -/
theorem new_overflow_bcc :
    HuffmanCoder.new firstMin (List.replicate 2147483648 'a' ++ ['b', 'c', 'c']) = .ok
      { huffmanCode := [('a', ['0', '0']), ('b', ['0', '1']), ('c', ['1'])],
        freqMap := [('a', -2147483648), ('b', 1), ('c', 2)],
        root := Node.mk '\x00' (-2147483645)
          (Node.mk '\x00' (-2147483647) (Node.leaf 'a' (-2147483648)) (Node.leaf 'b' 1))
          (Node.leaf 'c' 2) } := by
  rw [new_of_freqMap _ _ _ buildFrequencyMap_overflow_bcc]
  decide

/-- C5 fails as stated at an input of more than `2^31 - 1` bytes: in `2^31` copies of
`'a'` followed by "bcc" the symbol `'a'` occurs more often than `'c'`, the count kept for
`'a'` is `-2^31`, and the table gives `'a'` the two-bit code "00" and `'c'` the one-bit
code "1". -/
theorem C5_counterexample :
    'a' ∈ List.replicate 2147483648 'a' ++ ['b', 'c', 'c'] ∧
    'c' ∈ List.replicate 2147483648 'a' ++ ['b', 'c', 'c'] ∧
    (List.replicate 2147483648 'a' ++ ['b', 'c', 'c']).count 'c'
      < (List.replicate 2147483648 'a' ++ ['b', 'c', 'c']).count 'a' ∧
    ∃ hc, HuffmanCoder.new firstMin (List.replicate 2147483648 'a' ++ ['b', 'c', 'c']) = .ok hc ∧
      hc.freqMap = [('a', -2147483648), ('b', 1), ('c', 2)] ∧
      find hc.huffmanCode 'a' = some ['0', '0'] ∧ find hc.huffmanCode 'c' = some ['1'] ∧
      ¬ ['0', '0'].length ≤ ['1'].length := by
  refine ⟨?_, ?_, ?_, _, new_overflow_bcc, rfl, by decide, by decide, by decide⟩
  · rw [List.mem_append, List.mem_replicate]
    exact Or.inl ⟨by norm_num, rfl⟩
  · rw [List.mem_append]
    exact Or.inr (by decide)
  · rw [List.count_append, List.count_append, List.count_replicate, List.count_replicate]
    decide

/-- C5 as amended: for every non-empty input `S` of at most `2^31 - 1` characters and
every tie-breaking order, construction succeeds, and whenever a symbol `s` of `S` occurs
strictly more often in `S` than a symbol `t` of `S`, both have a code in the table and
the code of `s` is no longer than the code of `t`. -/
theorem C5_more_frequent_symbol_has_no_longer_code (tie : Nat → Nat) (S : List Char)
    (hS : S ≠ []) (hlen : S.length < 2147483648) :
    ∃ hc, HuffmanCoder.new tie S = .ok hc ∧
      ∀ s t, s ∈ S → t ∈ S → S.count t < S.count s →
        ∃ cs ct, find hc.huffmanCode s = some cs ∧ find hc.huffmanCode t = some ct ∧
          cs.length ≤ ct.length := by
  obtain ⟨root, h1, h3, hnd, hmono⟩ := new_spec_mono tie S hS hlen
  refine ⟨_, h1, ?_⟩
  have key : ∀ c ∈ S, ∃ code, find ((leafPaths root).map (fun e => (e.1, e.2.2))) c = some code ∧
      ((S.count c : Int), code.length) ∈ weightDepths root := by
    intro c hc
    have hk : c ∈ keys (buildFrequencyMap S []) := (mem_keys_freqMap S c).2 hc
    obtain ⟨p, hp, hpc⟩ := List.mem_map.1 hk
    have hcount := freqMap_entry_count S (count_lt_of_length S hlen) p hp
    have hp' : p ∈ leaves root := h3.symm.subset hp
    obtain ⟨e, he, hep⟩ := List.mem_map.1 hp'
    refine ⟨e.2.2, ?_, ?_⟩
    · apply mem_find_of_nodup _ _ _ (by rw [keys_table]; exact hnd)
      refine List.mem_map.2 ⟨e, he, ?_⟩
      rw [← hpc, ← hep]
    · have := leafPaths_mem_weightDepths root e he
      rw [← hpc, ← hcount, ← hep]
      exact this
  intro s t hs ht hlt
  obtain ⟨cs, hcs, hws⟩ := key s hs
  obtain ⟨ct, hct, hwt⟩ := key t ht
  have hlt' : (S.count t : Int) < (S.count s : Int) := by exact_mod_cast hlt
  exact ⟨cs, ct, hcs, hct, hmono _ hwt _ hws hlt'⟩

/-- C5 as amended, at the input "abracadabra" with the first-minimum tie-break. -/
theorem C5_more_frequent_symbol_has_no_longer_code_witness :
    "abracadabra".toList ≠ [] ∧ "abracadabra".toList.length < 2147483648 ∧
    ∃ hc, HuffmanCoder.new firstMin "abracadabra".toList = .ok hc ∧
      ∀ s t, s ∈ "abracadabra".toList → t ∈ "abracadabra".toList →
        "abracadabra".toList.count t < "abracadabra".toList.count s →
        ∃ cs ct, find hc.huffmanCode s = some cs ∧ find hc.huffmanCode t = some ct ∧
          cs.length ≤ ct.length :=
  ⟨by decide, by decide,
    C5_more_frequent_symbol_has_no_longer_code firstMin "abracadabra".toList (by decide)
      (by decide)⟩

/-! ## The round trip on inputs with at least two distinct symbols -/

/-- From a cursor with two children, reading the path of one of the leaves below the
cursor emits that leaf's symbol and puts the cursor back on the root. -/
theorem decodeLoop_path (root : Node) (rest : List Char) : ∀ (curr : Node), Internal curr →
    ∀ e ∈ leafPaths curr, ∀ acc : List Char,
      decodeLoop root curr (e.2.2 ++ rest) acc = decodeLoop root root rest (acc ++ [e.1]) := by
  intro curr
  induction curr with
  | null => intro h; obtain ⟨_, _, _, _, h, _⟩ := h; cases h
  | mk ch f l r ihl ihr =>
    intro hint e he acc
    obtain ⟨_, _, _, _, heq, hl, hr⟩ := hint
    cases heq
    rw [leafPaths_node ch f l r hl.ne_null] at he
    have step : ∀ (bit : Char) (sub : Node), Good sub →
        (Internal sub → ∀ e ∈ leafPaths sub, ∀ acc : List Char,
          decodeLoop root sub (e.2.2 ++ rest) acc = decodeLoop root root rest (acc ++ [e.1])) →
        (if bit = '0' then l else r) = sub →
        ∀ a ∈ leafPaths sub,
          decodeLoop root (Node.mk ch f l r) (bit :: a.2.2 ++ rest) acc
            = decodeLoop root root rest (acc ++ [a.1]) := by
      intro bit sub hsub ih hnext a ha
      cases sub with
      | null => exact absurd hsub (by simp [Good])
      | mk ch' f' l' r' =>
        simp only [List.cons_append, decodeLoop, hnext]
        cases hleaf : (l'.isNull && r'.isNull) with
        | true =>
          rw [leafPaths_of_isNull ch' f' l' r' hleaf] at ha
          simp only [List.mem_singleton] at ha
          subst ha
          simp
        | false =>
          have hint' : Internal (Node.mk ch' f' l' r') := by
            simp only [Good] at hsub
            rcases hsub with ⟨rfl, rfl⟩ | ⟨h1, h2, _⟩
            · simp at hleaf
            · exact ⟨ch', f', l', r', rfl, h1, h2⟩
          simp only [Bool.false_eq_true, if_false]
          exact ih hint' a ha acc
    simp only [List.mem_append, List.mem_map] at he
    rcases he with ⟨a, ha, rfl⟩ | ⟨a, ha, rfl⟩
    · exact step '0' l hl ihl (by simp) a ha
    · exact step '1' r hr ihr (by simp) a ha

/-- In a tree whose root has two children and whose leaf symbols are distinct, `decode`
inverts the concatenation of the table's codes on every string of leaf symbols. -/
theorem decodeLoop_codesOf (root : Node) (hroot : Internal root) (hnd : (leafChars root).Nodup) :
    ∀ (T acc : List Char), (∀ c ∈ T, c ∈ leafChars root) →
      decodeLoop root root (codesOf ((leafPaths root).map (fun e => (e.1, e.2.2))) T) acc
        = .ok (acc ++ T) := by
  intro T
  induction T with
  | nil => intro acc _; simp [codesOf, decodeLoop]
  | cons c T ih =>
    intro acc hT
    have hc : c ∈ leafChars root := hT c (List.mem_cons_self _ _)
    obtain ⟨e, he, hec⟩ := List.mem_map.1 hc
    have hfind : find ((leafPaths root).map (fun e => (e.1, e.2.2))) c = some e.2.2 := by
      apply mem_find_of_nodup _ _ _ (by rw [keys_table]; exact hnd)
      exact List.mem_map.2 ⟨e, he, by rw [← hec]⟩
    simp only [codesOf, codeOf, hfind, Option.getD_some]
    rw [decodeLoop_path root _ root hroot e he acc, ih _ (fun x hx => hT x (List.mem_cons_of_mem _ hx))]
    simp [hec]

/-- For every input `S` with at least two distinct symbols, every tie-breaking order and
every string `T` of symbols of `S`, encoding `T` and decoding the result with the coder
built from `S` returns `T`. -/
theorem decode_encode_of_two_symbols (tie : Nat → Nat) (S T : List Char)
    (hS : 2 ≤ S.dedup.length) (hT : ∀ c ∈ T, c ∈ S) :
    (HuffmanCoder.new tie S).bind (fun hf => (hf.encode T).bind fun r => r.1.decode r.2)
      = .ok T := by
  have hne : S ≠ [] := by
    intro h; rw [h] at hS; simp at hS
  obtain ⟨root, h1, h2, h3, h4⟩ := new_spec tie S hne
  have hint : Internal root := by
    apply internal_of_two_leaves (h2.good (good_seedQueue _))
    have e : (leaves root).length = S.dedup.length := by
      rw [h3.length_eq, ← (keys_freqMap_perm_dedup S).length_eq]
      simp [keys]
    omega
  have hmem : ∀ c ∈ T, c ∈ leafChars root := by
    intro c hc
    rw [leafChars_eq_keys_leaves]
    exact (List.Perm.map _ h3).mem_iff.2 ((mem_keys_freqMap S c).2 (hT c hc))
  have hdec := decodeLoop_codesOf root hint h4 T [] hmem
  simp only [h1, Outcome.bind, HuffmanCoder.encode, foldl_encodeStep, HuffmanCoder.decode,
    List.nil_append] at hdec ⊢
  exact hdec

/-- The run of `main` on an input with at least two distinct symbols returns the input. -/
theorem roundTrip_of_two_symbols (tie : Nat → Nat) (S : List Char) (hS : 2 ≤ S.dedup.length) :
    roundTrip tie S = .ok S :=
  decode_encode_of_two_symbols tie S S hS (fun _ h => h)

/-! ## Every admissible run is the run of some tie-break oracle -/

theorem nthOfWeight_choice (m : Int) (a : Node) (ha : a.freq = m) : ∀ q : List Node, a ∈ q →
    ∃ j, j < q.countP (fun x => decide (x.freq = m)) ∧ q.get? (nthOfWeight m j q) = some a := by
  intro q
  induction q with
  | nil => intro h; simp at h
  | cons x xs ih =>
    intro h
    by_cases hxa : x = a
    · subst hxa
      exact ⟨0, by simp [List.countP_cons, ha], by simp [nthOfWeight, ha]⟩
    · have hmem : a ∈ xs := by
        rcases List.mem_cons.1 h with e | h'
        · exact absurd e.symm hxa
        · exact h'
      obtain ⟨j, hj1, hj2⟩ := ih hmem
      by_cases hx : x.freq = m
      · exact ⟨j + 1, by simp [List.countP_cons, hx]; exact hj1,
          by simpa [nthOfWeight, hx] using hj2⟩
      · exact ⟨j, by simp [List.countP_cons, hx]; exact hj1,
          by simpa [nthOfWeight, hx] using hj2⟩

/-- Any minimum-weight element of the queue is the one `top()` returns under a
suitable tie-break choice. -/
theorem top_choice (q : List Node) (a : Node) (ha : a ∈ q) (hmin : ∀ y ∈ q, a.freq ≤ y.freq) :
    ∃ t, top t q = some a ∧ q.Perm (a :: pop t q) := by
  have hne : q ≠ [] := by intro e; rw [e] at ha; simp at ha
  have hm : a.freq = minFreq q := by
    obtain ⟨y, hy, hye⟩ := minFreq_mem q hne
    have h1 := hmin y hy
    have h2 := minFreq_le q a ha
    omega
  obtain ⟨j, hj1, hj2⟩ := nthOfWeight_choice (minFreq q) a hm q ha
  obtain ⟨x, h1, _, h3⟩ := nthOfWeight_spec (minFreq q) q j hj1
  rw [hj2] at h1
  cases h1
  have hmod : j % q.countP (fun x => decide (x.freq = minFreq q)) = j := Nat.mod_eq_of_lt hj1
  exact ⟨j, by simp only [top, topIdx, hmod]; exact hj2, by simp only [pop, topIdx, hmod]; exact h3⟩

theorem mergeLoop_congr_tie (tie tie' : Nat → Nat) : ∀ (fuel k : Nat) (q : List Node),
    (∀ i, k ≤ i → tie i = tie' i) → mergeLoop tie fuel k q = mergeLoop tie' fuel k q := by
  intro fuel
  induction fuel with
  | zero =>
    intro k q h
    rw [mergeLoop, mergeLoop, h k (Nat.le_refl _), h (k + 1) (Nat.le_succ _)]
  | succ fuel ih =>
    intro k q h
    rw [mergeLoop, mergeLoop, h k (Nat.le_refl _), h (k + 1) (Nat.le_succ _)]
    simp only [ih (k + 2) _ (fun i hi => h i (by omega))]

/-- Completeness of the oracle: whatever minimum-weight elements a run of the merge loop
picks, and in whatever arrangement the queue holds its elements, some tie-break oracle
makes the embedded loop produce the same root. -/
theorem Merges.realised {q : List Node} {r : Node} (h : Merges q r) :
    ∀ (q' : List Node), q'.Perm q → ∀ (fuel k : Nat), q'.length ≤ fuel + 1 →
      ∃ tie, mergeLoop tie fuel k q' = .ok r := by
  induction h with
  | done r =>
    intro q' hp fuel k _
    have : q' = [r] := List.perm_singleton.1 hp
    subst this
    exact ⟨firstMin, by simp [mergeLoop, top_singleton]⟩
  | @step q q1 q2 a b r h1 h2 h3 h4 _ ih =>
    intro q' hp fuel k hfuel
    have haq' : a ∈ q' := hp.symm.subset (h1.symm.subset (List.mem_cons_self _ _))
    have hmina : ∀ y ∈ q', a.freq ≤ y.freq := fun y hy => h2 y (hp.subset hy)
    obtain ⟨t0, ht0, hp0⟩ := top_choice q' a haq' hmina
    have hq1 : (pop t0 q').Perm q1 := (List.perm_cons a).1 (hp0.symm.trans (hp.trans h1))
    have hbq1 : b ∈ pop t0 q' := hq1.symm.subset (h3.symm.subset (List.mem_cons_self _ _))
    have hminb : ∀ y ∈ pop t0 q', b.freq ≤ y.freq := fun y hy => h4 y (hq1.subset hy)
    obtain ⟨t1, ht1, hp1⟩ := top_choice (pop t0 q') b hbq1 hminb
    have hq2 : (pop t1 (pop t0 q')).Perm q2 :=
      (List.perm_cons b).1 (hp1.symm.trans (hq1.trans h3))
    have hlen0 := hp0.length_eq
    have hlen1 := hp1.length_eq
    simp only [List.length_cons] at hlen0 hlen1
    obtain ⟨fuel', rfl⟩ : ∃ fuel', fuel = fuel' + 1 := ⟨fuel - 1, by omega⟩
    obtain ⟨tie', htie'⟩ := ih (push (pop t1 (pop t0 q')) (Node.mk '\x00' (wrap32 (a.freq + b.freq)) a b))
      (by simp only [push]; exact List.Perm.append_right _ hq2) fuel' (k + 2)
      (by simp only [push, List.length_append, List.length_singleton]; omega)
    refine ⟨fun i => if i = k then t0 else if i = k + 1 then t1 else tie' i, ?_⟩
    have hne1 : ¬ q'.length = 1 := by omega
    rw [mergeLoop]
    simp only [hne1, if_false, if_true, ht0, Nat.succ_ne_self, ht1]
    rw [mergeLoop_congr_tie _ tie' fuel' (k + 2) _ (fun i hi => by
      have e1 : ¬ i = k := by omega
      have e2 : ¬ i = k + 1 := by omega
      simp only [e1, e2, if_false])]
    exact htie'

/-! ## The tree builder: leaves, shape, iterations -/

/-- C14: for every non-empty frequency map (a list of entries with distinct keys) and
every tie-breaking order, `buildHuffmanTree` returns a tree whose leaves are exactly the
entries of the map: as many leaves as keys, one leaf per key, whose `freq` is the count
the map holds for that key. -/
theorem C14_leaves_are_the_map_entries (tie : Nat → Nat) (fm : List (Char × Int))
    (hfm : fm ≠ []) (hk : (keys fm).Nodup) :
    ∃ root, buildHuffmanTree tie fm = .ok root ∧
      (leaves root).Perm fm ∧ (leaves root).length = fm.length ∧ (leafChars root).Nodup ∧
      ∀ c n, (c, n) ∈ leaves root ↔ find fm c = some n := by
  obtain ⟨root, h1, _, h3⟩ := buildHuffmanTree_spec tie fm hfm
  refine ⟨root, h1, h3, h3.length_eq, leafChars_nodup_of_perm h3 hk, ?_⟩
  intro c n
  constructor
  · intro h; exact mem_find_of_nodup fm c n hk (h3.subset h)
  · intro h; exact h3.symm.subset (find_some_mem fm c n h)

/-- C14 at the map {a: 2, b: 1, c: 1} with the first-minimum tie-break. -/
theorem C14_leaves_are_the_map_entries_witness :
    ([('a', 2), ('b', 1), ('c', 1)] : List (Char × Int)) ≠ [] ∧
    (keys ([('a', 2), ('b', 1), ('c', 1)] : List (Char × Int))).Nodup ∧
    ∃ root, buildHuffmanTree firstMin [('a', 2), ('b', 1), ('c', 1)] = .ok root ∧
      (leaves root).Perm [('a', 2), ('b', 1), ('c', 1)] ∧
      (leaves root).length = ([('a', 2), ('b', 1), ('c', 1)] : List (Char × Int)).length ∧
      (leafChars root).Nodup ∧
      ∀ c n, (c, n) ∈ leaves root ↔ find [('a', 2), ('b', 1), ('c', 1)] c = some n :=
  ⟨by decide, by decide,
    C14_leaves_are_the_map_entries firstMin [('a', 2), ('b', 1), ('c', 1)] (by decide)
      (by decide)⟩

/-- C15 fails as stated at an input of more than `2^31 - 1` bytes: for `2^31` copies
of `'a'` the map has the single entry `('a', -2^31)`; the count is not the number of
occurrences `2^31`, it is not positive, and the counts do not add up to the length. -/
theorem C15_counterexample :
    buildFrequencyMap (List.replicate 2147483648 'a') [] = [('a', -2147483648)] ∧
    (List.replicate 2147483648 'a').count 'a' = 2147483648 ∧
    (List.replicate 2147483648 'a').length = 2147483648 ∧
    ¬ (∀ p ∈ buildFrequencyMap (List.replicate 2147483648 'a') [],
        p.2 = (List.replicate 2147483648 'a').count p.1 ∧ 0 < p.2) ∧
    ((buildFrequencyMap (List.replicate 2147483648 'a') []).map (fun p => p.2)).sum
      ≠ ((List.replicate 2147483648 'a').length : Int) := by
  refine ⟨buildFrequencyMap_overflow, List.count_replicate_self _ _, List.length_replicate _ _,
    ?_, ?_⟩
  · rw [buildFrequencyMap_overflow]
    intro h
    have := (h ('a', -2147483648) (List.mem_singleton.2 rfl)).2
    exact absurd this (by decide)
  · rw [buildFrequencyMap_overflow, List.length_replicate]
    decide

/-- C15 as amended: for every non-empty input in which no symbol occurs more than
`2^31 - 1` times, `buildFrequencyMap` started from the empty map gives a map with at
least one entry and distinct keys, whose keys are the symbols of the input; each count is
the number of occurrences of its key in the input and is positive, and the counts add up
to the length of the input. -/
theorem C15_frequency_map_counts_occurrences (S : List Char) (hS : S ≠ [])
    (hcnt : ∀ c, S.count c < 2147483648) :
    buildFrequencyMap S [] ≠ [] ∧ (keys (buildFrequencyMap S [])).Nodup ∧
      (∀ c, c ∈ keys (buildFrequencyMap S []) ↔ c ∈ S) ∧
      (∀ p ∈ buildFrequencyMap S [], p.2 = S.count p.1 ∧ 0 < p.2) ∧
      ((buildFrequencyMap S []).map (fun p => p.2)).sum = S.length := by
  refine ⟨buildFrequencyMap_ne_nil S hS, keys_buildFrequencyMap_nodup S, mem_keys_freqMap S,
    ?_, weightSum_freqMap S hcnt⟩
  intro p hp
  have hc := freqMap_entry_count S hcnt p hp
  refine ⟨hc, ?_⟩
  rw [hc]
  have : 0 < S.count p.1 := by
    apply List.count_pos_iff.2
    exact (mem_keys_freqMap S p.1).1 (List.mem_map.2 ⟨p, hp, rfl⟩)
  exact_mod_cast this

/-- C15 as amended, at the input "abbccda". -/
theorem C15_frequency_map_counts_occurrences_witness :
    "abbccda".toList ≠ [] ∧ (∀ c, "abbccda".toList.count c < 2147483648) ∧
    buildFrequencyMap "abbccda".toList [] ≠ [] ∧
      (keys (buildFrequencyMap "abbccda".toList [])).Nodup ∧
      (∀ c, c ∈ keys (buildFrequencyMap "abbccda".toList []) ↔ c ∈ "abbccda".toList) ∧
      (∀ p ∈ buildFrequencyMap "abbccda".toList [],
        p.2 = "abbccda".toList.count p.1 ∧ 0 < p.2) ∧
      ((buildFrequencyMap "abbccda".toList []).map (fun p => p.2)).sum
        = "abbccda".toList.length :=
  ⟨by decide, fun c => lt_of_le_of_lt (List.count_le_length c _) (by decide),
    C15_frequency_map_counts_occurrences "abbccda".toList (by decide)
      (fun c => lt_of_le_of_lt (List.count_le_length c _) (by decide))⟩

theorem good_cells (t : Node) (ht : Good t) : ∀ n ∈ cells t,
    (n.left = .null ∧ n.right = .null) ∨
      (n.left ≠ .null ∧ n.right ≠ .null ∧ n.freq = wrap32 (n.left.freq + n.right.freq)) := by
  induction t with
  | null => exact absurd ht (by simp [Good])
  | mk ch f l r ihl ihr =>
    intro n hn
    simp only [cells, List.mem_cons, List.mem_append] at hn
    simp only [Good] at ht
    rcases ht with ⟨rfl, rfl⟩ | ⟨hl, hr, hf⟩
    · simp only [cells, List.not_mem_nil, or_false] at hn
      subst hn
      left; exact ⟨rfl, rfl⟩
    · rcases hn with rfl | hn | hn
      · right; exact ⟨hl.ne_null, hr.ne_null, hf⟩
      · exact ihl hl n hn
      · exact ihr hr n hn

theorem exact_cells (t : Node) (ht : Good t) (he : Exact t) : ∀ n ∈ cells t,
    (n.left = .null ∧ n.right = .null) ∨
      (n.left ≠ .null ∧ n.right ≠ .null ∧ n.freq = n.left.freq + n.right.freq) := by
  induction t with
  | null => exact absurd ht (by simp [Good])
  | mk ch f l r ihl ihr =>
    intro n hn
    simp only [cells, List.mem_cons, List.mem_append] at hn
    simp only [Good] at ht
    rcases ht with ⟨rfl, rfl⟩ | ⟨hl, hr, _⟩
    · simp only [cells, List.not_mem_nil, or_false] at hn
      subst hn
      left; exact ⟨rfl, rfl⟩
    · obtain ⟨el, er, hf⟩ := he.subtrees hl.ne_null
      rcases hn with rfl | hn | hn
      · right; exact ⟨hl.ne_null, hr.ne_null, hf⟩
      · exact ihl hl el n hn
      · exact ihr hr er n hn

/-- C16 fails as stated on a frequency map whose counts sum to more than `2^31 - 1`:
on the map {a: 2000000000, b: 2000000000} the root is a cell of the tree with two
children whose `freq` is `-294967296`, while the `freq` of its children sum to
`4000000000`. -/
theorem C16_counterexample :
    ∃ root, buildHuffmanTree firstMin [('a', 2000000000), ('b', 2000000000)] = .ok root ∧
      root ∈ cells root ∧ root.left ≠ .null ∧ root.right ≠ .null ∧
      root.freq = -294967296 ∧ root.left.freq + root.right.freq = 4000000000 ∧
      root.freq ≠ root.left.freq + root.right.freq :=
  ⟨Node.mk '\x00' (-294967296) (Node.leaf 'a' 2000000000) (Node.leaf 'b' 2000000000),
    by decide⟩

/-- C16 as amended: for every non-empty frequency map and every tie-breaking order,
`buildHuffmanTree` returns a tree in which every cell has either no child or two
children, never exactly one, and the `freq` of every cell with two children is the `int`
sum of the `freq` of its children; when the counts of the map are non-negative and sum
to at most `2^31 - 1`, it is their exact sum. -/
theorem C16_cells_have_zero_or_two_children (tie : Nat → Nat) (fm : List (Char × Int))
    (hfm : fm ≠ []) :
    ∃ root, buildHuffmanTree tie fm = .ok root ∧ root ≠ .null ∧
      (∀ n ∈ cells root,
        (n.left = .null ∧ n.right = .null) ∨
          (n.left ≠ .null ∧ n.right ≠ .null ∧
            n.freq = wrap32 (n.left.freq + n.right.freq))) ∧
      ((∀ p ∈ fm, 0 ≤ p.2) → weightSum fm < 2147483648 →
        ∀ n ∈ cells root,
          (n.left = .null ∧ n.right = .null) ∨
            (n.left ≠ .null ∧ n.right ≠ .null ∧ n.freq = n.left.freq + n.right.freq)) := by
  obtain ⟨root, h1, h2, _⟩ := buildHuffmanTree_spec tie fm hfm
  have hg := h2.good (good_seedQueue fm)
  refine ⟨root, h1, hg.ne_null, good_cells root hg, ?_⟩
  intro hnn hsum
  have hs : Sound root := by
    apply h2.sound
    · intro x hx
      rw [seedQueue_eq] at hx
      obtain ⟨p, hp, rfl⟩ := List.mem_map.1 hx
      exact sound_leaf p.1 p.2 (hnn p hp)
    · rw [forestLeaves_seedQueue]; exact hsum
  exact exact_cells root hs.1 hs.2.1

/-- C16 as amended, at the map {a: 2, b: 1, c: 1} with the first-minimum tie-break. -/
theorem C16_cells_have_zero_or_two_children_witness :
    ([('a', 2), ('b', 1), ('c', 1)] : List (Char × Int)) ≠ [] ∧
    (∀ p ∈ ([('a', 2), ('b', 1), ('c', 1)] : List (Char × Int)), 0 ≤ p.2) ∧
    weightSum [('a', 2), ('b', 1), ('c', 1)] < 2147483648 ∧
    ∃ root, buildHuffmanTree firstMin [('a', 2), ('b', 1), ('c', 1)] = .ok root ∧
      root ≠ .null ∧
      (∀ n ∈ cells root,
        (n.left = .null ∧ n.right = .null) ∨
          (n.left ≠ .null ∧ n.right ≠ .null ∧
            n.freq = wrap32 (n.left.freq + n.right.freq))) ∧
      (∀ n ∈ cells root,
        (n.left = .null ∧ n.right = .null) ∨
          (n.left ≠ .null ∧ n.right ≠ .null ∧ n.freq = n.left.freq + n.right.freq)) :=
  ⟨by decide, by decide, by decide,
    match C16_cells_have_zero_or_two_children firstMin [('a', 2), ('b', 1), ('c', 1)]
      (by decide) with
    | ⟨root, h1, h2, h3, h4⟩ => ⟨root, h1, h2, h3, h4 (by decide) (by decide)⟩⟩

theorem mergeLoopSizes_spec (tie : Nat → Nat) : ∀ (fuel k : Nat) (q : List Node),
    q ≠ [] → q.length ≤ fuel + 1 →
    ∃ sizes root, mergeLoopSizes tie fuel k q = .ok (sizes, [root]) ∧
      mergeLoop tie fuel k q = .ok root ∧
      sizes = (List.range' 2 (q.length - 1)).reverse := by
  intro fuel
  induction fuel with
  | zero =>
    intro k q hq hlen
    match q, hq, hlen with
    | [x], _, _ =>
      exact ⟨[], x, by simp [mergeLoopSizes], by simp [mergeLoop, top_singleton], by simp⟩
    | _ :: _ :: _, _, hlen => simp at hlen
  | succ fuel ih =>
    intro k q hq hlen
    by_cases h1 : q.length = 1
    · match q, h1 with
      | [x], _ =>
        exact ⟨[], x, by simp [mergeLoopSizes], by simp [mergeLoop, top_singleton], by simp⟩
    · obtain ⟨a, ha1, _, ha3⟩ := top_pop_spec (tie k) q hq
      have e1 := ha3.length_eq
      simp only [List.length_cons] at e1
      have hq1 : pop (tie k) q ≠ [] := by
        intro h0
        rw [h0] at e1
        simp at e1
        exact h1 e1
      obtain ⟨b, hb1, _, hb3⟩ := top_pop_spec (tie (k + 1)) (pop (tie k) q) hq1
      have e2 := hb3.length_eq
      simp only [List.length_cons] at e2
      have hlen' : (push (pop (tie (k + 1)) (pop (tie k) q))
          (Node.mk '\x00' (wrap32 (a.freq + b.freq)) a b)).length = q.length - 1 := by
        simp only [push, List.length_append, List.length_singleton]
        omega
      obtain ⟨sizes, root, hs1, hs2, hs3⟩ := ih (k + 2)
        (push (pop (tie (k + 1)) (pop (tie k) q)) (Node.mk '\x00' (wrap32 (a.freq + b.freq)) a b))
        (by simp [push]) (by omega)
      refine ⟨q.length :: sizes, root, ?_, ?_, ?_⟩
      · rw [mergeLoopSizes]
        simp only [h1, if_false, ha1, hb1, hs1, Outcome.bind]
      · rw [mergeLoop]
        simp only [h1, if_false, ha1, hb1]
        exact hs2
      · rw [hs3, hlen']
        obtain ⟨m, hm⟩ : ∃ m, q.length = m + 2 := ⟨q.length - 2, by omega⟩
        rw [hm]
        simp only [Nat.add_sub_cancel, show m + 2 - 1 = m + 1 from rfl,
          show m + 1 - 1 = m from rfl]
        rw [List.range'_concat 2 m]
        simp [Nat.add_comm]

/-- C20: for every frequency map with `K ≥ 1` entries and every tie-breaking order, the
merge loop of `buildHuffmanTree` ends after exactly `K - 1` iterations; at the start of
the iterations the queue holds `K, K - 1, .., 2` nodes, so every iteration finds at
least two; the loop leaves exactly one node in the queue and that node is the root
`buildHuffmanTree` stores. -/
theorem C20_merge_loop_runs_K_minus_1_times (tie : Nat → Nat) (fm : List (Char × Int))
    (hfm : fm ≠ []) :
    ∃ sizes root,
      mergeLoopSizes tie (seedQueue fm).length 0 (seedQueue fm) = .ok (sizes, [root]) ∧
      sizes.length = fm.length - 1 ∧ (∀ s ∈ sizes, 2 ≤ s) ∧
      sizes = (List.range' 2 (fm.length - 1)).reverse ∧
      buildHuffmanTree tie fm = .ok root := by
  have hne : seedQueue fm ≠ [] := by
    rw [seedQueue_eq]; simpa using hfm
  have hlen : (seedQueue fm).length = fm.length := by
    rw [seedQueue_eq]; simp
  obtain ⟨sizes, root, h1, h2, h3⟩ :=
    mergeLoopSizes_spec tie (seedQueue fm).length 0 (seedQueue fm) hne (Nat.le_succ _)
  rw [hlen] at h3
  refine ⟨sizes, root, h1, ?_, ?_, h3, h2⟩
  · rw [h3]; simp
  · intro s hs
    rw [h3] at hs
    simp only [List.mem_reverse, List.mem_range'_1] at hs
    exact hs.1

/-- C20 at the map {a: 2, b: 1, c: 1} with the first-minimum tie-break. -/
theorem C20_merge_loop_runs_K_minus_1_times_witness :
    ([('a', 2), ('b', 1), ('c', 1)] : List (Char × Int)) ≠ [] ∧
    ∃ sizes root,
      mergeLoopSizes firstMin (seedQueue [('a', 2), ('b', 1), ('c', 1)]).length 0
        (seedQueue [('a', 2), ('b', 1), ('c', 1)]) = .ok (sizes, [root]) ∧
      sizes.length = ([('a', 2), ('b', 1), ('c', 1)] : List (Char × Int)).length - 1 ∧
      (∀ s ∈ sizes, 2 ≤ s) ∧
      sizes = (List.range' 2
        (([('a', 2), ('b', 1), ('c', 1)] : List (Char × Int)).length - 1)).reverse ∧
      buildHuffmanTree firstMin [('a', 2), ('b', 1), ('c', 1)] = .ok root :=
  ⟨by decide,
    C20_merge_loop_runs_K_minus_1_times firstMin [('a', 2), ('b', 1), ('c', 1)] (by decide)⟩

/-! ## Round trip for every string over the symbols of the input -/

/-- C17: for every input `S` with at least two distinct symbols, every tie-breaking
order and every string `T` (possibly empty) all of whose symbols occur in `S`, the coder
built from `S` encodes `T` to a string that it decodes back to `T`. -/
theorem C17_decode_inverts_encode_on_known_symbols (tie : Nat → Nat) (S T : List Char)
    (hS : 2 ≤ S.dedup.length) (hT : ∀ c ∈ T, c ∈ S) :
    ∃ hc hc' bits, HuffmanCoder.new tie S = .ok hc ∧ hc.encode T = .ok (hc', bits) ∧
      hc'.decode bits = .ok T := by
  have hne : S ≠ [] := by
    intro h; rw [h] at hS; simp at hS
  obtain ⟨root, h1, h2, h3, h4⟩ := new_spec tie S hne
  have hint : Internal root := by
    apply internal_of_two_leaves (h2.good (good_seedQueue _))
    have e : (leaves root).length = S.dedup.length := by
      rw [h3.length_eq, ← (keys_freqMap_perm_dedup S).length_eq]
      simp [keys]
    omega
  have hmem : ∀ c ∈ T, c ∈ leafChars root := by
    intro c hc
    rw [leafChars_eq_keys_leaves]
    exact (List.Perm.map _ h3).mem_iff.2 ((mem_keys_freqMap S c).2 (hT c hc))
  have hdec := decodeLoop_codesOf root hint h4 T [] hmem
  refine ⟨_, _, _, h1, rfl, ?_⟩
  simp only [HuffmanCoder.decode, foldl_encodeStep, List.nil_append] at hdec ⊢
  exact hdec

/-- C17 at the coder built from "abbccda" and the string "dab". -/
theorem C17_decode_inverts_encode_on_known_symbols_witness :
    2 ≤ "abbccda".toList.dedup.length ∧ (∀ c ∈ "dab".toList, c ∈ "abbccda".toList) ∧
    ∃ hc hc' bits, HuffmanCoder.new firstMin "abbccda".toList = .ok hc ∧
      hc.encode "dab".toList = .ok (hc', bits) ∧ hc'.decode bits = .ok "dab".toList :=
  ⟨by decide, by decide,
    C17_decode_inverts_encode_on_known_symbols firstMin "abbccda".toList "dab".toList
      (by decide) (by decide)⟩

/-! ## Effect of `encode` on the members of the coder -/

theorem subscript_fst_of_mem (m : List (Char × List Char)) (c : Char) (h : c ∈ keys m) :
    (subscript [] m c).1 = m := by
  cases hf : find m c with
  | none => exact absurd h ((find_eq_none_iff m c).1 hf)
  | some v => simp [subscript, hf]

theorem foldl_encodeStep_fst_of_mem (T : List Char) :
    ∀ (m : List (Char × List Char)) (acc : List Char), (∀ c ∈ T, c ∈ keys m) →
      (T.foldl encodeStep (m, acc)).1 = m := by
  induction T with
  | nil => intro m acc _; rfl
  | cons c T ih =>
    intro m acc h
    simp only [List.foldl_cons, encodeStep]
    rw [subscript_fst_of_mem m c (h c (List.mem_cons_self _ _))]
    exact ih m _ (fun x hx => h x (List.mem_cons_of_mem _ hx))

/-- On a string all of whose symbols have an entry in the table, `encode` leaves the
members of the coder as they were. -/
theorem encode_state_of_known (hc : HuffmanCoder) (T : List Char)
    (h : ∀ c ∈ T, c ∈ keys hc.huffmanCode) :
    hc.encode T = .ok (hc, codesOf hc.huffmanCode T) := by
  simp only [HuffmanCoder.encode, foldl_encodeStep, List.nil_append,
    foldl_encodeStep_fst_of_mem T hc.huffmanCode [] h]

/-- The function `encode` never writes `freqMap` or `root`. -/
theorem encode_freqMap_root (hc hc' : HuffmanCoder) (T bits : List Char)
    (h : hc.encode T = .ok (hc', bits)) : hc'.freqMap = hc.freqMap ∧ hc'.root = hc.root := by
  simp only [HuffmanCoder.encode, Outcome.ok.injEq, Prod.mk.injEq] at h
  rw [← h.1]
  exact ⟨rfl, rfl⟩

/-- C12 on the code: the coder built from "xyz" has the table {z: "0", x: "10", y: "11"};
after `encode("xyw")` the table has the additional entry {w: ""}, so the call changed
the state of the coder. -/
theorem C12_encode_inserts_unknown_symbol :
    ((HuffmanCoder.new firstMin "xyz".toList).bind fun hf =>
        (hf.encode "xyw".toList).bind fun r => .ok (hf.huffmanCode, r.1.huffmanCode))
      = .ok ([('z', ['0']), ('x', ['1', '0']), ('y', ['1', '1'])],
          [('z', ['0']), ('x', ['1', '0']), ('y', ['1', '1']), ('w', [])]) ∧
    ((HuffmanCoder.new firstMin "xyz".toList).bind fun hf =>
        (hf.encode "xyw".toList).bind fun r => .ok (decide (r.1 = hf)))
      = .ok false := by
  decide

/-! ## `decode` on the single-leaf tree -/

theorem decodeLoop_leaf_root (c : Char) (f : Int) (bit : Char) (rest acc : List Char) :
    decodeLoop (Node.leaf c f) (Node.leaf c f) (bit :: rest) acc = .fault .nullDereference := by
  by_cases h : bit = '0' <;> simp [decodeLoop, Node.leaf, h]

/-- C13 on the code: for the coder built from `n + 1` copies of one symbol, under every
tie-breaking order, `decode` of every non-empty string (of '0' characters or not) reads
a child of the null pointer on its first character and returns nothing; only the empty
string is decoded, to the empty string. -/
theorem C13_single_symbol_decode_follows_null (tie : Nat → Nat) (a : Char) (n : Nat)
    (bit : Char) (rest : List Char) :
    decodeWith tie (List.replicate (n + 1) a) (bit :: rest) = .fault .nullDereference ∧
    decodeWith tie (List.replicate (n + 1) a) [] = .ok [] ∧
    decodeWith firstMin "aaaa".toList "0000".toList = .fault .nullDereference := by
  refine ⟨?_, ?_, by decide⟩
  · simp only [decodeWith, new_single, Outcome.bind, HuffmanCoder.decode, decodeLoop_leaf_root]
  · simp only [decodeWith, new_single, Outcome.bind, HuffmanCoder.decode, decodeLoop]

/-! ## The cursor of `decode` -/

theorem decodeLoop_eq_decodeRun (root : Node) : ∀ (bits : List Char) (curr : Node)
    (acc : List Char),
    decodeLoop root curr bits acc = (decodeRun root curr bits acc).bind fun r => .ok r.2 := by
  intro bits
  induction bits with
  | nil => intro curr acc; simp [decodeLoop, decodeRun, Outcome.bind]
  | cons bit rest ih =>
    intro curr acc
    cases curr with
    | null => simp [decodeLoop, decodeRun, Outcome.bind]
    | mk ch f l r =>
      simp only [decodeLoop, decodeRun]
      cases hn : (if bit = '0' then l else r) with
      | null => simp [Outcome.bind]
      | mk ch' f' l' r' =>
        simp only
        split
        · exact ih _ _
        · exact ih _ _

theorem decodeRun_append (root : Node) : ∀ (pre : List Char) (curr : Node)
    (acc rest : List Char),
    decodeRun root curr (pre ++ rest) acc
      = (decodeRun root curr pre acc).bind fun r => decodeRun root r.1 rest r.2 := by
  intro pre
  induction pre with
  | nil => intro curr acc rest; simp [decodeRun, Outcome.bind]
  | cons bit pre ih =>
    intro curr acc rest
    cases curr with
    | null => simp [decodeRun, Outcome.bind]
    | mk ch f l r =>
      simp only [List.cons_append, decodeRun]
      cases hn : (if bit = '0' then l else r) with
      | null => simp [Outcome.bind]
      | mk ch' f' l' r' =>
        simp only
        split
        · exact ih _ _ _
        · exact ih _ _ _

/-- In a tree whose root has two children, the cursor of `decode` stays on cells with
two children: the loop follows no null pointer. -/
theorem decodeRun_internal (root : Node) (hroot : Internal root) :
    ∀ (bits : List Char) (curr : Node) (acc : List Char), Internal curr →
      ∃ curr' acc', decodeRun root curr bits acc = .ok (curr', acc') ∧ Internal curr' := by
  intro bits
  induction bits with
  | nil => intro curr acc h; exact ⟨curr, acc, by simp [decodeRun], h⟩
  | cons bit rest ih =>
    intro curr acc hcurr
    obtain ⟨ch, f, l, r, rfl, hl, hr⟩ := hcurr
    have hnext : Good (if bit = '0' then l else r) := by
      by_cases hb : bit = '0' <;> simp [hb, hl, hr]
    cases hn : (if bit = '0' then l else r) with
    | null => rw [hn] at hnext; exact absurd hnext (by simp [Good])
    | mk ch' f' l' r' =>
      rw [hn] at hnext
      cases hleaf : (l'.isNull && r'.isNull) with
      | true =>
        obtain ⟨c', a', ho, hi⟩ := ih root (acc ++ [ch']) hroot
        exact ⟨c', a', by simp only [decodeRun, hn, hleaf, if_true]; exact ho, hi⟩
      | false =>
        have hint : Internal (Node.mk ch' f' l' r') := by
          simp only [Good] at hnext
          rcases hnext with ⟨rfl, rfl⟩ | ⟨h1, h2, _⟩
          · simp at hleaf
          · exact ⟨ch', f', l', r', rfl, h1, h2⟩
        obtain ⟨c', a', ho, hi⟩ := ih (Node.mk ch' f' l' r') acc hint
        exact ⟨c', a', by
          simp only [decodeRun, hn, hleaf, Bool.false_eq_true, if_false]; exact ho, hi⟩

theorem Internal.children {t : Node} (h : Internal t) :
    t ≠ .null ∧ t.left ≠ .null ∧ t.right ≠ .null := by
  obtain ⟨ch, f, l, r, rfl, hl, hr⟩ := h
  exact ⟨by simp, hl.ne_null, hr.ne_null⟩

theorem eq_replicate_of_dedup_length_one (S : List Char) (h : S.dedup.length = 1) :
    ∃ a n, S = List.replicate (n + 1) a := by
  obtain ⟨a, ha⟩ := List.length_eq_one.1 h
  have hall : ∀ x ∈ S, x = a := by
    intro x hx
    have : x ∈ S.dedup := List.mem_dedup.2 hx
    rw [ha] at this
    simpa using this
  have hne : S ≠ [] := by
    intro e; rw [e] at ha; simp at ha
  refine ⟨a, S.length - 1, ?_⟩
  have hlen : S.length - 1 + 1 = S.length := by
    have := List.length_pos.2 hne
    omega
  rw [hlen]
  exact List.eq_replicate_iff.2 ⟨rfl, hall⟩

/-- C19: under every tie-breaking order, (1) for the coder built from an input `S` with
at least two distinct symbols and every string, split anywhere into the part `pre`
already read and the part `rest` still to read: the loop of `decode` has read `pre`
without following a null pointer, the cursor at the start of the next iteration is a
non-null cell with two non-null children, the rest of the run continues from that
cursor, and `decode` returns a string; (2) for the coder built from an input `S1` with
exactly one distinct symbol, `decode` of every non-empty string follows a null child
pointer on its first character. -/
theorem C19_decode_and_null_children (tie : Nat → Nat) (S S1 pre rest : List Char)
    (bit : Char) (hS : 2 ≤ S.dedup.length) (hS1 : S1.dedup.length = 1) :
    (∃ hc curr acc out, HuffmanCoder.new tie S = .ok hc ∧
      decodeRun hc.root hc.root pre [] = .ok (curr, acc) ∧
      curr ≠ .null ∧ curr.left ≠ .null ∧ curr.right ≠ .null ∧
      hc.decode (pre ++ rest) = decodeLoop hc.root curr rest acc ∧
      hc.decode (pre ++ rest) = .ok out) ∧
    decodeWith tie S1 (bit :: rest) = .fault .nullDereference := by
  constructor
  · obtain ⟨hc, h1, h2⟩ := new_internal tie S hS
    obtain ⟨curr, acc, hr, hi⟩ := decodeRun_internal hc.root h2 pre hc.root [] h2
    obtain ⟨out, ho⟩ := decodeLoop_total hc.root h2 (pre ++ rest) hc.root [] h2
    have hc3 := hi.children
    refine ⟨hc, curr, acc, out, h1, hr, hc3.1, hc3.2.1, hc3.2.2, ?_, ho⟩
    simp only [HuffmanCoder.decode]
    rw [decodeLoop_eq_decodeRun, decodeRun_append, hr, decodeLoop_eq_decodeRun]
    rfl
  · obtain ⟨a, n, rfl⟩ := eq_replicate_of_dedup_length_one S1 hS1
    simp only [decodeWith, new_single, Outcome.bind, HuffmanCoder.decode, decodeLoop_leaf_root]

/-- C19 at the coders built from "abbccda" and from "aaaa". -/
theorem C19_decode_and_null_children_witness :
    2 ≤ "abbccda".toList.dedup.length ∧ "aaaa".toList.dedup.length = 1 ∧
    (∃ hc curr acc out, HuffmanCoder.new firstMin "abbccda".toList = .ok hc ∧
      decodeRun hc.root hc.root "01x".toList [] = .ok (curr, acc) ∧
      curr ≠ .null ∧ curr.left ≠ .null ∧ curr.right ≠ .null ∧
      hc.decode ("01x".toList ++ "10".toList) = decodeLoop hc.root curr "10".toList acc ∧
      hc.decode ("01x".toList ++ "10".toList) = .ok out) ∧
    decodeWith firstMin "aaaa".toList ('0' :: "10".toList) = .fault .nullDereference :=
  ⟨by decide, by decide,
    C19_decode_and_null_children firstMin "abbccda".toList "aaaa".toList "01x".toList
      "10".toList '0' (by decide) (by decide)⟩

/-! ## `decode` on a string that ends inside a code -/

/-- From a cursor with two children, reading a proper prefix of the path of a leaf below
the cursor emits nothing: the loop ends inside the tree and `decode` returns what it had
accumulated. -/
theorem decodeLoop_partial (root : Node) : ∀ (curr : Node), Internal curr →
    ∀ e ∈ leafPaths curr, ∀ (p acc : List Char), p <+: e.2.2 → p ≠ e.2.2 →
      decodeLoop root curr p acc = .ok acc := by
  intro curr
  induction curr with
  | null => intro h; obtain ⟨_, _, _, _, h, _⟩ := h; cases h
  | mk ch f l r ihl ihr =>
    intro hint e he p acc hp hne
    obtain ⟨_, _, _, _, heq, hl, hr⟩ := hint
    cases heq
    cases p with
    | nil => simp [decodeLoop]
    | cons bit p' =>
      rw [leafPaths_node ch f l r hl.ne_null] at he
      have step : ∀ (sub : Node), Good sub →
          (Internal sub → ∀ e ∈ leafPaths sub, ∀ (p acc : List Char), p <+: e.2.2 →
            p ≠ e.2.2 → decodeLoop root sub p acc = .ok acc) →
          (if bit = '0' then l else r) = sub →
          ∀ a ∈ leafPaths sub, p' <+: a.2.2 → p' ≠ a.2.2 →
            decodeLoop root (Node.mk ch f l r) (bit :: p') acc = .ok acc := by
        intro sub hsub ih hnext a ha hpa hnea
        cases sub with
        | null => exact absurd hsub (by simp [Good])
        | mk ch' f' l' r' =>
          simp only [decodeLoop, hnext]
          cases hleaf : (l'.isNull && r'.isNull) with
          | true =>
            rw [leafPaths_of_isNull ch' f' l' r' hleaf] at ha
            simp only [List.mem_singleton] at ha
            subst ha
            simp only [List.prefix_nil] at hpa
            exact absurd hpa hnea
          | false =>
            have hint' : Internal (Node.mk ch' f' l' r') := by
              simp only [Good] at hsub
              rcases hsub with ⟨rfl, rfl⟩ | ⟨h1, h2, _⟩
              · simp at hleaf
              · exact ⟨ch', f', l', r', rfl, h1, h2⟩
            simp only [Bool.false_eq_true, if_false]
            exact ih hint' a ha p' acc hpa hnea
      simp only [List.mem_append, List.mem_map] at he
      rcases he with ⟨a, ha, rfl⟩ | ⟨a, ha, rfl⟩
      · simp only [List.cons_prefix_cons] at hp
        obtain ⟨hb, hp'⟩ := hp
        subst hb
        exact step l hl ihl (by simp) a ha hp' (fun h => hne (by rw [h]))
      · simp only [List.cons_prefix_cons] at hp
        obtain ⟨hb, hp'⟩ := hp
        subst hb
        exact step r hr ihr (by simp) a ha hp' (fun h => hne (by rw [h]))

theorem decodeLoop_codesOf_append (root : Node) (hroot : Internal root)
    (hnd : (leafChars root).Nodup) (rest : List Char) :
    ∀ (T acc : List Char), (∀ c ∈ T, c ∈ leafChars root) →
      decodeLoop root root
          (codesOf ((leafPaths root).map (fun e => (e.1, e.2.2))) T ++ rest) acc
        = decodeLoop root root rest (acc ++ T) := by
  intro T
  induction T with
  | nil => intro acc _; simp [codesOf]
  | cons c T ih =>
    intro acc hT
    have hc : c ∈ leafChars root := hT c (List.mem_cons_self _ _)
    obtain ⟨e, he, hec⟩ := List.mem_map.1 hc
    have hfind : find ((leafPaths root).map (fun e => (e.1, e.2.2))) c = some e.2.2 := by
      apply mem_find_of_nodup _ _ _ (by rw [keys_table]; exact hnd)
      exact List.mem_map.2 ⟨e, he, by rw [← hec]⟩
    simp only [codesOf, codeOf, hfind, Option.getD_some, List.append_assoc]
    rw [decodeLoop_path root _ root hroot e he acc,
      ih _ (fun x hx => hT x (List.mem_cons_of_mem _ hx))]
    simp [hec]

/-- C11 fails as stated: the coder built from "abbccda" has the codes d: "00", a: "01",
b: "10", c: "11"; `decode("010")` reads the code of 'a' and ends one level below the
root, on a cell with two children; it returns "a" and reports no error. -/
theorem C11_counterexample :
    ((HuffmanCoder.new firstMin "abbccda".toList).bind fun hf =>
        (decodeRun hf.root hf.root "010".toList []).bind fun r =>
          .ok (decide (r.1 = hf.root), r.1.isNull, r.1.left.isNull, r.1.right.isNull))
      = .ok (false, false, false, false) ∧
    decodeWith firstMin "abbccda".toList "010".toList = .ok "a".toList ∧
    decodeWith firstMin "abbccda".toList "010".toList ≠ .error .TruncatedCode := by
  decide

/-- C11 as amended: for every input `S` with at least two distinct symbols and every
tie-breaking order, `decode` on the coder built from `S` reports no error when the
string ends inside a code: for every string `T` of symbols of `S` and every proper
prefix `p` of the code of a symbol of `S`, `decode` of the codes of `T` followed by `p`
returns `T`, the symbols decoded before the partial descent. -/
theorem C11_decode_drops_unfinished_code (tie : Nat → Nat) (S T p : List Char) (s : Char)
    (hS : 2 ≤ S.dedup.length) (hT : ∀ c ∈ T, c ∈ S) (hs : s ∈ S) :
    ∃ hc, HuffmanCoder.new tie S = .ok hc ∧
      (p <+: codeOf hc.huffmanCode s → p ≠ codeOf hc.huffmanCode s →
        hc.decode (codesOf hc.huffmanCode T ++ p) = .ok T) := by
  have hne : S ≠ [] := by
    intro h; rw [h] at hS; simp at hS
  obtain ⟨root, h1, h2, h3, h4⟩ := new_spec tie S hne
  have hint : Internal root := by
    apply internal_of_two_leaves (h2.good (good_seedQueue _))
    have e : (leaves root).length = S.dedup.length := by
      rw [h3.length_eq, ← (keys_freqMap_perm_dedup S).length_eq]
      simp [keys]
    omega
  have hmemS : ∀ c ∈ S, c ∈ leafChars root := by
    intro c hc
    rw [leafChars_eq_keys_leaves]
    exact (List.Perm.map _ h3).mem_iff.2 ((mem_keys_freqMap S c).2 hc)
  refine ⟨_, h1, ?_⟩
  intro hp hpne
  obtain ⟨e, he, hes⟩ := List.mem_map.1 (hmemS s hs)
  have hfind : find ((leafPaths root).map (fun e => (e.1, e.2.2))) s = some e.2.2 := by
    apply mem_find_of_nodup _ _ _ (by rw [keys_table]; exact h4)
    exact List.mem_map.2 ⟨e, he, by rw [← hes]⟩
  simp only [codeOf, hfind, Option.getD_some] at hp hpne
  simp only [HuffmanCoder.decode]
  rw [decodeLoop_codesOf_append root hint h4 p T [] (fun c hc => hmemS c (hT c hc)),
    decodeLoop_partial root root hint e he p _ hp hpne]
  simp

/-- C11 as amended, at the coder built from "abbccda", the string "ab" and the first
character of the code of 'c'. -/
theorem C11_decode_drops_unfinished_code_witness :
    2 ≤ "abbccda".toList.dedup.length ∧ (∀ c ∈ "ab".toList, c ∈ "abbccda".toList) ∧
    'c' ∈ "abbccda".toList ∧
    ∃ hc, HuffmanCoder.new firstMin "abbccda".toList = .ok hc ∧
      ['1'] <+: codeOf hc.huffmanCode 'c' ∧ ['1'] ≠ codeOf hc.huffmanCode 'c' ∧
      hc.decode (codesOf hc.huffmanCode "ab".toList ++ ['1']) = .ok "ab".toList := by
  refine ⟨by decide, by decide, by decide, ?_⟩
  obtain ⟨hc, h1, h2⟩ :=
    C11_decode_drops_unfinished_code firstMin "abbccda".toList "ab".toList ['1'] 'c'
      (by decide) (by decide) (by decide)
  have hv : ((HuffmanCoder.new firstMin "abbccda".toList).bind fun hf =>
      .ok (decide (['1'] <+: codeOf hf.huffmanCode 'c' ∧ ['1'] ≠ codeOf hf.huffmanCode 'c')))
      = .ok true := by decide
  rw [h1] at hv
  simp only [Outcome.bind, Outcome.ok.injEq, decide_eq_true_eq] at hv
  exact ⟨hc, h1, hv.1, hv.2, h2 hv.1 hv.2⟩

/-! ## Weighted path length -/

theorem pathCost_nil (w : Char → Nat) : pathCost w [] = 0 := rfl

theorem pathCost_cons (w : Char → Nat) (p : Char × Nat) (L : List (Char × Nat)) :
    pathCost w (p :: L) = w p.1 * p.2 + pathCost w L := by
  simp [pathCost]

theorem pathCost_append (w : Char → Nat) (L L' : List (Char × Nat)) :
    pathCost w (L ++ L') = pathCost w L + pathCost w L' := by
  simp [pathCost]

theorem pathCost_perm (w : Char → Nat) {L L' : List (Char × Nat)} (h : L.Perm L') :
    pathCost w L = pathCost w L' :=
  (List.Perm.map _ h).sum_eq

theorem pathCost_congr (w w' : Char → Nat) (L : List (Char × Nat))
    (h : ∀ p ∈ L, w p.1 = w' p.1) : pathCost w L = pathCost w' L := by
  induction L with
  | nil => rfl
  | cons p L ih =>
    rw [pathCost_cons, pathCost_cons, h p (List.mem_cons_self _ _),
      ih (fun q hq => h q (List.mem_cons_of_mem _ hq))]

/-- Moving every leaf one level down adds the total weight. -/
theorem pathCost_shift (w : Char → Nat) (L : List (Char × Nat)) :
    pathCost w (L.map (fun p => (p.1, p.2 + 1)))
      = pathCost w L + ((L.map (fun p => p.1)).map w).sum := by
  induction L with
  | nil => rfl
  | cons p L ih =>
    simp only [List.map_cons, pathCost_cons, ih, List.sum_cons]
    rw [Nat.mul_add]; omega

theorem pathCost_le_of_forall₂ (w : Char → Nat) {L L' : List (Char × Nat)}
    (h : List.Forall₂ (fun p q => p.1 = q.1 ∧ p.2 ≤ q.2) L L') :
    pathCost w L ≤ pathCost w L' := by
  induction h with
  | nil => exact Nat.le_refl _
  | cons hpq _ ih =>
    rw [pathCost_cons, pathCost_cons, hpq.1]
    exact Nat.add_le_add (Nat.mul_le_mul_left _ hpq.2) ih

/-! ## Exchanging two symbols in a list of leaves -/

theorem swapSym_left (x y : Char) : swapSym x y x = y := by simp [swapSym]

theorem swapSym_right (x y : Char) : swapSym x y y = x := by
  by_cases h : y = x <;> simp [swapSym, h]

theorem swapSym_of_ne (x y z : Char) (hx : z ≠ x) (hy : z ≠ y) : swapSym x y z = z := by
  simp [swapSym, hx, hy]

theorem mapSym_swap_self (x : Char) (L : List (Char × Nat)) : mapSym (swapSym x x) L = L := by
  simp only [mapSym]
  rw [List.map_congr_left (g := id)]
  · simp
  · intro p _
    have : swapSym x x p.1 = p.1 := by
      by_cases h : p.1 = x <;> simp [swapSym, h]
    rw [this]; rfl

theorem mapSym_swap_of_not_mem (x y : Char) (R : List (Char × Nat))
    (hx : x ∉ R.map (fun p => p.1)) (hy : y ∉ R.map (fun p => p.1)) :
    mapSym (swapSym x y) R = R := by
  induction R with
  | nil => rfl
  | cons p R ih =>
    simp only [List.map_cons, List.mem_cons, not_or] at hx hy
    simp only [mapSym, List.map_cons]
    rw [swapSym_of_ne x y p.1 (fun e => hx.1 e.symm) (fun e => hy.1 e.symm)]
    have := ih hx.2 hy.2
    simp only [mapSym] at this
    rw [this]

/-- A list of leaves with distinct symbols that holds `x` and `y` is, up to order,
these two leaves followed by leaves with other symbols. -/
theorem split_two (L : List (Char × Nat)) (hnd : (L.map (fun p => p.1)).Nodup)
    (x y : Char) (dx dy : Nat) (hx : (x, dx) ∈ L) (hy : (y, dy) ∈ L) (hxy : x ≠ y) :
    ∃ R, L.Perm ((x, dx) :: (y, dy) :: R) ∧ x ∉ R.map (fun p => p.1) ∧
      y ∉ R.map (fun p => p.1) := by
  obtain ⟨s, t, rfl⟩ := List.append_of_mem hx
  have p1 : (s ++ (x, dx) :: t).Perm ((x, dx) :: (s ++ t)) := List.perm_middle
  have hy1 : (y, dy) ∈ s ++ t := by
    have := p1.subset hy
    rcases List.mem_cons.1 this with e | h
    · exact absurd (congrArg Prod.fst e).symm hxy
    · exact h
  obtain ⟨s', t', e'⟩ := List.append_of_mem hy1
  have p2 : (s ++ t).Perm ((y, dy) :: (s' ++ t')) := by
    rw [e']; exact List.perm_middle
  have p3 : (s ++ (x, dx) :: t).Perm ((x, dx) :: (y, dy) :: (s' ++ t')) :=
    p1.trans (List.Perm.cons _ p2)
  have hnd3 := (List.Perm.map (fun p : Char × Nat => p.1) p3).nodup_iff.1 hnd
  simp only [List.map_cons, List.nodup_cons, List.mem_cons, not_or] at hnd3
  exact ⟨_, p3, hnd3.1.2, hnd3.2.1⟩

theorem mapSym_swap_perm (L : List (Char × Nat)) (hnd : (L.map (fun p => p.1)).Nodup)
    (x y : Char) (dx dy : Nat) (hx : (x, dx) ∈ L) (hy : (y, dy) ∈ L) (hxy : x ≠ y) :
    ∃ R, L.Perm ((x, dx) :: (y, dy) :: R) ∧
      (mapSym (swapSym x y) L).Perm ((y, dx) :: (x, dy) :: R) := by
  obtain ⟨R, hp, hxR, hyR⟩ := split_two L hnd x y dx dy hx hy hxy
  refine ⟨R, hp, ?_⟩
  have := List.Perm.map (fun p : Char × Nat => (swapSym x y p.1, p.2)) hp
  simp only [List.map_cons, swapSym_left, swapSym_right] at this
  have e := mapSym_swap_of_not_mem x y R hxR hyR
  simp only [mapSym] at e ⊢
  rw [e] at this
  exact this

/-- Exchanging a lighter symbol that is nearer to the root with a heavier one that is
farther does not raise the weighted path length. -/
theorem pathCost_swap_le (w : Char → Nat) (L : List (Char × Nat))
    (hnd : (L.map (fun p => p.1)).Nodup) (x y : Char) (dx dy : Nat)
    (hx : (x, dx) ∈ L) (hy : (y, dy) ∈ L) (hw : w x ≤ w y) (hd : dx ≤ dy) :
    pathCost w (mapSym (swapSym x y) L) ≤ pathCost w L := by
  by_cases hxy : x = y
  · subst hxy
    rw [mapSym_swap_self]
  · obtain ⟨R, h1, h2⟩ := mapSym_swap_perm L hnd x y dx dy hx hy hxy
    rw [pathCost_perm w h1, pathCost_perm w h2]
    simp only [pathCost_cons]
    generalize w x = A at hw ⊢
    generalize w y = B at hw ⊢
    obtain ⟨e, rfl⟩ := Nat.exists_eq_add_of_le hw
    obtain ⟨f, rfl⟩ := Nat.exists_eq_add_of_le hd
    have h3 : (A + e) * (dx + f) = (A + e) * dx + A * f + e * f := by ring
    have h4 : A * (dx + f) = A * dx + A * f := by ring
    rw [h3, h4]; omega

theorem mapSym_swap_syms_perm (L : List (Char × Nat)) (hnd : (L.map (fun p => p.1)).Nodup)
    (x y : Char) (hx : x ∈ L.map (fun p => p.1)) (hy : y ∈ L.map (fun p => p.1)) :
    ((mapSym (swapSym x y) L).map (fun p => p.1)).Perm (L.map (fun p => p.1)) := by
  by_cases hxy : x = y
  · subst hxy
    rw [mapSym_swap_self]
  · obtain ⟨⟨x', dx⟩, hx1, hx2⟩ := List.mem_map.1 hx
    obtain ⟨⟨y', dy⟩, hy1, hy2⟩ := List.mem_map.1 hy
    simp only at hx2 hy2
    subst hx2 hy2
    obtain ⟨R, h1, h2⟩ := mapSym_swap_perm L hnd x' y' dx dy hx1 hy1 hxy
    have a1 := List.Perm.map (fun p : Char × Nat => p.1) h1
    have a2 := List.Perm.map (fun p : Char × Nat => p.1) h2
    simp only [List.map_cons] at a1 a2
    exact a2.trans ((List.Perm.swap _ _ _).trans a1.symm)

/-! ## Binary trees: deepest sibling leaves -/

theorem HTree.depth_le_height (u : HTree) : ∀ p ∈ u.symDepths, p.2 ≤ u.height := by
  induction u with
  | leaf c => intro p hp; simp [HTree.symDepths] at hp; simp [hp, HTree.height]
  | node l r ihl ihr =>
    intro p hp
    simp only [HTree.symDepths, List.mem_map, List.mem_append] at hp
    obtain ⟨q, hq, rfl⟩ := hp
    simp only [HTree.height]
    rcases hq with hq | hq
    · have := ihl q hq; omega
    · have := ihr q hq; omega

theorem HTree.symDepths_relabel (σ : Char → Char) (u : HTree) :
    (u.relabel σ).symDepths = mapSym σ u.symDepths := by
  induction u with
  | leaf c => rfl
  | node l r ihl ihr =>
    simp only [HTree.relabel, HTree.symDepths, ihl, ihr, mapSym, List.map_append, List.map_map]
    rfl

theorem HTree.eq_leaf_of_height_zero (u : HTree) (h : u.height = 0) : ∃ c, u = .leaf c := by
  cases u with
  | leaf c => exact ⟨c, rfl⟩
  | node l r => simp [HTree.height] at h

/-- A binary tree with more than one leaf has two sibling leaves on its deepest level;
replacing their parent by a leaf with the symbol of the first gives a binary tree whose
other leaves are where they were. -/
theorem HTree.cherry (u : HTree) (hu : 1 ≤ u.height) :
    ∃ (c d : Char) (u0 : HTree) (rest : List (Char × Nat)), u.symDepths.Perm ((c, u.height) :: (d, u.height) :: rest) ∧
      u0.symDepths.Perm ((c, u.height - 1) :: rest) ∧ ∀ p ∈ rest, p.2 ≤ u.height := by
  induction u with
  | leaf c => simp [HTree.height] at hu
  | node l r ihl ihr =>
    by_cases hh : r.height ≤ l.height
    · have hmax : (HTree.node l r).height = l.height + 1 := by
        simp only [HTree.height]; omega
      by_cases hl1 : 1 ≤ l.height
      · obtain ⟨c, d, l0, rest, h1, h2, h3⟩ := ihl hl1
        refine ⟨c, d, .node l0 r, (rest ++ r.symDepths).map (fun p => (p.1, p.2 + 1)), ?_, ?_, ?_⟩
        · rw [hmax]
          have := List.Perm.map (fun p : Char × Nat => (p.1, p.2 + 1))
            (List.Perm.append_right r.symDepths h1)
          simpa [HTree.symDepths] using this
        · rw [hmax]
          have := List.Perm.map (fun p : Char × Nat => (p.1, p.2 + 1))
            (List.Perm.append_right r.symDepths h2)
          have e : l.height - 1 + 1 = l.height + 1 - 1 := by omega
          simp only [HTree.symDepths]
          simp only [List.cons_append, List.map_cons, e] at this
          exact this
        · intro p hp
          rw [hmax]
          simp only [List.mem_map, List.mem_append] at hp
          obtain ⟨q, hq, rfl⟩ := hp
          rcases hq with hq | hq
          · have := h3 q hq; simp only; omega
          · have := r.depth_le_height q hq; simp only; omega
      · obtain ⟨c, rfl⟩ := l.eq_leaf_of_height_zero (by omega)
        obtain ⟨d, rfl⟩ := r.eq_leaf_of_height_zero (by simp [HTree.height] at hh; omega)
        exact ⟨c, d, .leaf c, [], by simp [HTree.symDepths, HTree.height],
          by simp [HTree.symDepths, HTree.height], by simp⟩
    · have hmax : (HTree.node l r).height = r.height + 1 := by
        simp only [HTree.height]; omega
      have hr1 : 1 ≤ r.height := by omega
      obtain ⟨c, d, r0, rest, h1, h2, h3⟩ := ihr hr1
      refine ⟨c, d, .node l r0, (l.symDepths ++ rest).map (fun p => (p.1, p.2 + 1)), ?_, ?_, ?_⟩
      · rw [hmax]
        have := List.Perm.map (fun p : Char × Nat => (p.1, p.2 + 1))
          ((List.Perm.append_left l.symDepths h1).trans
            (List.perm_middle.trans (List.Perm.cons _ List.perm_middle)))
        simpa [HTree.symDepths] using this
      · rw [hmax]
        have := List.Perm.map (fun p : Char × Nat => (p.1, p.2 + 1))
          ((List.Perm.append_left l.symDepths h2).trans List.perm_middle)
        have e : r.height - 1 + 1 = r.height + 1 - 1 := by omega
        simp only [HTree.symDepths]
        simp only [List.map_cons, e] at this
        exact this
      · intro p hp
        rw [hmax]
        simp only [List.mem_map, List.mem_append] at hp
        obtain ⟨q, hq, rfl⟩ := hp
        rcases hq with hq | hq
        · have := l.depth_le_height q hq; simp only; omega
        · have := h3 q hq; simp only; omega

/-! ## The exchange argument -/

theorem mem_mapSym {σ : Char → Char} {L : List (Char × Nat)} {p : Char × Nat}
    (h : p ∈ mapSym σ L) : ∃ q ∈ L, p = (σ q.1, q.2) := by
  simp only [mapSym, List.mem_map] at h
  obtain ⟨q, hq, rfl⟩ := h
  exact ⟨q, hq, rfl⟩

theorem setWeight_self (w : Char → Nat) (a : Char) (v : Nat) : setWeight w a v a = v := by
  simp [setWeight]

theorem setWeight_of_ne (w : Char → Nat) (a : Char) (v : Nat) (c : Char) (h : c ≠ a) :
    setWeight w a v c = w c := by
  simp [setWeight, h]

/-- For every binary tree with distinct leaf symbols among which `a` and `b` are the two
lightest, there is a binary tree over the same symbols without `b` that costs, with the
weight of `b` added to that of `a`, at least `w a + w b` less. -/
theorem exchange (w : Char → Nat) (u : HTree) (a b : Char) (hnd : u.syms.Nodup)
    (hab : a ≠ b) (ha : a ∈ u.syms) (hb : b ∈ u.syms) (hwab : w a ≤ w b)
    (hmin : ∀ x ∈ u.syms, x ≠ a → w b ≤ w x) :
    ∃ u' : HTree, (b :: u'.syms).Perm u.syms ∧
      pathCost (setWeight w a (w a + w b)) u'.symDepths + (w a + w b)
        ≤ pathCost w u.symDepths := by
  have hH : 1 ≤ u.height := by
    cases u with
    | leaf c =>
      simp only [HTree.syms, HTree.symDepths, List.map_cons, List.map_nil,
        List.mem_singleton] at ha hb
      exact absurd (ha.trans hb.symm) hab
    | node l r => simp [HTree.height]
  obtain ⟨c, d, u0, rest, hp, hp0, _⟩ := u.cherry hH
  have hbound := u.depth_le_height
  generalize u.height = H at hH hp hp0 hbound
  have hndL : (u.symDepths.map (fun p => p.1)).Nodup := hnd
  have hsyms : ∀ x, x ∈ u.syms ↔ x ∈ u.symDepths.map (fun p => p.1) := fun x => Iff.rfl
  have hcL : (c, H) ∈ u.symDepths := hp.symm.subset (List.mem_cons_self _ _)
  obtain ⟨⟨a', da⟩, haL, haeq⟩ := List.mem_map.1 ha
  simp only at haeq
  subst haeq
  have hwac : w a' ≤ w c := by
    by_cases e : c = a'
    · rw [e]
    · exact hwab.trans (hmin c (List.mem_map.2 ⟨(c, H), hcL, rfl⟩) e)
  -- first exchange: `a` goes to the place of `c`
  have cost1 := pathCost_swap_le w u.symDepths hndL a' c da H haL hcL hwac (hbound _ haL)
  have syms1 := mapSym_swap_syms_perm u.symDepths hndL a' c ha
    (List.mem_map.2 ⟨(c, H), hcL, rfl⟩)
  have hp1 : (mapSym (swapSym a' c) u.symDepths).Perm
      ((a', H) :: (swapSym a' c d, H) :: mapSym (swapSym a' c) rest) := by
    have := List.Perm.map (fun p : Char × Nat => (swapSym a' c p.1, p.2)) hp
    simpa [mapSym, swapSym_right] using this
  generalize hL1 : mapSym (swapSym a' c) u.symDepths = L1 at cost1 syms1 hp1
  generalize hd1 : swapSym a' c d = d1 at hp1
  generalize hrest1 : mapSym (swapSym a' c) rest = rest1 at hp1
  have hnd1 : (L1.map (fun p => p.1)).Nodup := syms1.nodup_iff.2 hndL
  have hnd1' := (List.Perm.map (fun p : Char × Nat => p.1) hp1).nodup_iff.1 hnd1
  simp only [List.map_cons, List.nodup_cons, List.mem_cons, not_or] at hnd1'
  have hd1a : d1 ≠ a' := fun e => hnd1'.1.1 e.symm
  have hd1L1 : (d1, H) ∈ L1 :=
    hp1.symm.subset (List.mem_cons_of_mem _ (List.mem_cons_self _ _))
  have hbound1 : ∀ p ∈ L1, p.2 ≤ H := by
    intro p hp'
    rw [← hL1] at hp'
    obtain ⟨q, hq, rfl⟩ := mem_mapSym hp'
    exact hbound q hq
  have hb1 : b ∈ L1.map (fun p => p.1) := syms1.symm.subset hb
  obtain ⟨⟨b', db⟩, hbL1, hbeq⟩ := List.mem_map.1 hb1
  simp only at hbeq
  subst hbeq
  have hwbd : w b' ≤ w d1 :=
    hmin d1 (syms1.subset (List.mem_map.2 ⟨(d1, H), hd1L1, rfl⟩)) hd1a
  -- second exchange: `b` goes to the place of the sibling
  have cost2 := pathCost_swap_le w L1 hnd1 b' d1 db H hbL1 hd1L1 hwbd (hbound1 _ hbL1)
  have syms2 := mapSym_swap_syms_perm L1 hnd1 b' d1 hb1
    (List.mem_map.2 ⟨(d1, H), hd1L1, rfl⟩)
  have hsa : swapSym b' d1 a' = a' := swapSym_of_ne b' d1 a' hab (fun e => hd1a e.symm)
  have hp2 : (mapSym (swapSym b' d1) L1).Perm
      ((a', H) :: (b', H) :: mapSym (swapSym b' d1) rest1) := by
    have := List.Perm.map (fun p : Char × Nat => (swapSym b' d1 p.1, p.2)) hp1
    simpa [mapSym, swapSym_right, hsa] using this
  generalize hrest2 : mapSym (swapSym b' d1) rest1 = rest2 at hp2
  have hnd2 : ((mapSym (swapSym b' d1) L1).map (fun p => p.1)).Nodup := syms2.nodup_iff.2 hnd1
  have hnd2' := (List.Perm.map (fun p : Char × Nat => p.1) hp2).nodup_iff.1 hnd2
  simp only [List.map_cons, List.nodup_cons, List.mem_cons, not_or] at hnd2'
  have harest : a' ∉ rest2.map (fun p => p.1) := hnd2'.1.2
  -- the tree with the two siblings merged
  refine ⟨(u0.relabel (swapSym a' c)).relabel (swapSym b' d1), ?_, ?_⟩
  · have hu' : ((u0.relabel (swapSym a' c)).relabel (swapSym b' d1)).symDepths.Perm
        ((a', H - 1) :: rest2) := by
      rw [HTree.symDepths_relabel, HTree.symDepths_relabel]
      have := List.Perm.map (fun p : Char × Nat => (swapSym b' d1 p.1, p.2))
        (List.Perm.map (fun p : Char × Nat => (swapSym a' c p.1, p.2)) hp0)
      simp only [List.map_cons, swapSym_right, hsa] at this
      simp only [mapSym] at hrest1 hrest2 ⊢
      rw [hrest1, hrest2] at this
      exact this
    have e1 := List.Perm.map (fun p : Char × Nat => p.1) hu'
    have e2 := List.Perm.map (fun p : Char × Nat => p.1) hp2
    simp only [List.map_cons] at e1 e2
    have e3 : (b' :: ((u0.relabel (swapSym a' c)).relabel (swapSym b' d1)).syms).Perm
        (a' :: b' :: rest2.map (fun p => p.1)) :=
      (List.Perm.cons b' e1).trans (List.Perm.swap _ _ _)
    exact e3.trans (e2.symm.trans (syms2.trans syms1))
  · have hu' : ((u0.relabel (swapSym a' c)).relabel (swapSym b' d1)).symDepths.Perm
        ((a', H - 1) :: rest2) := by
      rw [HTree.symDepths_relabel, HTree.symDepths_relabel]
      have := List.Perm.map (fun p : Char × Nat => (swapSym b' d1 p.1, p.2))
        (List.Perm.map (fun p : Char × Nat => (swapSym a' c p.1, p.2)) hp0)
      simp only [List.map_cons, swapSym_right, hsa] at this
      simp only [mapSym] at hrest1 hrest2 ⊢
      rw [hrest1, hrest2] at this
      exact this
    have hc' : pathCost (setWeight w a' (w a' + w b')) rest2 = pathCost w rest2 := by
      apply pathCost_congr
      intro p hp'
      apply setWeight_of_ne
      intro e
      exact harest (List.mem_map.2 ⟨p, hp', e⟩)
    rw [pathCost_perm _ hu', pathCost_cons, setWeight_self, hc']
    have hL2 := pathCost_perm w hp2
    simp only [pathCost_cons] at hL2
    have hchain : pathCost w (mapSym (swapSym b' d1) L1) ≤ pathCost w u.symDepths :=
      cost2.trans cost1
    rw [hL2] at hchain
    obtain ⟨H', rfl⟩ : ∃ H', H = H' + 1 := ⟨H - 1, by omega⟩
    simp only [Nat.add_sub_cancel] at hchain ⊢
    have e4 : (w a' + w b') * H' + (w a' + w b') = w a' * (H' + 1) + w b' * (H' + 1) := by ring
    omega

/-! ## Depths of the leaves of the program's trees -/

theorem symDepths_of_not_isNull (ch : Char) (f : Int) (l r : Node)
    (h : (l.isNull && r.isNull) = false) :
    symDepths (Node.mk ch f l r)
      = (symDepths l ++ symDepths r).map (fun p => (p.1, p.2 + 1)) := by
  simp [symDepths, leafPaths_of_not_isNull ch f l r h, List.map_map, Function.comp_def]

theorem symDepths_node (ch : Char) (f : Int) (l r : Node) (hl : l ≠ .null) :
    symDepths (Node.mk ch f l r)
      = (symDepths l ++ symDepths r).map (fun p => (p.1, p.2 + 1)) := by
  apply symDepths_of_not_isNull
  simp [(isNull_eq_false_iff l).2 hl]

theorem symDepths_leaf (c : Char) (f : Int) : symDepths (Node.leaf c f) = [(c, 0)] := by
  simp [symDepths, leafPaths_leaf]

theorem symDepths_syms (t : Node) : (symDepths t).map (fun p => p.1) = leafChars t := by
  simp [symDepths, leafChars, List.map_map, Function.comp_def]

/-- Replacing the leaf for `ca` of weight `wa + wb` by a cell with the two leaves `ca`
and `cb` puts these two leaves one level below the place of that leaf and leaves every
other leaf where it was. -/
theorem symDepths_expand (ca cb : Char) (wa wb : Int) (t : Node) (ht : Good t)
    (hnd : (leafChars t).Nodup) (hmem : (ca, wa + wb) ∈ leaves t) :
    ∃ (d : Nat) (rest : List (Char × Nat)), (symDepths t).Perm ((ca, d) :: rest) ∧
      (symDepths
          (expand ca (Node.mk '\x00' (wa + wb) (Node.leaf ca wa) (Node.leaf cb wb)) t)).Perm
        ((ca, d + 1) :: (cb, d + 1) :: rest) := by
  induction t with
  | null => exact absurd ht (by simp [Good])
  | mk ch f l r ihl ihr =>
    simp only [Good] at ht
    rcases ht with ⟨rfl, rfl⟩ | ⟨hl, hr, _⟩
    · simp only [leaves, leafPaths, isNull_null, Bool.and_self, if_true, List.map_nil,
        List.append_nil, List.map_cons, List.mem_singleton, Prod.mk.injEq] at hmem
      obtain ⟨e1, e2⟩ := hmem
      subst e1 e2
      refine ⟨0, [], ?_, ?_⟩
      · simp [symDepths, leafPaths]
      · simp [expand, Node.freq, symDepths, leafPaths, Node.leaf]
    · rw [leafChars_node ch f l r hl.ne_null] at hnd
      have hnd' := List.nodup_append.1 hnd
      rw [leaves_node ch f l r hl.ne_null, List.mem_append] at hmem
      rw [expand_node _ _ ch f l r hl.ne_null]
      rcases hmem with hm | hm
      · have hcr : ca ∉ leafChars r := fun h => hnd'.2.2 (mem_leaves_leafChars hm) h
        obtain ⟨d, rest, hd1, hd2⟩ := ihl hl hnd'.1 hm
        rw [expand_of_not_mem _ _ r hr hcr]
        have hne : expand ca (Node.mk '\x00' (wa + wb) (Node.leaf ca wa) (Node.leaf cb wb)) l
            ≠ .null := by
          intro e
          rw [e] at hd2
          simpa [symDepths, leafPaths] using hd2.length_eq
        refine ⟨d + 1, (rest ++ symDepths r).map (fun p => (p.1, p.2 + 1)), ?_, ?_⟩
        · rw [symDepths_node ch f l r hl.ne_null]
          have := List.Perm.map (fun p : Char × Nat => (p.1, p.2 + 1))
            (List.Perm.append_right (symDepths r) hd1)
          simpa using this
        · rw [symDepths_node ch f _ r hne]
          have := List.Perm.map (fun p : Char × Nat => (p.1, p.2 + 1))
            (List.Perm.append_right (symDepths r) hd2)
          simpa using this
      · have hcl : ca ∉ leafChars l := fun h => hnd'.2.2 h (mem_leaves_leafChars hm)
        obtain ⟨d, rest, hd1, hd2⟩ := ihr hr hnd'.2.1 hm
        rw [expand_of_not_mem _ _ l hl hcl]
        refine ⟨d + 1, (symDepths l ++ rest).map (fun p => (p.1, p.2 + 1)), ?_, ?_⟩
        · rw [symDepths_node ch f l r hl.ne_null]
          have := List.Perm.map (fun p : Char × Nat => (p.1, p.2 + 1))
            ((List.Perm.append_left (symDepths l) hd1).trans List.perm_middle)
          simpa using this
        · rw [symDepths_node ch f l _ hl.ne_null]
          have := List.Perm.map (fun p : Char × Nat => (p.1, p.2 + 1))
            ((List.Perm.append_left (symDepths l) hd2).trans
              (List.perm_middle.trans (List.Perm.cons _ List.perm_middle)))
          simpa using this

/-- Every tree of the program with a leaf has a binary tree with the same leaf symbols,
in the same order, that costs no more under any weights: a cell with one child is
replaced by that child. -/
theorem exists_htree (t : Node) (ht : t ≠ .null) :
    ∃ u : HTree, u.syms = leafChars t ∧
      ∀ w, pathCost w u.symDepths ≤ pathCost w (symDepths t) := by
  induction t with
  | null => exact absurd rfl ht
  | mk ch f l r ihl ihr =>
    by_cases hl : l = .null
    · by_cases hr : r = .null
      · subst hl hr
        refine ⟨.leaf ch, by simp [HTree.syms, HTree.symDepths, leafChars, leafPaths], ?_⟩
        intro w
        simp [HTree.symDepths, symDepths, leafPaths, pathCost]
      · obtain ⟨u, hu1, hu2⟩ := ihr hr
        have hn : (l.isNull && r.isNull) = false := by
          simp [(isNull_eq_false_iff r).2 hr]
        refine ⟨u, ?_, ?_⟩
        · rw [hu1, ← symDepths_syms, ← symDepths_syms, symDepths_of_not_isNull ch f l r hn]
          subst hl
          simp [symDepths, leafPaths, List.map_map, Function.comp_def]
        · intro w
          rw [symDepths_of_not_isNull ch f l r hn, pathCost_shift]
          subst hl
          have := hu2 w
          simp only [symDepths, leafPaths, List.map_nil, List.nil_append] at this ⊢
          omega
    · obtain ⟨ul, hul1, hul2⟩ := ihl hl
      have hn : (l.isNull && r.isNull) = false := by
        simp [(isNull_eq_false_iff l).2 hl]
      by_cases hr : r = .null
      · refine ⟨ul, ?_, ?_⟩
        · rw [hul1, ← symDepths_syms, ← symDepths_syms, symDepths_of_not_isNull ch f l r hn]
          subst hr
          simp [symDepths, leafPaths, List.map_map, Function.comp_def]
        · intro w
          rw [symDepths_of_not_isNull ch f l r hn, pathCost_shift]
          subst hr
          have := hul2 w
          simp only [symDepths, leafPaths, List.map_nil, List.append_nil] at this ⊢
          omega
      · obtain ⟨ur, hur1, hur2⟩ := ihr hr
        refine ⟨.node ul ur, ?_, ?_⟩
        · rw [leafChars_node ch f l r hl, ← hul1, ← hur1]
          simp [HTree.syms, HTree.symDepths, List.map_map, Function.comp_def]
        · intro w
          rw [symDepths_of_not_isNull ch f l r hn]
          simp only [HTree.symDepths, pathCost_shift, pathCost_append, List.map_append]
          have e1 : ul.symDepths.map (fun p => p.1) = (symDepths l).map (fun p => p.1) := by
            rw [symDepths_syms]; exact hul1
          have e2 : ur.symDepths.map (fun p => p.1) = (symDepths r).map (fun p => p.1) := by
            rw [symDepths_syms]; exact hur1
          rw [e1, e2]
          have := hul2 w
          have := hur2 w
          omega

/-! ## Optimality of the tree -/

/-- The merge loop started on a queue of leaves with distinct symbols, whose weights are
not negative and sum to a value in the range of `int`, ends with a tree whose weighted
path length, under the weights of the leaves, is at most that of every binary tree over
the same symbols. -/
theorem mergeLoop_optimal (tie : Nat → Nat) : ∀ (n fuel k : Nat) (L : List Node) (R : Node),
    L.length = n + 1 → L.length ≤ fuel + 1 →
    (∀ x ∈ L, ∃ c f, x = Node.leaf c f) → (keys (forestLeaves L)).Nodup →
    weightSum (forestLeaves L) < 2147483648 →
    mergeLoop tie fuel k L = .ok R →
    ∀ (w : Char → Nat), (∀ p ∈ forestLeaves L, (w p.1 : Int) = p.2) →
    ∀ u : HTree, u.syms.Perm (keys (forestLeaves L)) →
      pathCost w (symDepths R) ≤ pathCost w u.symDepths := by
  intro n
  induction n with
  | zero =>
    intro fuel k L R hlen _ hleaf _ _ h w _ u _
    match L, hlen with
    | [x], _ =>
      obtain ⟨c, f, rfl⟩ := hleaf x (by simp)
      rw [mergeLoop] at h
      simp only [List.length_singleton, if_true, top_singleton, Outcome.ok.injEq] at h
      rw [← h, symDepths_leaf]
      simp [pathCost]
  | succ n ih =>
    intro fuel k L R hlen hfuel hleaf hnd hsum h w hw u hu
    have hnn : ∀ p ∈ forestLeaves L, 0 ≤ p.2 := by
      intro p hp
      rw [← hw p hp]
      exact Int.ofNat_nonneg _
    obtain ⟨fuel', q2, ca, cb, wa, wb, R', hperm, hab, _, hq2, hL'len, hL'fuel, hL'nd, _,
      hL'sum, hR'1, hR'2, rfl⟩ :=
      mergeLoop_leaves_step tie n fuel k L R hlen hfuel hleaf hnd hnn hsum h
    -- the symbols and weights of the queue
    have hfl : (forestLeaves L).Perm ((ca, wa) :: (cb, wb) :: forestLeaves q2) := by
      have := forestLeaves_perm hperm
      simpa [forestLeaves, leaves, leafPaths_leaf] using this
    have hkeys : (keys (forestLeaves L)).Perm (ca :: cb :: keys (forestLeaves q2)) := by
      have := List.Perm.map (fun p : Char × Int => p.1) hfl
      simpa [keys] using this
    have hkn : (ca :: cb :: keys (forestLeaves q2)).Nodup := hkeys.nodup_iff.1 hnd
    have hcab : ca ≠ cb := by
      intro e
      have := (List.nodup_cons.1 hkn).1
      exact this (by rw [e]; exact List.mem_cons_self _ _)
    have hwca : (w ca : Int) = wa := hw (ca, wa) (hfl.symm.subset (List.mem_cons_self _ _))
    have hwcb : (w cb : Int) = wb :=
      hw (cb, wb) (hfl.symm.subset (List.mem_cons_of_mem _ (List.mem_cons_self _ _)))
    have hwab : w ca ≤ w cb := by
      have := hab
      rw [← hwca, ← hwcb] at this
      exact_mod_cast this
    have hmin : ∀ x ∈ u.syms, x ≠ ca → w cb ≤ w x := by
      intro x hx hxa
      have hx' : x ∈ keys (forestLeaves L) := hu.subset hx
      obtain ⟨p, hp, hpx⟩ := List.mem_map.1 hx'
      have hwp := hw p hp
      have hp' := hfl.subset hp
      simp only [List.mem_cons] at hp'
      rcases hp' with e | e | e
      · rw [e] at hpx; exact absurd hpx.symm hxa
      · rw [e] at hpx; simp only at hpx; rw [← hpx]
      · obtain ⟨y, hy, hpy⟩ := mem_forestLeaves e
        obtain ⟨cy, fy, rfl, hfy⟩ := hq2 y hy
        simp only [leaves, leafPaths_leaf, List.map_cons, List.map_nil,
          List.mem_singleton] at hpy
        rw [hpy] at hwp hpx
        simp only at hwp hpx
        rw [← hpx]
        have : (w cb : Int) ≤ (w cy : Int) := by rw [hwp, hwcb]; exact hfy
        exact_mod_cast this
    have hund : u.syms.Nodup := hu.nodup_iff.2 hnd
    have hcau : ca ∈ u.syms := hu.symm.subset (hkeys.symm.subset (List.mem_cons_self _ _))
    have hcbu : cb ∈ u.syms :=
      hu.symm.subset (hkeys.symm.subset (List.mem_cons_of_mem _ (List.mem_cons_self _ _)))
    obtain ⟨u', hu'1, hu'2⟩ := exchange w u ca cb hund hcab hcau hcbu hwab hmin
    -- the queue with the two lightest leaves collapsed
    have hfl' : forestLeaves (push q2 (Node.leaf ca (wa + wb)))
        = forestLeaves q2 ++ [(ca, wa + wb)] := by
      simp [push, forestLeaves_append, forestLeaves, leaves, leafPaths_leaf]
    have hcaq2 : ca ∉ keys (forestLeaves q2) := by
      have := (List.nodup_cons.1 hkn).1
      exact fun h => this (List.mem_cons_of_mem _ h)
    have hw' : ∀ p ∈ forestLeaves (push q2 (Node.leaf ca (wa + wb))),
        (setWeight w ca (w ca + w cb) p.1 : Int) = p.2 := by
      intro p hp
      rw [hfl', List.mem_append, List.mem_singleton] at hp
      rcases hp with hp | hp
      · have hne : p.1 ≠ ca := by
          intro e
          exact hcaq2 (List.mem_map.2 ⟨p, hp, e⟩)
        rw [setWeight_of_ne _ _ _ _ hne]
        exact hw p (hfl.symm.subset (List.mem_cons_of_mem _ (List.mem_cons_of_mem _ hp)))
      · rw [hp, setWeight_self]
        push_cast
        rw [hwca, hwcb]
    have hu'syms : u'.syms.Perm (keys (forestLeaves (push q2 (Node.leaf ca (wa + wb))))) := by
      have e1 : (cb :: u'.syms).Perm (cb :: ca :: keys (forestLeaves q2)) :=
        hu'1.trans (hu.trans (hkeys.trans (List.Perm.swap _ _ _)))
      have e2 := (List.perm_cons cb).1 e1
      rw [hfl', keys_append]
      refine e2.trans ?_
      simpa [keys] using (@List.perm_append_comm _ [ca] (keys (forestLeaves q2)))
    have hL'leaf : ∀ x ∈ push q2 (Node.leaf ca (wa + wb)), ∃ c f, x = Node.leaf c f := by
      intro x hx
      simp only [push, List.mem_append, List.mem_singleton] at hx
      rcases hx with hx | hx
      · obtain ⟨c, f, e, _⟩ := hq2 x hx; exact ⟨c, f, e⟩
      · exact ⟨ca, wa + wb, hx⟩
    have hIH := ih fuel' (k + 2) _ R' hL'len hL'fuel hL'leaf hL'nd hL'sum hR'1
      (setWeight w ca (w ca + w cb)) hw' u' hu'syms
    -- the tree before and after the leaf is replaced
    have hgood : Good R' := hR'2.good (fun x hx => by
      obtain ⟨c, f, rfl⟩ := hL'leaf x hx; exact good_leaf c f)
    have hlv := hR'2.leaves_perm
      (fun x hx => by obtain ⟨c, f, rfl⟩ := hL'leaf x hx; simp [Node.leaf])
    have hmemR' : (ca, wa + wb) ∈ leaves R' :=
      hlv.symm.subset (forestLeaves_mem_of_leaf (by simp [push]))
    have hndR' : (leafChars R').Nodup := leafChars_nodup_of_perm hlv hL'nd
    obtain ⟨d, rest, hd1, hd2⟩ := symDepths_expand ca cb wa wb R' hgood hndR' hmemR'
    have hcarest : ca ∉ rest.map (fun p => p.1) := by
      have := (List.Perm.map (fun p : Char × Nat => p.1) hd1).nodup_iff.1
        (by rw [symDepths_syms]; exact hndR')
      simp only [List.map_cons, List.nodup_cons] at this
      exact this.1
    have hc' : pathCost (setWeight w ca (w ca + w cb)) rest = pathCost w rest := by
      apply pathCost_congr
      intro p hp'
      apply setWeight_of_ne
      intro e
      exact hcarest (List.mem_map.2 ⟨p, hp', e⟩)
    rw [pathCost_perm _ hd1, pathCost_cons, setWeight_self, hc'] at hIH
    rw [pathCost_perm _ hd2, pathCost_cons, pathCost_cons]
    simp only at hIH ⊢
    have e4 : (w ca + w cb) * d + (w ca + w cb) = w ca * (d + 1) + w cb * (d + 1) := by ring
    omega

/-- The weighted path length of a tree whose leaves carry the distinct symbols of `S`,
under the numbers of occurrences in `S`: the sum over the distinct symbols of the number
of occurrences times the length of the code read off the tree. -/
theorem pathCost_eq_sum_dedup (S : List Char) (root : Node)
    (hperm : (leafChars root).Perm S.dedup) (hnd : (leafChars root).Nodup) :
    pathCost (fun c => S.count c) (symDepths root)
      = (S.dedup.map (fun s =>
          S.count s * (codeOf ((leafPaths root).map (fun e => (e.1, e.2.2))) s).length)).sum := by
  rw [← (List.Perm.map _ hperm).sum_eq]
  simp only [pathCost, symDepths, leafChars, List.map_map]
  congr 1
  apply List.map_congr_left
  intro e he
  have hfind : find ((leafPaths root).map (fun e => (e.1, e.2.2))) e.1 = some e.2.2 := by
    apply mem_find_of_nodup _ _ _ (by rw [keys_table]; exact hnd)
    exact List.mem_map.2 ⟨e, he, rfl⟩
  simp only [Function.comp_def, codeOf, hfind, Option.getD_some]

/-- The frequency map of 1200000000 copies of `'a'`, 1300000000 of `'b'`, 1400000000 of
`'c'` and 1500000000 of `'d'`: every count is in the range of `int`. -/
theorem buildFrequencyMap_abcd :
    buildFrequencyMap (List.replicate 1200000000 'a' ++ (List.replicate 1300000000 'b' ++
      (List.replicate 1400000000 'c' ++ List.replicate 1500000000 'd'))) []
      = [('a', 1200000000), ('b', 1300000000), ('c', 1400000000), ('d', 1500000000)] := by
  have ha : buildFrequencyMap (List.replicate 1200000000 'a') [] = [('a', 1200000000)] := by
    rw [buildFrequencyMap_run 'a' [] (by decide) 1200000000 (by decide)]
    decide
  have hb : buildFrequencyMap (List.replicate 1300000000 'b') [('a', 1200000000)]
      = [('a', 1200000000), ('b', 1300000000)] := by
    rw [buildFrequencyMap_run 'b' [('a', 1200000000)] (by decide) 1300000000 (by decide)]
    decide
  have hc : buildFrequencyMap (List.replicate 1400000000 'c')
      [('a', 1200000000), ('b', 1300000000)]
      = [('a', 1200000000), ('b', 1300000000), ('c', 1400000000)] := by
    rw [buildFrequencyMap_run 'c' [('a', 1200000000), ('b', 1300000000)] (by decide)
      1400000000 (by decide)]
    decide
  have hd : buildFrequencyMap (List.replicate 1500000000 'd')
      [('a', 1200000000), ('b', 1300000000), ('c', 1400000000)]
      = [('a', 1200000000), ('b', 1300000000), ('c', 1400000000), ('d', 1500000000)] := by
    rw [buildFrequencyMap_run 'd' [('a', 1200000000), ('b', 1300000000), ('c', 1400000000)]
      (by decide) 1500000000 (by decide)]
    decide
  rw [buildFrequencyMap_append, buildFrequencyMap_append, buildFrequencyMap_append, ha, hb, hc,
    hd]

/-- The numbers of occurrences in that string. -/
theorem count_abcd :
    (List.replicate 1200000000 'a' ++ (List.replicate 1300000000 'b' ++
      (List.replicate 1400000000 'c' ++ List.replicate 1500000000 'd'))).count 'a'
      = 1200000000 ∧
    (List.replicate 1200000000 'a' ++ (List.replicate 1300000000 'b' ++
      (List.replicate 1400000000 'c' ++ List.replicate 1500000000 'd'))).count 'b'
      = 1300000000 ∧
    (List.replicate 1200000000 'a' ++ (List.replicate 1300000000 'b' ++
      (List.replicate 1400000000 'c' ++ List.replicate 1500000000 'd'))).count 'c'
      = 1400000000 ∧
    (List.replicate 1200000000 'a' ++ (List.replicate 1300000000 'b' ++
      (List.replicate 1400000000 'c' ++ List.replicate 1500000000 'd'))).count 'd'
      = 1500000000 := by
  refine ⟨?_, ?_, ?_, ?_⟩ <;>
  · rw [List.count_append, List.count_append, List.count_append, List.count_replicate,
      List.count_replicate, List.count_replicate, List.count_replicate]
    decide

/-- The distinct symbols of that string. -/
theorem dedup_abcd :
    ['a', 'b', 'c', 'd'].Perm
      (List.replicate 1200000000 'a' ++ (List.replicate 1300000000 'b' ++
        (List.replicate 1400000000 'c' ++ List.replicate 1500000000 'd'))).dedup := by
  rw [List.perm_ext_iff_of_nodup (by decide) (List.nodup_dedup _)]
  intro x
  rw [List.mem_dedup, List.mem_append, List.mem_append, List.mem_append, List.mem_replicate,
    List.mem_replicate, List.mem_replicate, List.mem_replicate]
  simp

/-- Two weighted path lengths under the weights 1200000000, 1300000000, 1400000000 and
1500000000 for `'a'`, `'b'`, `'c'` and `'d'`. -/
theorem pathCost_abcd (w : Char → Nat) (L1 L2 : List (Char × Nat))
    (h1 : L1 = [('a', 3), ('b', 3), ('c', 2), ('d', 1)])
    (h2 : L2 = [('a', 2), ('b', 2), ('c', 2), ('d', 2)])
    (ha : w 'a' = 1200000000) (hb : w 'b' = 1300000000) (hc : w 'c' = 1400000000)
    (hd : w 'd' = 1500000000) :
    pathCost w L1 = 11800000000 ∧ pathCost w L2 = 10800000000 ∧
      ¬ pathCost w L1 ≤ pathCost w L2 := by
  subst h1 h2
  simp only [pathCost, List.map_cons, List.map_nil, List.sum_cons, List.sum_nil, ha, hb, hc, hd]
  norm_num

/-- C18 fails as stated on an input whose length is more than `2^31 - 1`: for 1200000000
copies of `'a'`, 1300000000 of `'b'`, 1400000000 of `'c'` and 1500000000 of `'d'` every
count in the frequency map is the number of occurrences, but the sum for the cell over
`'a'` and `'b'` wraps to `-1794967296`, which makes that cell the lightest of the queue:
the tree puts `'a'`, `'b'` at depth 3, `'c'` at depth 2 and `'d'` at depth 1, at a
weighted path length of 11800000000, while the tree with all four leaves at depth 2 has
weighted path length 10800000000. -/
theorem C18_counterexample :
    HuffmanCoder.new firstMin (List.replicate 1200000000 'a' ++ (List.replicate 1300000000 'b' ++
      (List.replicate 1400000000 'c' ++ List.replicate 1500000000 'd'))) = .ok
      { huffmanCode := [('a', ['0', '0', '0']), ('b', ['0', '0', '1']), ('c', ['0', '1']),
          ('d', ['1'])],
        freqMap := [('a', 1200000000), ('b', 1300000000), ('c', 1400000000),
          ('d', 1500000000)],
        root := Node.mk '\x00' 1105032704
          (Node.mk '\x00' (-394967296)
            (Node.mk '\x00' (-1794967296) (Node.leaf 'a' 1200000000)
              (Node.leaf 'b' 1300000000))
            (Node.leaf 'c' 1400000000))
          (Node.leaf 'd' 1500000000) } ∧
    (leafChars (Node.mk '\x00' 0
        (Node.mk '\x00' 0 (Node.leaf 'a' 0) (Node.leaf 'b' 0))
        (Node.mk '\x00' 0 (Node.leaf 'c' 0) (Node.leaf 'd' 0)))).Perm
      (List.replicate 1200000000 'a' ++ (List.replicate 1300000000 'b' ++
        (List.replicate 1400000000 'c' ++ List.replicate 1500000000 'd'))).dedup ∧
    pathCost (fun c => (List.replicate 1200000000 'a' ++ (List.replicate 1300000000 'b' ++
        (List.replicate 1400000000 'c' ++ List.replicate 1500000000 'd'))).count c)
      (symDepths (Node.mk '\x00' 1105032704
        (Node.mk '\x00' (-394967296)
          (Node.mk '\x00' (-1794967296) (Node.leaf 'a' 1200000000)
            (Node.leaf 'b' 1300000000))
          (Node.leaf 'c' 1400000000))
        (Node.leaf 'd' 1500000000))) = 11800000000 ∧
    pathCost (fun c => (List.replicate 1200000000 'a' ++ (List.replicate 1300000000 'b' ++
        (List.replicate 1400000000 'c' ++ List.replicate 1500000000 'd'))).count c)
      (symDepths (Node.mk '\x00' 0
        (Node.mk '\x00' 0 (Node.leaf 'a' 0) (Node.leaf 'b' 0))
        (Node.mk '\x00' 0 (Node.leaf 'c' 0) (Node.leaf 'd' 0)))) = 10800000000 ∧
    ¬ pathCost (fun c => (List.replicate 1200000000 'a' ++ (List.replicate 1300000000 'b' ++
          (List.replicate 1400000000 'c' ++ List.replicate 1500000000 'd'))).count c)
        (symDepths (Node.mk '\x00' 1105032704
          (Node.mk '\x00' (-394967296)
            (Node.mk '\x00' (-1794967296) (Node.leaf 'a' 1200000000)
              (Node.leaf 'b' 1300000000))
            (Node.leaf 'c' 1400000000))
          (Node.leaf 'd' 1500000000)))
      ≤ pathCost (fun c => (List.replicate 1200000000 'a' ++ (List.replicate 1300000000 'b' ++
          (List.replicate 1400000000 'c' ++ List.replicate 1500000000 'd'))).count c)
        (symDepths (Node.mk '\x00' 0
          (Node.mk '\x00' 0 (Node.leaf 'a' 0) (Node.leaf 'b' 0))
          (Node.mk '\x00' 0 (Node.leaf 'c' 0) (Node.leaf 'd' 0)))) := by
  have hnew : HuffmanCoder.new firstMin (List.replicate 1200000000 'a' ++
      (List.replicate 1300000000 'b' ++
        (List.replicate 1400000000 'c' ++ List.replicate 1500000000 'd'))) = .ok
      { huffmanCode := [('a', ['0', '0', '0']), ('b', ['0', '0', '1']), ('c', ['0', '1']),
          ('d', ['1'])],
        freqMap := [('a', 1200000000), ('b', 1300000000), ('c', 1400000000),
          ('d', 1500000000)],
        root := Node.mk '\x00' 1105032704
          (Node.mk '\x00' (-394967296)
            (Node.mk '\x00' (-1794967296) (Node.leaf 'a' 1200000000)
              (Node.leaf 'b' 1300000000))
            (Node.leaf 'c' 1400000000))
          (Node.leaf 'd' 1500000000) } := by
    rw [new_of_freqMap _ _ _ buildFrequencyMap_abcd]
    decide
  have h3 : leafChars (Node.mk '\x00' 0
      (Node.mk '\x00' 0 (Node.leaf 'a' 0) (Node.leaf 'b' 0))
      (Node.mk '\x00' 0 (Node.leaf 'c' 0) (Node.leaf 'd' 0))) = ['a', 'b', 'c', 'd'] := by
    decide
  have hcost := pathCost_abcd
    (fun c => (List.replicate 1200000000 'a' ++ (List.replicate 1300000000 'b' ++
        (List.replicate 1400000000 'c' ++ List.replicate 1500000000 'd'))).count c)
    (symDepths (Node.mk '\x00' 1105032704
      (Node.mk '\x00' (-394967296)
        (Node.mk '\x00' (-1794967296) (Node.leaf 'a' 1200000000)
          (Node.leaf 'b' 1300000000))
        (Node.leaf 'c' 1400000000))
      (Node.leaf 'd' 1500000000)))
    (symDepths (Node.mk '\x00' 0
      (Node.mk '\x00' 0 (Node.leaf 'a' 0) (Node.leaf 'b' 0))
      (Node.mk '\x00' 0 (Node.leaf 'c' 0) (Node.leaf 'd' 0))))
    (by decide) (by decide)
    count_abcd.1 count_abcd.2.1 count_abcd.2.2.1 count_abcd.2.2.2
  exact ⟨hnew, by rw [h3]; exact dedup_abcd, hcost.1, hcost.2.1, hcost.2.2⟩

/-- C18 as amended: for every non-empty input `S` of at most `2^31 - 1` characters and
every tie-breaking order, construction succeeds, the leaves of the tree carry exactly the
distinct symbols of `S`, each with its number of occurrences as weight, and the tree is
optimal: its weighted path length (the sum over its leaves of the number of occurrences
of the symbol times the depth of the leaf), which is the length of `encode(S)`, is at
most the weighted path length of every tree whose leaves carry exactly the distinct
symbols of `S`. -/
theorem C18_tree_is_optimal (tie : Nat → Nat) (S : List Char) (hS : S ≠ [])
    (hlen : S.length < 2147483648) :
    ∃ hc hc' bits, HuffmanCoder.new tie S = .ok hc ∧ hc.encode S = .ok (hc', bits) ∧
      (leafChars hc.root).Perm S.dedup ∧
      (∀ p ∈ leaves hc.root, p.2 = S.count p.1) ∧
      bits.length = pathCost (fun c => S.count c) (symDepths hc.root) ∧
      ∀ t : Node, (leafChars t).Perm S.dedup →
        pathCost (fun c => S.count c) (symDepths hc.root)
          ≤ pathCost (fun c => S.count c) (symDepths t) := by
  obtain ⟨root, h1, _, h3⟩ :=
    buildHuffmanTree_spec tie (buildFrequencyMap S []) (buildFrequencyMap_ne_nil S hS)
  have hnd := leafChars_nodup_of_perm h3 (keys_buildFrequencyMap_nodup S)
  have hg := generateHuffmanCodes_eq root [] [] (by simp [keys]) hnd
  have hnew : HuffmanCoder.new tie S = .ok
      { huffmanCode := (leafPaths root).map (fun e => (e.1, e.2.2)),
        freqMap := buildFrequencyMap S [], root := root } := by
    simp only [HuffmanCoder.new, h1, hg, List.nil_append]
  have hchars : (leafChars root).Perm S.dedup := by
    rw [leafChars_eq_keys_leaves]
    exact (List.Perm.map _ h3).trans (keys_freqMap_perm_dedup S)
  refine ⟨_, _, _, hnew, rfl, hchars, ?_, ?_, ?_⟩
  · intro p hp
    exact freqMap_entry_count S (count_lt_of_length S hlen) p (h3.subset hp)
  · simp only [foldl_encodeStep, List.nil_append]
    rw [length_codesOf, pathCost_eq_sum_dedup S root hchars hnd]
    exact sum_map_eq_sum_dedup_count _ S
  · intro t ht
    have htne : t ≠ .null := by
      intro e
      rw [e] at ht
      have hl := ht.length_eq
      have hpos : 0 < S.dedup.length := by
        cases S with
        | nil => exact absurd rfl hS
        | cons c S => exact List.length_pos_of_mem (List.mem_dedup.2 (List.mem_cons_self _ _))
      simp [leafChars, leafPaths] at hl
      omega
    obtain ⟨u, hu1, hu2⟩ := exists_htree t htne
    have hne : seedQueue (buildFrequencyMap S []) ≠ [] := by
      rw [seedQueue_eq]; simpa using buildFrequencyMap_ne_nil S hS
    have hlen' : (seedQueue (buildFrequencyMap S [])).length
        = ((seedQueue (buildFrequencyMap S [])).length - 1) + 1 := by
      have := List.length_pos.2 hne
      omega
    have hopt := mergeLoop_optimal tie _ _ 0 (seedQueue (buildFrequencyMap S [])) root hlen'
      (Nat.le_succ _)
      (by
        intro x hx
        rw [seedQueue_eq] at hx
        obtain ⟨p, _, rfl⟩ := List.mem_map.1 hx
        exact ⟨p.1, p.2, rfl⟩)
      (by rw [forestLeaves_seedQueue]; exact keys_buildFrequencyMap_nodup S)
      (by
        rw [forestLeaves_seedQueue, weightSum_freqMap S (count_lt_of_length S hlen)]
        exact_mod_cast hlen)
      h1 (fun c => S.count c)
      (by
        intro p hp
        rw [forestLeaves_seedQueue] at hp
        exact (freqMap_entry_count S (count_lt_of_length S hlen) p hp).symm)
      u
      (by
        rw [forestLeaves_seedQueue, hu1]
        exact ht.trans (keys_freqMap_perm_dedup S).symm)
    exact hopt.trans (hu2 _)

/-- C18 as amended, at the input "abracadabra" with the first-minimum tie-break. -/
theorem C18_tree_is_optimal_witness :
    "abracadabra".toList ≠ [] ∧ "abracadabra".toList.length < 2147483648 ∧
    ∃ hc hc' bits, HuffmanCoder.new firstMin "abracadabra".toList = .ok hc ∧
      hc.encode "abracadabra".toList = .ok (hc', bits) ∧
      (leafChars hc.root).Perm "abracadabra".toList.dedup ∧
      (∀ p ∈ leaves hc.root, p.2 = "abracadabra".toList.count p.1) ∧
      bits.length
        = pathCost (fun c => "abracadabra".toList.count c) (symDepths hc.root) ∧
      ∀ t : Node, (leafChars t).Perm "abracadabra".toList.dedup →
        pathCost (fun c => "abracadabra".toList.count c) (symDepths hc.root)
          ≤ pathCost (fun c => "abracadabra".toList.count c) (symDepths t) :=
  ⟨by decide, by decide,
    C18_tree_is_optimal firstMin "abracadabra".toList (by decide) (by decide)⟩

end Huffman
